import Mathlib

/-!
# Word-frequency pipeline (`src/word/main.go`): a shallow embedding

Go values are embedded as follows.

* A Go `string` is its sequence of bytes (`GoString`); a byte is a natural
  number below 256, a `rune` a natural number (the code point), both of type `Nat`.
* `[]rune(s)` and `for _, ch := range s` decode UTF-8 the way the Go runtime
  does: an ill-formed byte yields `utf8.RuneError` (U+FFFD) and is one byte wide.
* Go's `int` is modelled by `Int`. The counts of the pipeline are numbers of
  tokens, bounded by the number of bytes of the text and so far below `2^63`.
  `Insert` takes any `int`, so its addition `node.count += count1` wraps around
  as on a 64-bit platform (`wrap64`).
* The body of `sort.Sort` is not part of the repository. On a slice of at most
  12 elements it is the insertion sort of package `sort`, which is embedded;
  on a longer slice it is the sequence of `Swap` calls that the library makes,
  a parameter (`SortLib`).
* A `map[string]int` is an association list with pairwise distinct keys; the
  order of the list stands for the (unspecified) iteration order of the map.
* A call that may panic or loop returns an `Outcome`.
-/

namespace WordFreq

/-! ## Definitions -/

/-! ### Strings and UTF-8 -/

/-- A Go string: its bytes. -/
abbrev GoString := List Nat

/-- The constant `utf8.RuneError`. -/
def RuneError : Nat := 0xFFFD

/-- The tables `first` and `acceptRanges` of `unicode/utf8`: for a lead byte the
length of the sequence and the range accepted for its second byte. Length 1 is
ASCII (`as`), length 0 an invalid lead byte (`xx`). -/
def leadInfo (b : Nat) : Nat × Nat × Nat :=
  if b < 0x80 then (1, 0, 0)
  else if b < 0xC2 then (0, 0, 0)
  else if b < 0xE0 then (2, 0x80, 0xBF)
  else if b = 0xE0 then (3, 0xA0, 0xBF)
  else if b < 0xED then (3, 0x80, 0xBF)
  else if b = 0xED then (3, 0x80, 0x9F)
  else if b < 0xF0 then (3, 0x80, 0xBF)
  else if b = 0xF0 then (4, 0x90, 0xBF)
  else if b < 0xF4 then (4, 0x80, 0xBF)
  else if b = 0xF4 then (4, 0x80, 0x8F)
  else (0, 0, 0)

/-- The function `utf8.DecodeRuneInString`: the first rune of `s` and its width
in bytes; `(RuneError, 1)` for an ill-formed sequence, `(RuneError, 0)` for the
empty string. Masks and shifts are written arithmetically: `x & 0x3F` is
`x % 64`, `x << 6` is `x * 64`, and the `|` of disjoint bit fields is `+`. -/
def decodeRune : GoString → Nat × Nat
  | [] => (RuneError, 0)
  | s0 :: t =>
    let info := leadInfo s0
    let sz := info.1
    if sz = 1 then (s0, 1)
    else if sz = 0 then (RuneError, 1)
    else if t.length + 1 < sz then (RuneError, 1)
    else
      let s1 := t.getD 0 0
      if s1 < info.2.1 ∨ info.2.2 < s1 then (RuneError, 1)
      else if sz ≤ 2 then ((s0 % 32) * 64 + s1 % 64, 2)
      else
        let s2 := t.getD 1 0
        if s2 < 0x80 ∨ 0xBF < s2 then (RuneError, 1)
        else if sz ≤ 3 then ((s0 % 16) * 4096 + (s1 % 64) * 64 + s2 % 64, 3)
        else
          let s3 := t.getD 2 0
          if s3 < 0x80 ∨ 0xBF < s3 then (RuneError, 1)
          else ((s0 % 8) * 262144 + (s1 % 64) * 4096 + (s2 % 64) * 64 + s3 % 64, 4)

/-- The function `utf8.AppendRune` on an empty buffer: the UTF-8 encoding of a
rune; a surrogate or a value above `utf8.MaxRune` is encoded as `RuneError`. -/
def encodeRune (r : Nat) : GoString :=
  if r ≤ 0x7F then [r]
  else if r ≤ 0x7FF then [0xC0 + r / 64, 0x80 + r % 64]
  else if 0x10FFFF < r ∨ (0xD800 ≤ r ∧ r ≤ 0xDFFF) then [0xEF, 0xBF, 0xBD]
  else if r ≤ 0xFFFF then [0xE0 + r / 4096, 0x80 + r / 64 % 64, 0x80 + r % 64]
  else [0xF0 + r / 262144, 0x80 + r / 4096 % 64, 0x80 + r / 64 % 64, 0x80 + r % 64]

/-- The decoding loop behind `[]rune(s)` and `range s`: every rune of `s` with
the bytes it was read from. The first argument bounds the number of steps;
`s.length` steps always suffice, a step consumes at least one byte. -/
def segmentsAux : Nat → GoString → List (Nat × GoString)
  | 0, _ => []
  | _ + 1, [] => []
  | fuel + 1, b :: t =>
    let d := decodeRune (b :: t)
    (d.1, (b :: t).take d.2) :: segmentsAux fuel ((b :: t).drop d.2)

/-- The runes of `s`, each with its source bytes. -/
def segments (s : GoString) : List (Nat × GoString) := segmentsAux s.length s

/-- The conversion `[]rune(s)`. -/
def runes (s : GoString) : List Nat := (segments s).map Prod.fst

/-! ### The partitioner `splitString` -/

/-- The result of running a piece of Go code for a bounded number of loop
iterations. -/
inductive Outcome (α : Type) where
  | ret (v : α)
  | panic
  | running
  deriving DecidableEq, Repr

/-- The slice expression `s[i:j]` on a string: a run-time panic unless
`0 ≤ i ≤ j ≤ len(s)`. -/
def slice (s : GoString) (i j : Int) : Option GoString :=
  if 0 ≤ i ∧ i ≤ j ∧ j ≤ (s.length : Int) then
    some ((s.drop i.toNat).take (j.toNat - i.toNat))
  else none

/-- The loop of `splitString`: `n` is `len(runes)`, `i` the loop variable and
`parts` the slice built so far; `fuel` bounds the number of iterations. -/
def splitLoop (s : GoString) (n chunkSize : Int) : Nat → Int → List GoString →
    Outcome (List GoString)
  | 0, i, parts => if i < n then .running else .ret parts
  | fuel + 1, i, parts =>
    if i < n then
      let end0 := i + chunkSize
      let end1 := if end0 > n then n else end0
      match slice s i end1 with
      | none => .panic
      | some part => splitLoop s n chunkSize fuel (i + chunkSize) (parts ++ [part])
    else .ret parts

/-- The function `splitString`, run for at most `fuel` iterations of its loop. -/
def splitString (fuel : Nat) (s : GoString) (chunkSize : Int) : Outcome (List GoString) :=
  splitLoop s ((runes s).length : Int) chunkSize fuel 0 []

/-- The function `utf8.ValidString`: no decoding step reports an ill-formed byte. -/
def validUTF8 (s : GoString) : Bool :=
  (segments s).all fun seg => !(seg.1 == RuneError && seg.2.length == 1)

/-! ### The frequency trie -/

/-- The struct `TrieNode`: `children` is the map from a rune to the child node
(`none` for an absent key, whose value is the nil pointer), `count` the count. -/
inductive TrieNode where
  | mk (children : Nat → Option TrieNode) (count : Int)

/-- The field `children`. -/
def TrieNode.children : TrieNode → Nat → Option TrieNode
  | .mk c _ => c

/-- The field `count`. -/
def TrieNode.count : TrieNode → Int
  | .mk _ n => n

/-- The function `NewTrieNode`: an empty `children` map and count 0. -/
def NewTrieNode : TrieNode := .mk (fun _ => none) 0

/-- The value of an `int` expression on a 64-bit platform: the mathematical
value reduced to the range `-2^63 .. 2^63 - 1` (two's-complement wrap-around). -/
def wrap64 (x : Int) : Int := (x + 2 ^ 63) % 2 ^ 64 - 2 ^ 63

/-- The number is a value of Go's 64-bit `int`. -/
def isInt64 (x : Int) : Bool := decide (-(2 ^ 63) ≤ x ∧ x < 2 ^ 63)

/-- The body of `Insert` over the runes that `range word` yields: where
`node.children[ch] == nil` a new node is created, the walk moves to the child,
and `node.count += count1` is executed at the node reached after the last
rune, in 64-bit `int` arithmetic. The updated node is returned. -/
def insertRunes : List Nat → TrieNode → Int → TrieNode
  | [], node, count1 => .mk node.children (wrap64 (node.count + count1))
  | ch :: rest, node, count1 =>
    let child := match node.children ch with
      | none => NewTrieNode
      | some c => c
    .mk (Function.update node.children ch (some (insertRunes rest child count1))) node.count

/-- The method `(*TrieNode).Insert`. -/
def Insert (n : TrieNode) (word : GoString) (count1 : Int) : TrieNode :=
  insertRunes (runes word) n count1

/-- The body of `GetFrequency` over the runes that `range word` yields: 0 as
soon as `node.children[ch] == nil`, else the count of the node reached. -/
def getRunes : List Nat → TrieNode → Int
  | [], node => node.count
  | ch :: rest, node =>
    match node.children ch with
    | none => 0
    | some c => getRunes rest c

/-- The method `(*TrieNode).GetFrequency`. -/
def GetFrequency (n : TrieNode) (word : GoString) : Int :=
  getRunes (runes word) n

/-- A run of `Insert` calls on a trie, in order. -/
def insertAll (n : TrieNode) (ops : List (GoString × Int)) : TrieNode :=
  ops.foldl (fun t op => Insert t op.1 op.2) n

/-- The sum of the counts of the inserts whose word decodes to the runes `w`. -/
def insertedTotal (ops : List (GoString × Int)) (w : List Nat) : Int :=
  ((ops.filter fun op => runes op.1 = w).map Prod.snd).sum

/-- The sum of the counts of the inserts of exactly the string `w`. -/
def insertedFor (ops : List (GoString × Int)) (w : GoString) : Int :=
  ((ops.filter fun op => op.1 = w).map Prod.snd).sum

/-! ### Frequency mappings (`map[string]int`) -/

/-- A Go `map[string]int`: its entries, in some iteration order. -/
abbrev FreqMap := List (GoString × Int)

/-- The index expression `m[k]`: the zero value when the key is absent. -/
def mapGet : FreqMap → GoString → Int
  | [], _ => 0
  | (k', v) :: rest, k => if k' = k then v else mapGet rest k

/-- The lookup `v, ok := m[k]`: `none` when the key is absent. -/
def mapFind : FreqMap → GoString → Option Int
  | [], _ => none
  | (k', v) :: rest, k => if k' = k then some v else mapFind rest k

/-- The assignment `m[k] = v`: the entry of `k` is replaced, or a new one added. -/
def mapSet : FreqMap → GoString → Int → FreqMap
  | [], k, v => [(k, v)]
  | (k', v') :: rest, k, v => if k' = k then (k, v) :: rest else (k', v') :: mapSet rest k v

/-- The update `m[k] += d` (with `d = 1`: `m[k]++`). -/
def mapAdd (m : FreqMap) (k : GoString) (d : Int) : FreqMap :=
  mapSet m k (mapGet m k + d)

/-- The keys of a map. -/
def mapKeys (m : FreqMap) : List GoString := m.map Prod.fst

/-! ### The chunk counter `wordCount` -/

/-- The character class of the regular expression in `wordCount`:
`, . ? ! # $ % ^ & * ( ~`. -/
def punctClass (r : Nat) : Bool :=
  r = 0x2C || r = 0x2E || r = 0x3F || r = 0x21 || r = 0x23 || r = 0x24 || r = 0x25
    || r = 0x5E || r = 0x26 || r = 0x2A || r = 0x28 || r = 0x7E

/-- The call `re.ReplaceAllString(s, "")` for the expression `[,.?!#$%^&*(~]+`:
every maximal run of runes of the class is matched and replaced by the empty
string, so the bytes of exactly the runes outside the class remain. -/
def ReplaceAllString (s : GoString) : GoString :=
  (((segments s).filter fun seg => !punctClass seg.1).map Prod.snd).flatten

/-- The function `unicode.IsSpace`. -/
def IsSpace (r : Nat) : Bool :=
  if r ≤ 0xFF then
    r = 0x09 || r = 0x0A || r = 0x0B || r = 0x0C || r = 0x0D || r = 0x20 || r = 0x85
      || r = 0xA0
  else
    r = 0x1680 || (0x2000 ≤ r && r ≤ 0x200A) || r = 0x2028 || r = 0x2029 || r = 0x202F
      || r = 0x205F || r = 0x3000

/-- The loop of `strings.FieldsFunc(s, unicode.IsSpace)` over the decoded runes:
`cur` is the field being read (`none` while `start < 0`), `fields` the fields
recorded so far. -/
def fieldsLoop : List (Nat × GoString) → Option GoString → List GoString → List GoString
  | [], none, fields => fields
  | [], some f, fields => fields ++ [f]
  | seg :: rest, cur, fields =>
    if IsSpace seg.1 then
      match cur with
      | some f => fieldsLoop rest none (fields ++ [f])
      | none => fieldsLoop rest none fields
    else
      match cur with
      | some f => fieldsLoop rest (some (f ++ seg.2)) fields
      | none => fieldsLoop rest (some seg.2) fields

/-- The function `strings.Fields`: the substrings of `s` between runs of white
space (`unicode.IsSpace`). -/
def Fields (s : GoString) : List GoString := fieldsLoop (segments s) none []

/-- The function `unicode.ToLower`. Above ASCII the result comes from the case
tables of the Unicode version in use, `unicode.To(unicode.LowerCase, r)`,
which are a parameter `tbl` here. -/
def unicodeToLower (tbl : Nat → Nat) (r : Nat) : Nat :=
  if r ≤ 0x7F then (if 0x41 ≤ r ∧ r ≤ 0x5A then r + 0x20 else r) else tbl r

/-- The function `strings.Map`: the encodings of the images of the runes of `s`.
(Its fast path returns `s` itself when no rune changes and no byte is
ill-formed, which are the same bytes.) -/
def Map (mapping : Nat → Nat) (s : GoString) : GoString :=
  ((runes s).map fun r => encodeRune (mapping r)).flatten

/-- The function `strings.ToLower`: byte-wise on an ASCII string, else
`Map(unicode.ToLower, s)`. -/
def ToLower (tbl : Nat → Nat) (s : GoString) : GoString :=
  if s.all (fun c => c < 0x80) then
    s.map fun c => if 0x41 ≤ c ∧ c ≤ 0x5A then c + 0x20 else c
  else Map (unicodeToLower tbl) s

/-- The function `wordCount`; the result is the mapping it sends on the channel. -/
def wordCount (tbl : Nat → Nat) (s : GoString) : FreqMap :=
  let str := ReplaceAllString s
  let words := Fields str
  words.foldl (fun wordFreq word => mapAdd wordFreq (ToLower tbl word) 1) []

/-- The bytes of an ASCII text. -/
def ascii (s : String) : GoString := s.toList.map Char.toNat

/-! ### The merge loop of `main` -/

/-- The inner loop of the merge: `for word, count := range result` adds every
entry of `result` into `finalResults`. -/
def mergeOne (finalResults result : FreqMap) : FreqMap :=
  result.foldl (fun fr e => mapAdd fr e.1 e.2) finalResults

/-- The merge loop of `main`: `results` are the mappings received from the
channel, in the order of arrival, merged into an empty `finalResults`. -/
def mergeLoop (results : List FreqMap) : FreqMap :=
  results.foldl mergeOne []

/-! ### Reference definitions of the claims -/

/-- Reference definition: the chunk without any occurrence of the characters
`, . ? ! # $ % ^ & * ( ~` (ASCII characters, one byte each). -/
def specStrip (s : GoString) : GoString := s.filter fun b => !punctClass b

/-- The bytes of a run of decoded runes. -/
def runBytes (run : List (Nat × GoString)) : GoString := (run.map Prod.snd).flatten

/-- Reference definition: the tokens of a chunk, the maximal runs of characters
that are not white space, after the drop characters are deleted. -/
def specTokens (s : GoString) : List GoString :=
  (((segments (specStrip s)).splitOnP fun seg => IsSpace seg.1).filter
    fun run => !run.isEmpty).map runBytes

/-- Reference definition: the lower-case form of a character. The letters `A`
to `Z` become `a` to `z`, every other ASCII character is its own lower-case
form, and a character above ASCII has the form that the Unicode case table
`tbl` gives. -/
def specLowerRune (tbl : Nat → Nat) (r : Nat) : Nat :=
  if 0x41 ≤ r ∧ r ≤ 0x5A then r + 0x20 else if r < 0x80 then r else tbl r

/-- Reference definition: the lower-case form of a token, the encodings of the
lower-case forms of its characters (an ill-formed byte counts as the character
U+FFFD, as in every decoding of a Go string). -/
def specLower (tbl : Nat → Nat) (t : GoString) : GoString :=
  ((runes t).map fun r => encodeRune (specLowerRune tbl r)).flatten

/-- Reference definition: the number of tokens of the chunk whose lower-case
form is `w`. -/
def specCount (tbl : Nat → Nat) (s w : GoString) : Nat :=
  (specTokens s).countP fun t => specLower tbl t = w

/-- The sum of the values of the entries of `m` with key `w`. -/
def entrySum (m : FreqMap) (w : GoString) : Int :=
  ((m.filter fun e => e.1 = w).map Prod.snd).sum

/-! ### Ranking and the trie construction of `main` -/

/-- The struct `kv`. -/
structure kv where
  Key : GoString
  Value : Int
  deriving DecidableEq, Repr

/-- The type `ByValue`, a slice of `kv`. -/
abbrev ByValue := List kv

/-- The element `a[i]` of a slice; indices stay in range in every call below. -/
def ByValue.at (a : ByValue) (i : Nat) : kv := a.getD i ⟨[], 0⟩

/-- The method `ByValue.Len`. -/
def ByValue.Len (a : ByValue) : Nat := a.length

/-- The method `ByValue.Swap`: `a[i], a[j] = a[j], a[i]`. -/
def ByValue.Swap (a : ByValue) (i j : Nat) : ByValue :=
  (a.set i (ByValue.at a j)).set j (ByValue.at a i)

/-- The method `ByValue.Less`: `a[i].Value > a[j].Value` (descending order). -/
def ByValue.Less (a : ByValue) (i j : Nat) : Bool :=
  decide ((ByValue.at a i).Value > (ByValue.at a j).Value)

/-- The inner loop of the insertion sort of package `sort`:
`for j := i; j > 0 && data.Less(j, j-1); j-- { data.Swap(j, j-1) }`. -/
def insertionInner : Nat → ByValue → ByValue
  | 0, a => a
  | j + 1, a =>
    if ByValue.Less a (j + 1) j then insertionInner j (ByValue.Swap a (j + 1) j) else a

/-- The function `insertionSort(data, 0, data.Len())` of package `sort`:
`for i := 1; i < data.Len(); i++` followed by the inner loop. -/
def insertionSort (a : ByValue) : ByValue :=
  (List.range' 1 (ByValue.Len a - 1)).foldl (fun acc i => insertionInner i acc) a

/-- The part of `sort.Sort` that is not embedded: for the data of a slice of more
than 12 elements, the sequence of the calls `data.Swap(i, j)` that the library
makes, each with indices below `data.Len()`. -/
abbrev SortLib := (a : ByValue) → List (Fin a.length × Fin a.length)

/-- A sequence of `Swap` calls carried out on a slice. -/
def applySwaps (a : ByValue) (sws : List (Nat × Nat)) : ByValue :=
  sws.foldl (fun d sw => ByValue.Swap d sw.1 sw.2) a

/-- The call `sort.Sort(data)`, which since Go 1.19 is `pdqsort(data, 0, n, limit)`.
A slice of at most 12 elements (`maxInsertion`) is sorted by `insertionSort`; on
a longer slice the `Swap` calls of the library are carried out. -/
def sortSort (lib : SortLib) (a : ByValue) : ByValue :=
  if ByValue.Len a ≤ 12 then insertionSort a
  else applySwaps a ((lib a).map fun sw => (sw.1.val, sw.2.val))

/-- The contract of `sort.Sort` on a slice of more than 12 elements ("Sort sorts
data in ascending order as determined by the Less method"): in the result no
element is `Less` than an element before it. -/
def sortContract (lib : SortLib) : Prop :=
  ∀ a : ByValue, 12 < ByValue.Len a →
    ∀ i j, i < j → j < ByValue.Len a → ByValue.Less (sortSort lib a) j i = false

/-- The loop `for k, v := range finalResults { ss = append(ss, kv{k, v}) }`. -/
def collect (finalResults : FreqMap) : ByValue :=
  finalResults.foldl (fun ss e => ss ++ [kv.mk e.1 e.2]) []

/-- The ranked sequence of `main`: the entries of the global mapping, sorted. -/
def rank (lib : SortLib) (finalResults : FreqMap) : ByValue :=
  sortSort lib (collect finalResults)

/-- Insertion of `x` into a reversed prefix: `x` passes the elements of smaller
value. -/
def insertRev (x : kv) : List kv → List kv
  | [] => [x]
  | y :: ys => if x.Value > y.Value then y :: insertRev x ys else x :: y :: ys

/-- The trie construction of `main`: `root := NewTrieNode()` and then
`root.Insert(kv.Key, kv.Value)` for every entry of the ranked sequence. -/
def buildTrie (ss : ByValue) : TrieNode :=
  ss.foldl (fun root e => Insert root e.Key e.Value) NewTrieNode

/-- The sum of the counts of the entries of `m` whose key decodes to the runes
of `w`. -/
def runeSum (m : FreqMap) (w : GoString) : Int :=
  ((m.filter fun e => runes e.1 = runes w).map Prod.snd).sum

/-! ### Auxiliary definitions of the proofs -/

/-- The body of `decodeRune` as a function of the table entry of the lead byte,
the number `n` of bytes after it and the three bytes that follow. -/
def decodeCore (sz lo hi s0 n s1 s2 s3 : Nat) : Nat × Nat :=
  if sz = 1 then (s0, 1)
  else if sz = 0 then (RuneError, 1)
  else if n + 1 < sz then (RuneError, 1)
  else if s1 < lo ∨ hi < s1 then (RuneError, 1)
  else if sz ≤ 2 then ((s0 % 32) * 64 + s1 % 64, 2)
  else if s2 < 0x80 ∨ 0xBF < s2 then (RuneError, 1)
  else if sz ≤ 3 then ((s0 % 16) * 4096 + (s1 % 64) * 64 + s2 % 64, 3)
  else if s3 < 0x80 ∨ 0xBF < s3 then (RuneError, 1)
  else ((s0 % 8) * 262144 + (s1 % 64) * 4096 + (s2 % 64) * 64 + s3 % 64, 4)

/-- The white-space characters of `unicode.IsSpace`, listed. -/
def spaceRunes : List Nat :=
  [0x09, 0x0A, 0x0B, 0x0C, 0x0D, 0x20, 0x85, 0xA0, 0x1680, 0x2000, 0x2001, 0x2002, 0x2003,
    0x2004, 0x2005, 0x2006, 0x2007, 0x2008, 0x2009, 0x200A, 0x2028, 0x2029, 0x202F, 0x205F,
    0x3000]

/-- The chunk ends with a white-space character. -/
def endsWithSpace (a : GoString) : Bool :=
  spaceRunes.any fun r => (encodeRune r).isSuffixOf a

/-- The chunk begins with a white-space character. -/
def beginsWithSpace (b : GoString) : Bool :=
  spaceRunes.any fun r => (encodeRune r).isPrefixOf b

/-- No boundary between consecutive chunks falls inside a word: at every
boundary the chunk before it ends with a white-space character or the chunk
after it begins with one. -/
def noWordSplit : List GoString → Bool
  | a :: b :: rest => (endsWithSpace a || beginsWithSpace b) && noWordSplit (b :: rest)
  | _ => true

/-- The tokens of a list of decoded runes. -/
def tokensOf (segs : List (Nat × GoString)) : List GoString :=
  ((segs.splitOnP fun seg => IsSpace seg.1).filter fun run => !run.isEmpty).map runBytes

/-- The rune that `utf8.AppendRune` encodes: `RuneError` for a surrogate or a
value above `utf8.MaxRune`. -/
def encodedRune (r : Nat) : Nat :=
  if 0x10FFFF < r ∨ (0xD800 ≤ r ∧ r ≤ 0xDFFF) then RuneError else r

/-- Reference definition: the number of chunks, `ceil(n / k)`. -/
def chunkCount (n k : Nat) : Nat := (n + k - 1) / k

/-- The chunk number `j` that `splitString` cuts: the BYTES `j*k` up to
`min((j+1)*k, n)` of the string, `n` being the number of runes. -/
def byteChunk (s : GoString) (n k j : Nat) : GoString :=
  (s.drop (j * k)).take (min ((j + 1) * k) n - j * k)

/-- Reference definition: chunk number `j` as a run of whole characters, the
runes at positions `j*k` up to `min((j+1)*k, n)` of the text. -/
def runeChunk (s : GoString) (k j : Nat) : GoString :=
  runBytes (((segments s).drop (j * k)).take k)

/-- The chunk consists only of white-space characters and characters of the
drop set `, . ? ! # $ % ^ & * ( ~`. -/
def onlySpaceOrPunct (s : GoString) : Bool :=
  (runes s).all fun r => IsSpace r || punctClass r

/-- A character of a normalised word: no white-space character, no drop
character, no upper-case ASCII letter. -/
def normalRune (r : Nat) : Bool :=
  !IsSpace r && !punctClass r && !(0x41 ≤ r && r ≤ 0x5A)

/-- What is assumed of the Unicode case table: the lower-case form of a
character above ASCII that is no white-space character is neither a
white-space character, nor a drop character, nor an upper-case ASCII letter. -/
def lowerTableOK (tbl : Nat → Nat) : Prop :=
  ∀ r, 0x7F < r → IsSpace r = false → normalRune (tbl r) = true

/-- The `Swap` calls of the inner loop of the insertion sort. -/
def insertionInnerSwaps : Nat → ByValue → List (Nat × Nat)
  | 0, _ => []
  | j + 1, a =>
    if ByValue.Less a (j + 1) j then (j + 1, j) :: insertionInnerSwaps j (ByValue.Swap a (j + 1) j)
    else []

/-- The `Swap` calls of the insertion sort over the positions `is`. -/
def insertionSwaps : List Nat → ByValue → List (Nat × Nat)
  | [], _ => []
  | i :: is, a => insertionInnerSwaps i a ++ insertionSwaps is (insertionInner i a)

/-- A library that sorts every slice by insertion: its `Swap` calls. -/
def insertionLib : SortLib := fun a =>
  (insertionSwaps (List.range' 1 (ByValue.Len a - 1)) a).filterMap fun sw =>
    if h : sw.1 < a.length ∧ sw.2 < a.length then some (⟨sw.1, h.1⟩, ⟨sw.2, h.2⟩) else none

/-! ## Lemmas -/

theorem decodeRune_width_pos (b : Nat) (t : GoString) : 1 ≤ (decodeRune (b :: t)).2 := by
  unfold decodeRune
  simp only []
  repeat' split
  all_goals simp

theorem decodeRune_width_le (s : GoString) : (decodeRune s).2 ≤ s.length := by
  cases s with
  | nil => simp [decodeRune]
  | cons b t =>
    unfold decodeRune
    simp only []
    have h4 : (leadInfo b).1 ≤ 4 := by
      unfold leadInfo
      repeat' split
      all_goals simp
    repeat' split
    all_goals simp only [List.length_cons]
    all_goals omega

theorem segmentsAux_length_le (fuel : Nat) (s : GoString) :
    (segmentsAux fuel s).length ≤ s.length := by
  induction fuel generalizing s with
  | zero => simp [segmentsAux]
  | succ f ih =>
    cases s with
    | nil => simp [segmentsAux]
    | cons b t =>
      simp only [segmentsAux, List.length_cons]
      have h1 := decodeRune_width_pos b t
      have h2 := ih ((b :: t).drop (decodeRune (b :: t)).2)
      have h3 : ((b :: t).drop (decodeRune (b :: t)).2).length
          = t.length + 1 - (decodeRune (b :: t)).2 := by simp
      omega

theorem runes_length_le (s : GoString) : (runes s).length ≤ s.length := by
  simp only [runes, segments, List.length_map]
  exact segmentsAux_length_le _ _

theorem slice_eq (s : GoString) (i j : Nat) (hij : i ≤ j) (hj : j ≤ s.length) :
    slice s (i : Int) (j : Int) = some ((s.drop i).take (j - i)) := by
  have h : (0 : Int) ≤ (i : Int) ∧ (i : Int) ≤ (j : Int) ∧ (j : Int) ≤ (s.length : Int) := by
    omega
  simp [slice, h]

theorem take_drop_split (s : GoString) (n i k : Nat) :
    (s.drop i).take (min (i + k) n - i) ++ (s.take n).drop (i + k) = (s.take n).drop i := by
  rw [List.drop_take, List.drop_take]
  have e : s.drop (i + k) = (s.drop i).drop k := by rw [List.drop_drop]
  rw [e]
  by_cases h : i + k ≤ n
  · have e1 : min (i + k) n - i = k := by omega
    have e2 : n - i = k + (n - (i + k)) := by omega
    rw [e1, e2, List.take_add]
  · have e1 : min (i + k) n - i = n - i := by omega
    have e2 : n - (i + k) = 0 := by omega
    rw [e1, e2]; simp

/-- With a positive chunk size and enough fuel the loop of `splitString`
returns, appending non-empty chunks whose concatenation is the byte range
`[i, n)` of the string. -/
theorem splitLoop_pos (s : GoString) (n k : Nat) (hk : 0 < k) (hn : n ≤ s.length) :
    ∀ (fuel i : Nat) (parts : List GoString), n - i ≤ fuel →
      ∃ cs, splitLoop s (n : Int) (k : Int) fuel (i : Int) parts = .ret (parts ++ cs)
        ∧ cs.flatten = (s.take n).drop i ∧ (∀ c ∈ cs, c ≠ []) := by
  intro fuel
  induction fuel with
  | zero =>
    intro i parts hf
    refine ⟨[], ?_, ?_, by simp⟩
    · have : ¬ ((i : Int) < (n : Int)) := by omega
      simp [splitLoop, this]
    · simp; omega
  | succ f ih =>
    intro i parts hf
    by_cases hi : i < n
    · have hi2 : (i : Int) < (n : Int) := by omega
      have hend : (if (i : Int) + (k : Int) > (n : Int) then (n : Int) else (i : Int) + (k : Int))
          = ((min (i + k) n : Nat) : Int) := by
        split <;> omega
      obtain ⟨cs, h1, h2, h3⟩ := ih (i + k) (parts ++ [(s.drop i).take (min (i + k) n - i)])
        (by omega)
      refine ⟨(s.drop i).take (min (i + k) n - i) :: cs, ?_, ?_, ?_⟩
      · simp only [splitLoop, hi2, if_true, hend]
        rw [slice_eq s i (min (i + k) n) (by omega) (by omega)]
        simp only []
        have e : ((i : Int) + (k : Int)) = ((i + k : Nat) : Int) := by push_cast; rfl
        rw [e, h1]
        simp
      · simp only [List.flatten_cons, h2]
        exact take_drop_split s n i k
      · intro c hc
        rcases List.mem_cons.1 hc with rfl | hc
        · intro h0
          have hl := congrArg List.length h0
          simp at hl
          omega
        · exact h3 c hc
    · refine ⟨[], ?_, ?_, by simp⟩
      · have : ¬ ((i : Int) < (n : Int)) := by omega
        simp [splitLoop, this]
      · simp; omega

/-- For a positive chunk size `splitString` returns after at most `len(runes)`
iterations; the chunks are non-empty and their concatenation is the first
`len(runes)` BYTES of the string. -/
theorem splitString_pos (s : GoString) (chunkSize : Int) (hk : 0 < chunkSize)
    (fuel : Nat) (hf : (runes s).length ≤ fuel) :
    ∃ cs, splitString fuel s chunkSize = .ret cs
      ∧ cs.flatten = s.take (runes s).length ∧ (∀ c ∈ cs, c ≠ []) := by
  obtain ⟨k, rfl⟩ := Int.eq_ofNat_of_zero_le (le_of_lt hk)
  have hk2 : 0 < k := by omega
  obtain ⟨cs, h1, h2, h3⟩ :=
    splitLoop_pos s (runes s).length k hk2 (runes_length_le s) fuel 0 [] (by omega)
  exact ⟨cs, by simpa [splitString] using h1, by simpa using h2, h3⟩

/-- What the tables say about a lead byte. -/
theorem leadInfo_cases (b : Nat) :
    ((leadInfo b).1 = 1 ∧ b < 0x80) ∨ (leadInfo b).1 = 0
    ∨ ((leadInfo b).1 = 2 ∧ 0xC2 ≤ b ∧ b ≤ 0xDF ∧ (leadInfo b).2.1 = 0x80
        ∧ (leadInfo b).2.2 = 0xBF)
    ∨ ((leadInfo b).1 = 3 ∧ 0xE0 ≤ b ∧ b ≤ 0xEF ∧ 0x80 ≤ (leadInfo b).2.1
        ∧ (leadInfo b).2.2 ≤ 0xBF ∧ (b = 0xE0 → (leadInfo b).2.1 = 0xA0)
        ∧ (b = 0xED → (leadInfo b).2.2 = 0x9F))
    ∨ ((leadInfo b).1 = 4 ∧ 0xF0 ≤ b ∧ b ≤ 0xF4 ∧ 0x80 ≤ (leadInfo b).2.1
        ∧ (leadInfo b).2.2 ≤ 0xBF ∧ (b = 0xF0 → (leadInfo b).2.1 = 0x90)
        ∧ (b = 0xF4 → (leadInfo b).2.2 = 0x8F)) := by
  unfold leadInfo
  split_ifs <;> simp <;> omega

/-- The possible results of one decoding step. -/
theorem decodeRune_cases (s0 : Nat) (t : GoString) :
    (s0 < 0x80 ∧ decodeRune (s0 :: t) = (s0, 1))
    ∨ decodeRune (s0 :: t) = (RuneError, 1)
    ∨ (∃ s1 t1, t = s1 :: t1 ∧ 0xC2 ≤ s0 ∧ s0 ≤ 0xDF ∧ 0x80 ≤ s1 ∧ s1 ≤ 0xBF
        ∧ decodeRune (s0 :: t) = ((s0 % 32) * 64 + s1 % 64, 2))
    ∨ (∃ s1 s2 t2, t = s1 :: s2 :: t2 ∧ 0xE0 ≤ s0 ∧ s0 ≤ 0xEF ∧ 0x80 ≤ s1 ∧ s1 ≤ 0xBF
        ∧ (s0 = 0xE0 → 0xA0 ≤ s1) ∧ (s0 = 0xED → s1 ≤ 0x9F) ∧ 0x80 ≤ s2 ∧ s2 ≤ 0xBF
        ∧ decodeRune (s0 :: t) = ((s0 % 16) * 4096 + (s1 % 64) * 64 + s2 % 64, 3))
    ∨ (∃ s1 s2 s3 t3, t = s1 :: s2 :: s3 :: t3 ∧ 0xF0 ≤ s0 ∧ s0 ≤ 0xF4 ∧ 0x80 ≤ s1
        ∧ s1 ≤ 0xBF ∧ (s0 = 0xF0 → 0x90 ≤ s1) ∧ (s0 = 0xF4 → s1 ≤ 0x8F) ∧ 0x80 ≤ s2
        ∧ s2 ≤ 0xBF ∧ 0x80 ≤ s3 ∧ s3 ≤ 0xBF
        ∧ decodeRune (s0 :: t)
            = ((s0 % 8) * 262144 + (s1 % 64) * 4096 + (s2 % 64) * 64 + s3 % 64, 4)) := by
  have h := leadInfo_cases s0
  unfold decodeRune
  simp only []
  generalize leadInfo s0 = info at h ⊢
  obtain ⟨sz, lo, hi⟩ := info
  simp only at h ⊢
  rcases h with ⟨rfl, h0⟩ | rfl | ⟨rfl, h1, h2, rfl, rfl⟩ | ⟨rfl, h1, h2, h3, h4, h5, h6⟩
    | ⟨rfl, h1, h2, h3, h4, h5, h6⟩
  · left; simp [h0]
  · right; left; simp
  · rcases t with _ | ⟨s1, t1⟩
    · right; left; simp
    · by_cases hr : s1 < 0x80 ∨ 0xBF < s1
      · right; left; simp [hr]
      · right; right; left
        refine ⟨s1, t1, rfl, h1, h2, by omega, by omega, ?_⟩
        simp [hr]
  · rcases t with _ | ⟨s1, _ | ⟨s2, t2⟩⟩
    · right; left; simp
    · right; left; simp
    · by_cases hr : s1 < lo ∨ hi < s1
      · right; left; simp [hr]
      · by_cases hr2 : s2 < 0x80 ∨ 0xBF < s2
        · right; left; simp [hr, hr2]
        · right; right; right; left
          refine ⟨s1, s2, t2, rfl, h1, h2, by omega, by omega, ?_, ?_, by omega, by omega, ?_⟩
          · intro e; have := h5 e; omega
          · intro e; have := h6 e; omega
          · simp [hr, hr2]
  · rcases t with _ | ⟨s1, _ | ⟨s2, _ | ⟨s3, t3⟩⟩⟩
    · right; left; simp
    · right; left; simp
    · right; left; simp
    · by_cases hr : s1 < lo ∨ hi < s1
      · right; left; simp [hr]
      · by_cases hr2 : s2 < 0x80 ∨ 0xBF < s2
        · right; left; simp [hr, hr2]
        · by_cases hr3 : s3 < 0x80 ∨ 0xBF < s3
          · right; left; simp [hr, hr2, hr3]
          · right; right; right; right
            refine ⟨s1, s2, s3, t3, rfl, h1, h2, by omega, by omega, ?_, ?_, by omega,
              by omega, by omega, by omega, ?_⟩
            · intro e; have := h5 e; omega
            · intro e; have := h6 e; omega
            · simp [hr, hr2, hr3]

theorem encodeRune_two (s0 s1 : Nat) (h1 : 0xC2 ≤ s0) (h2 : s0 ≤ 0xDF) (h3 : 0x80 ≤ s1)
    (h4 : s1 ≤ 0xBF) : encodeRune (s0 % 32 * 64 + s1 % 64) = [s0, s1] := by
  generalize hr : s0 % 32 * 64 + s1 % 64 = r
  have c1 : ¬ (r ≤ 0x7F) := by omega
  have c2 : r ≤ 0x7FF := by omega
  have f1 : 0xC0 + r / 64 = s0 := by omega
  have f2 : 0x80 + r % 64 = s1 := by omega
  simp only [encodeRune, if_neg c1, if_pos c2, f1, f2]

theorem encodeRune_three (s0 s1 s2 : Nat) (h1 : 0xE0 ≤ s0) (h2 : s0 ≤ 0xEF)
    (h3 : 0x80 ≤ s1) (h4 : s1 ≤ 0xBF) (h5 : s0 = 0xE0 → 0xA0 ≤ s1)
    (h6 : s0 = 0xED → s1 ≤ 0x9F) (h7 : 0x80 ≤ s2) (h8 : s2 ≤ 0xBF) :
    encodeRune (s0 % 16 * 4096 + s1 % 64 * 64 + s2 % 64) = [s0, s1, s2] := by
  generalize hr : s0 % 16 * 4096 + s1 % 64 * 64 + s2 % 64 = r
  have c1 : ¬ (r ≤ 0x7F) := by omega
  have c2 : ¬ (r ≤ 0x7FF) := by omega
  have c3 : ¬ (0x10FFFF < r ∨ (0xD800 ≤ r ∧ r ≤ 0xDFFF)) := by omega
  have c4 : r ≤ 0xFFFF := by omega
  have f1 : 0xE0 + r / 4096 = s0 := by omega
  have f2 : 0x80 + r / 64 % 64 = s1 := by omega
  have f3 : 0x80 + r % 64 = s2 := by omega
  simp only [encodeRune, if_neg c1, if_neg c2, if_neg c3, if_pos c4, f1, f2, f3]

theorem encodeRune_four (s0 s1 s2 s3 : Nat) (h1 : 0xF0 ≤ s0) (h2 : s0 ≤ 0xF4)
    (h3 : 0x80 ≤ s1) (h4 : s1 ≤ 0xBF) (h5 : s0 = 0xF0 → 0x90 ≤ s1)
    (h6 : s0 = 0xF4 → s1 ≤ 0x8F) (h7 : 0x80 ≤ s2) (h8 : s2 ≤ 0xBF) (h9 : 0x80 ≤ s3)
    (h10 : s3 ≤ 0xBF) :
    encodeRune (s0 % 8 * 262144 + s1 % 64 * 4096 + s2 % 64 * 64 + s3 % 64)
      = [s0, s1, s2, s3] := by
  generalize hr : s0 % 8 * 262144 + s1 % 64 * 4096 + s2 % 64 * 64 + s3 % 64 = r
  have c1 : ¬ (r ≤ 0x7F) := by omega
  have c2 : ¬ (r ≤ 0x7FF) := by omega
  have c3 : ¬ (0x10FFFF < r ∨ (0xD800 ≤ r ∧ r ≤ 0xDFFF)) := by omega
  have c4 : ¬ (r ≤ 0xFFFF) := by omega
  have f1 : 0xF0 + r / 262144 = s0 := by omega
  have f2 : 0x80 + r / 4096 % 64 = s1 := by omega
  have f3 : 0x80 + r / 64 % 64 = s2 := by omega
  have f4 : 0x80 + r % 64 = s3 := by omega
  simp only [encodeRune, if_neg c1, if_neg c2, if_neg c3, if_neg c4, f1, f2, f3, f4]

/-- A decoding step that does not report an ill-formed byte reads exactly the
UTF-8 encoding of the rune it returns. -/
theorem encode_decode (s : GoString) (hs : s ≠ [])
    (hv : ¬ ((decodeRune s).1 = RuneError ∧ (decodeRune s).2 = 1)) :
    encodeRune (decodeRune s).1 = s.take (decodeRune s).2 := by
  rcases s with _ | ⟨s0, t⟩
  · exact absurd rfl hs
  rcases decodeRune_cases s0 t with ⟨h0, e⟩ | e | ⟨s1, t1, rfl, h1, h2, h3, h4, e⟩
    | ⟨s1, s2, t2, rfl, h1, h2, h3, h4, h5, h6, h7, h8, e⟩
    | ⟨s1, s2, s3, t3, rfl, h1, h2, h3, h4, h5, h6, h7, h8, h9, h10, e⟩
  · rw [e]
    have h : s0 ≤ 0x7F := by omega
    simp [encodeRune, h]
  · rw [e] at hv; simp at hv
  · rw [e]
    simp only [List.take_succ_cons, List.take_zero]
    exact encodeRune_two s0 s1 h1 h2 h3 h4
  · rw [e]
    simp only [List.take_succ_cons, List.take_zero]
    exact encodeRune_three s0 s1 s2 h1 h2 h3 h4 h5 h6 h7 h8
  · rw [e]
    simp only [List.take_succ_cons, List.take_zero]
    exact encodeRune_four s0 s1 s2 s3 h1 h2 h3 h4 h5 h6 h7 h8 h9 h10

theorem segmentsAux_fuel (fuel : Nat) (s : GoString) (h : s.length ≤ fuel) :
    segmentsAux fuel s = segmentsAux s.length s := by
  induction fuel using Nat.strong_induction_on generalizing s with
  | _ fuel ih =>
    rcases s with _ | ⟨b, t⟩
    · cases fuel <;> simp [segmentsAux]
    · obtain ⟨f, rfl⟩ : ∃ f, fuel = f + 1 := ⟨fuel - 1, by simp at h; omega⟩
      simp only [segmentsAux, List.length_cons]
      have h1 := decodeRune_width_pos b t
      have hl : ((b :: t).drop (decodeRune (b :: t)).2).length
          = t.length + 1 - (decodeRune (b :: t)).2 := by simp
      simp only [List.length_cons] at h
      rw [ih f (by omega) _ (by omega), ih t.length (by omega) _ (by omega)]

@[simp] theorem segments_nil : segments [] = [] := rfl

theorem segments_cons (b : Nat) (t : GoString) :
    segments (b :: t) = ((decodeRune (b :: t)).1, (b :: t).take (decodeRune (b :: t)).2)
      :: segments ((b :: t).drop (decodeRune (b :: t)).2) := by
  have h1 := decodeRune_width_pos b t
  have hl : ((b :: t).drop (decodeRune (b :: t)).2).length
      = t.length + 1 - (decodeRune (b :: t)).2 := by simp
  simp only [segments, List.length_cons, segmentsAux]
  rw [segmentsAux_fuel t.length _ (by omega)]

/-- Induction along the decoding loop. -/
theorem decode_induction (P : GoString → Prop) (hnil : P [])
    (hstep : ∀ b t, P ((b :: t).drop (decodeRune (b :: t)).2) → P (b :: t)) :
    ∀ s, P s := by
  have key : ∀ n (s : GoString), s.length = n → P s := by
    intro n
    induction n using Nat.strong_induction_on with
    | _ n ih =>
      intro s hn
      rcases s with _ | ⟨b, t⟩
      · exact hnil
      · apply hstep
        have h1 := decodeRune_width_pos b t
        have hl : ((b :: t).drop (decodeRune (b :: t)).2).length
            = t.length + 1 - (decodeRune (b :: t)).2 := by simp
        simp only [List.length_cons] at hn
        exact ih _ (by omega) _ rfl
  exact fun s => key _ s rfl

/-- The source bytes of the decoded runes make up the string. -/
theorem segments_flatten (s : GoString) : ((segments s).map Prod.snd).flatten = s := by
  induction s using decode_induction with
  | hnil => rfl
  | hstep b t ih =>
    rw [segments_cons]
    simp only [List.map_cons, List.flatten_cons, ih]
    exact List.take_append_drop _ _

theorem validUTF8_cons (b : Nat) (t : GoString) :
    validUTF8 (b :: t) = (!((decodeRune (b :: t)).1 == RuneError && (decodeRune (b :: t)).2 == 1)
      && validUTF8 ((b :: t).drop (decodeRune (b :: t)).2)) := by
  have hw := decodeRune_width_le (b :: t)
  simp only [validUTF8, segments_cons, List.all_cons, List.length_take]
  rw [Nat.min_eq_left hw]

/-- A well-formed string is the concatenation of the encodings of its runes. -/
theorem encode_runes (s : GoString) (h : validUTF8 s = true) :
    ((runes s).map encodeRune).flatten = s := by
  induction s using decode_induction with
  | hnil => rfl
  | hstep b t ih =>
    rw [validUTF8_cons] at h
    simp only [Bool.and_eq_true, Bool.not_eq_true', Bool.and_eq_false_iff, beq_eq_false_iff_ne,
      ne_eq] at h
    have hv : ¬ ((decodeRune (b :: t)).1 = RuneError ∧ (decodeRune (b :: t)).2 = 1) := by
      rintro ⟨h1, h2⟩
      rcases h.1 with h3 | h3
      · exact h3 h1
      · exact h3 h2
    have e := encode_decode (b :: t) (by simp) hv
    have ih2 := ih h.2
    simp only [runes] at ih2 ⊢
    rw [segments_cons]
    simp only [List.map_cons, List.flatten_cons, ih2, e]
    exact List.take_append_drop _ _

/-- Decoding is injective on well-formed strings. -/
theorem runes_injective (s t : GoString) (hs : validUTF8 s = true) (ht : validUTF8 t = true)
    (h : runes s = runes t) : s = t := by
  rw [← encode_runes s hs, ← encode_runes t ht, h]

@[simp] theorem children_mk (f : Nat → Option TrieNode) (k : Int) :
    (TrieNode.mk f k).children = f := rfl

@[simp] theorem count_mk (f : Nat → Option TrieNode) (k : Int) :
    (TrieNode.mk f k).count = k := rfl

theorem getRunes_new (w : List Nat) : getRunes w NewTrieNode = 0 := by
  cases w <;> simp [getRunes, NewTrieNode]

theorem wrap64_isInt64 (x : Int) : isInt64 (wrap64 x) = true := by
  simp only [isInt64, wrap64, decide_eq_true_eq]
  omega

theorem wrap64_of_isInt64 (x : Int) (h : isInt64 x = true) : wrap64 x = x := by
  simp only [isInt64, decide_eq_true_eq] at h
  unfold wrap64
  omega

theorem wrap64_add_left (a b : Int) : wrap64 (wrap64 a + b) = wrap64 (a + b) := by
  unfold wrap64
  omega

theorem wrap64_zero : wrap64 0 = 0 := by decide

theorem getRunes_insert_same (w : List Nat) (n : TrieNode) (c : Int) :
    getRunes w (insertRunes w n c) = wrap64 (getRunes w n + c) := by
  induction w generalizing n with
  | nil => simp [getRunes, insertRunes]
  | cons ch rest ih =>
    simp only [getRunes, insertRunes, children_mk, Function.update_same]
    rw [ih]
    cases h : n.children ch with
    | none => simp [getRunes_new]
    | some x => simp

theorem getRunes_insert_ne (w v : List Nat) (hne : w ≠ v) (n : TrieNode) (c : Int) :
    getRunes w (insertRunes v n c) = getRunes w n := by
  induction v generalizing w n with
  | nil =>
    cases w with
    | nil => exact absurd rfl hne
    | cons a r => simp [getRunes, insertRunes]
  | cons ch rest ih =>
    cases w with
    | nil => simp [getRunes, insertRunes]
    | cons a r =>
      simp only [getRunes, insertRunes, children_mk]
      by_cases hc : a = ch
      · subst hc
        have hr : r ≠ rest := fun e => hne (by rw [e])
        simp only [Function.update_same]
        rw [ih r hr]
        cases h : n.children a with
        | none => simp [getRunes_new]
        | some x => simp
      · rw [Function.update_noteq hc]

theorem getRunes_insertAll (ops : List (GoString × Int)) (n : TrieNode) (w : List Nat)
    (hn : isInt64 (getRunes w n) = true) :
    getRunes w (insertAll n ops) = wrap64 (getRunes w n + insertedTotal ops w) := by
  induction ops generalizing n with
  | nil => simp [insertAll, insertedTotal, wrap64_of_isInt64 _ hn]
  | cons op rest ih =>
    have e : insertAll n (op :: rest) = insertAll (Insert n op.1 op.2) rest := rfl
    by_cases h : runes op.1 = w
    · subst h
      have h1 : getRunes (runes op.1) (Insert n op.1 op.2)
          = wrap64 (getRunes (runes op.1) n + op.2) := getRunes_insert_same _ _ _
      rw [e, ih _ (by rw [h1]; exact wrap64_isInt64 _), h1, wrap64_add_left]
      simp only [insertedTotal, List.filter_cons_of_pos, decide_True, List.map_cons,
        List.sum_cons]
      rw [add_assoc]
    · have h2 : w ≠ runes op.1 := fun e => h e.symm
      have h1 : getRunes w (Insert n op.1 op.2) = getRunes w n :=
        getRunes_insert_ne w _ h2 n op.2
      rw [e, ih _ (by rw [h1]; exact hn), h1]
      simp [insertedTotal, List.filter_cons, h]

theorem getRunes_insertAll_new (ops : List (GoString × Int)) (w : List Nat) :
    getRunes w (insertAll NewTrieNode ops) = wrap64 (insertedTotal ops w) := by
  rw [getRunes_insertAll ops NewTrieNode w (by rw [getRunes_new]; rfl), getRunes_new, zero_add]

theorem splitLoop_succ (s : GoString) (n k : Int) (fuel : Nat) (i : Int)
    (parts v : List GoString) (h : splitLoop s n k fuel i parts = .ret v) :
    splitLoop s n k (fuel + 1) i parts = .ret v := by
  induction fuel generalizing i parts with
  | zero =>
    by_cases hi : i < n
    · simp [splitLoop, hi] at h
    · simpa [splitLoop, hi] using h
  | succ f ih =>
    by_cases hi : i < n
    · rw [splitLoop] at h ⊢
      simp only [hi, if_true] at h ⊢
      cases hs : slice s i (if i + k > n then n else i + k) with
      | none => rw [hs] at h; simp at h
      | some part =>
        rw [hs] at h
        simp only at h ⊢
        exact ih _ _ h
    · rw [splitLoop] at h ⊢
      simpa [hi] using h

theorem splitString_fuel_mono (s : GoString) (k : Int) (f g : Nat) (v : List GoString)
    (h : splitString f s k = .ret v) (hfg : f ≤ g) : splitString g s k = .ret v := by
  induction g with
  | zero =>
    have : f = 0 := by omega
    subst this; exact h
  | succ g ih =>
    by_cases e : f = g + 1
    · subst e; exact h
    · exact splitLoop_succ _ _ _ _ _ _ _ (ih (by omega))

theorem insertedTotal_eq_insertedFor (ops : List (GoString × Int)) (w : GoString)
    (hw : validUTF8 w = true) (hops : ∀ op ∈ ops, validUTF8 op.1 = true) :
    insertedTotal ops (runes w) = insertedFor ops w := by
  unfold insertedTotal insertedFor
  congr 2
  apply List.filter_congr
  intro op hop
  by_cases h : op.1 = w
  · simp [h]
  · have h2 : runes op.1 ≠ runes w := fun e => h (runes_injective _ _ (hops op hop) hw e)
    simp [h, h2]

theorem getFrequency_absent (ops : List (GoString × Int)) (w : GoString)
    (h : ∀ op ∈ ops, runes op.1 ≠ runes w
      ∨ (validUTF8 op.1 = true ∧ validUTF8 w = true ∧ op.1 ≠ w)) :
    GetFrequency (insertAll NewTrieNode ops) w = 0 := by
  have hne : ∀ op ∈ ops, runes op.1 ≠ runes w := by
    intro op hop
    rcases h op hop with h1 | ⟨h1, h2, h3⟩
    · exact h1
    · exact fun e => h3 (runes_injective _ _ h1 h2 e)
  have hz : insertedTotal ops (runes w) = 0 := by
    unfold insertedTotal
    rw [List.filter_eq_nil_iff.2]
    · rfl
    · intro op hop
      simpa using hne op hop
  rw [GetFrequency, getRunes_insertAll_new, hz, wrap64_zero]

theorem punctClass_lt (x : Nat) (h : punctClass x = true) : x < 0x80 := by
  simp only [punctClass, Bool.or_eq_true, decide_eq_true_eq] at h
  omega

theorem decodeRune_ascii (b : Nat) (t : GoString) (h : b < 0x80) :
    decodeRune (b :: t) = (b, 1) := by
  simp [decodeRune, leadInfo, h]

/-- The bytes read by one decoding step survive the byte-wise deletion exactly
when the decoded rune is outside the class. -/
theorem strip_step (b : Nat) (t : GoString) :
    ((b :: t).take (decodeRune (b :: t)).2).filter (fun x => !punctClass x)
      = if punctClass (decodeRune (b :: t)).1 then [] else (b :: t).take (decodeRune (b :: t)).2
    := by
  have np : ∀ x, 0x80 ≤ x → punctClass x = false := by
    intro x hx
    cases h : punctClass x with
    | false => rfl
    | true => have := punctClass_lt x h; omega
  rcases decodeRune_cases b t with ⟨h0, e⟩ | e | ⟨s1, t1, rfl, h1, h2, h3, h4, e⟩
    | ⟨s1, s2, t2, rfl, h1, h2, h3, h4, h5, h6, h7, h8, e⟩
    | ⟨s1, s2, s3, t3, rfl, h1, h2, h3, h4, h5, h6, h7, h8, h9, h10, e⟩
  · rw [e]
    cases h : punctClass b <;> simp [h]
  · rw [e]
    have hb : 0x80 ≤ b := by
      by_contra hlt
      have := decodeRune_ascii b t (by omega)
      rw [e] at this
      simp only [RuneError, Prod.mk.injEq, and_true] at this
      omega
    have hr : punctClass RuneError = false := by decide
    simp [np b hb, hr]
  · rw [e]
    have hr : punctClass (b % 32 * 64 + s1 % 64) = false := np _ (by omega)
    simp [hr, np b (by omega), np s1 h3]
  · rw [e]
    have hr : punctClass (b % 16 * 4096 + s1 % 64 * 64 + s2 % 64) = false := np _ (by omega)
    simp [hr, np b (by omega), np s1 h3, np s2 h7]
  · rw [e]
    have hr : punctClass (b % 8 * 262144 + s1 % 64 * 4096 + s2 % 64 * 64 + s3 % 64) = false :=
      np _ (by omega)
    simp [hr, np b (by omega), np s1 h3, np s2 h7, np s3 h9]

/-- The replacement deletes exactly the bytes of the drop characters. -/
theorem ReplaceAllString_eq (s : GoString) : ReplaceAllString s = specStrip s := by
  induction s using decode_induction with
  | hnil => rfl
  | hstep b t ih =>
    have hs : specStrip (b :: t)
        = ((b :: t).take (decodeRune (b :: t)).2).filter (fun x => !punctClass x)
          ++ specStrip ((b :: t).drop (decodeRune (b :: t)).2) := by
      unfold specStrip
      rw [← List.filter_append, List.take_append_drop]
    rw [hs, strip_step, ← ih]
    unfold ReplaceAllString
    rw [segments_cons]
    cases h : punctClass (decodeRune (b :: t)).1 <;> simp [List.filter_cons, h]

/-- The scanning loop of `Fields` against the split at white space: with no
field open it yields the non-empty runs, with a field open the first run
continues that field. -/
theorem fieldsLoop_eq (segs : List (Nat × GoString)) :
    (∀ fields, fieldsLoop segs none fields
      = fields ++ ((segs.splitOnP fun seg => IsSpace seg.1).filter
          fun run => !run.isEmpty).map runBytes)
    ∧ (∀ f fields, fieldsLoop segs (some f) fields
      = fields ++ (f ++ runBytes ((segs.splitOnP fun seg => IsSpace seg.1).headD []))
          :: (((segs.splitOnP fun seg => IsSpace seg.1).tail).filter
              fun run => !run.isEmpty).map runBytes) := by
  induction segs with
  | nil => simp [fieldsLoop, runBytes]
  | cons seg rest ih =>
    obtain ⟨ihA, ihB⟩ := ih
    obtain ⟨first, others, hsp⟩ : ∃ first others,
        (rest.splitOnP fun seg => IsSpace seg.1) = first :: others := by
      cases h : rest.splitOnP fun seg => IsSpace seg.1 with
      | nil => exact absurd h (List.splitOnP_ne_nil _ _)
      | cons a b => exact ⟨a, b, rfl⟩
    by_cases hsp2 : IsSpace seg.1 = true
    · constructor
      · intro fields
        simp [fieldsLoop, hsp2, ihA]
      · intro f fields
        simp [fieldsLoop, hsp2, ihA, runBytes]
    · simp only [Bool.not_eq_true] at hsp2
      constructor
      · intro fields
        simp [fieldsLoop, hsp2, ihB, hsp, runBytes]
      · intro f fields
        simp [fieldsLoop, hsp2, ihB, hsp, runBytes]

theorem Fields_eq (s : GoString) :
    Fields s = (((segments s).splitOnP fun seg => IsSpace seg.1).filter
      fun run => !run.isEmpty).map runBytes := by
  simp [Fields, (fieldsLoop_eq (segments s)).1]

theorem mapFind_mapSet_same (m : FreqMap) (k : GoString) (v : Int) :
    mapFind (mapSet m k v) k = some v := by
  induction m with
  | nil => simp [mapSet, mapFind]
  | cons e rest ih =>
    obtain ⟨k', v'⟩ := e
    by_cases h : k' = k
    · simp [mapSet, mapFind, h]
    · simp [mapSet, mapFind, h, ih]

theorem mapFind_mapSet_ne (m : FreqMap) (k w : GoString) (v : Int) (h : k ≠ w) :
    mapFind (mapSet m k v) w = mapFind m w := by
  induction m with
  | nil => simp [mapSet, mapFind, h]
  | cons e rest ih =>
    obtain ⟨k', v'⟩ := e
    by_cases h2 : k' = k
    · subst h2
      simp [mapSet, mapFind, h]
    · by_cases h3 : k' = w
      · subst h3
        simp [mapSet, mapFind, h2]
      · simp [mapSet, mapFind, h2, h3, ih]

theorem mapGet_eq_mapFind (m : FreqMap) (k : GoString) :
    mapGet m k = (mapFind m k).getD 0 := by
  induction m with
  | nil => rfl
  | cons e rest ih =>
    obtain ⟨k', v'⟩ := e
    by_cases h : k' = k <;> simp [mapGet, mapFind, h, ih]

theorem mapKeys_mapSet_nodup (m : FreqMap) (k : GoString) (v : Int)
    (h : (mapKeys m).Nodup) : (mapKeys (mapSet m k v)).Nodup := by
  induction m with
  | nil => simp [mapSet, mapKeys]
  | cons e rest ih =>
    obtain ⟨k', v'⟩ := e
    simp only [mapKeys, List.map_cons, List.nodup_cons] at h
    by_cases h2 : k' = k
    · subst h2
      simpa [mapSet, mapKeys] using h
    · have hk : ∀ x, x ∈ mapKeys (mapSet rest k v) → x = k ∨ x ∈ mapKeys rest := by
        intro x
        clear ih h
        induction rest with
        | nil => simp [mapSet, mapKeys]
        | cons e2 r2 ih2 =>
          obtain ⟨k2, v2⟩ := e2
          by_cases h3 : k2 = k
          · subst h3; simp [mapSet, mapKeys]
          · simp only [mapSet, h3, if_false, mapKeys, List.map_cons, List.mem_cons]
            rintro (hx | hx)
            · exact Or.inr (Or.inl hx)
            · rcases ih2 hx with h4 | h4
              · exact Or.inl h4
              · exact Or.inr (Or.inr h4)
      simp only [mapSet, h2, if_false, mapKeys, List.map_cons, List.nodup_cons]
      refine ⟨?_, ih h.2⟩
      intro hmem
      rcases hk k' hmem with h4 | h4
      · exact h2 h4
      · exact h.1 h4

theorem mapFind_isSome_iff (m : FreqMap) (k : GoString) :
    (mapFind m k).isSome = true ↔ k ∈ mapKeys m := by
  induction m with
  | nil => simp [mapFind, mapKeys]
  | cons e rest ih =>
    obtain ⟨k', v'⟩ := e
    by_cases h : k' = k
    · simp [mapFind, mapKeys, h]
    · have h' : ¬ k = k' := fun e => h e.symm
      simp only [mapFind, h, if_false, mapKeys, List.map_cons, List.mem_cons, h', false_or]
      exact ih

/-- The runes of an ASCII string are its bytes. -/
theorem segments_ascii (s : GoString) (h : ∀ c ∈ s, c < 0x80) :
    segments s = s.map fun c => (c, [c]) := by
  induction s with
  | nil => rfl
  | cons c t ih =>
    rw [segments_cons, decodeRune_ascii c t (h c (List.mem_cons_self _ _))]
    simp only [List.take_succ_cons, List.take_zero, List.drop_succ_cons, List.drop_zero,
      List.map_cons]
    rw [ih fun x hx => h x (List.mem_cons_of_mem _ hx)]

theorem unicodeToLower_eq (tbl : Nat → Nat) : unicodeToLower tbl = specLowerRune tbl := by
  funext r
  unfold unicodeToLower specLowerRune
  by_cases h1 : r ≤ 0x7F
  · have h2 : r < 0x80 := by omega
    simp only [h1, h2, if_true]
  · have h2 : ¬ r < 0x80 := by omega
    have h3 : ¬ (0x41 ≤ r ∧ r ≤ 0x5A) := by omega
    simp only [h1, h2, h3, if_false]

/-- The two paths of `strings.ToLower` give the lower-case form of the reference
definition, character by character. -/
theorem ToLower_eq_specLower (tbl : Nat → Nat) (t : GoString) :
    ToLower tbl t = specLower tbl t := by
  unfold ToLower
  split
  · rename_i h
    have ha : ∀ c ∈ t, c < 0x80 := by
      intro c hc
      simpa using List.all_eq_true.1 h c hc
    unfold specLower
    rw [runes, segments_ascii t ha, List.map_map, List.map_map]
    clear h
    induction t with
    | nil => rfl
    | cons c r ih =>
      have hc := ha c (List.mem_cons_self _ _)
      simp only [List.map_cons, List.flatten_cons, Function.comp]
      rw [← ih fun x hx => ha x (List.mem_cons_of_mem _ hx)]
      have e : encodeRune (specLowerRune tbl c)
          = [if 0x41 ≤ c ∧ c ≤ 0x5A then c + 0x20 else c] := by
        unfold specLowerRune encodeRune
        by_cases h1 : 0x41 ≤ c ∧ c ≤ 0x5A
        · rw [if_pos h1, if_pos h1, if_pos (by omega)]
        · rw [if_neg h1, if_neg h1, if_pos hc, if_pos (by omega)]
      rw [e]
      rfl
  · rw [Map, unicodeToLower_eq]
    rfl

theorem punctClass_iff (r : Nat) : punctClass r = true ↔ r ∈ ascii ",.?!#$%^&*(~" := by
  have e : ascii ",.?!#$%^&*(~"
      = [0x2C, 0x2E, 0x3F, 0x21, 0x23, 0x24, 0x25, 0x5E, 0x26, 0x2A, 0x28, 0x7E] := by decide
  rw [e]
  simp only [punctClass, Bool.or_eq_true, decide_eq_true_eq, List.mem_cons, List.mem_singleton,
    List.not_mem_nil, or_false]
  omega

theorem foldl_count (tbl : Nat → Nat) (ws : List GoString) (m : FreqMap) (w : GoString) :
    mapFind (ws.foldl (fun wordFreq word => mapAdd wordFreq (ToLower tbl word) 1) m) w
      = match mapFind m w with
        | some v => some (v + (ws.countP fun t => ToLower tbl t = w : Nat))
        | none => if (ws.countP fun t => ToLower tbl t = w) = 0 then none
            else some ((ws.countP fun t => ToLower tbl t = w : Nat) : Int) := by
  induction ws generalizing m with
  | nil => cases h : mapFind m w <;> simp [h]
  | cons t rest ih =>
    simp only [List.foldl_cons]
    rw [ih]
    by_cases hw : ToLower tbl t = w
    · subst hw
      simp only [mapAdd, mapFind_mapSet_same, mapGet_eq_mapFind]
      rw [List.countP_cons_of_pos _ _ (by simp)]
      cases h : mapFind m (ToLower tbl t) with
      | none => simp; omega
      | some v => simp; omega
    · rw [mapAdd, mapFind_mapSet_ne _ _ _ _ hw]
      rw [List.countP_cons_of_neg _ _ (by simpa using hw)]

theorem entrySum_eq_mapGet (m : FreqMap) (w : GoString) (h : (mapKeys m).Nodup) :
    entrySum m w = mapGet m w := by
  induction m with
  | nil => rfl
  | cons e rest ih =>
    obtain ⟨k, v⟩ := e
    simp only [mapKeys, List.map_cons, List.nodup_cons] at h
    by_cases hk : k = w
    · subst hk
      have h0 : (rest.filter fun e => e.1 = k) = [] := by
        rw [List.filter_eq_nil_iff]
        intro e he
        simp only [decide_eq_true_eq]
        intro hek
        exact h.1 (hek ▸ List.mem_map_of_mem Prod.fst he)
      simp [entrySum, mapGet, List.filter_cons, h0]
    · have := ih h.2
      simp only [entrySum] at this
      simp [entrySum, mapGet, List.filter_cons, hk, this]

theorem mapFind_mapAdd_same (m : FreqMap) (k : GoString) (d : Int) :
    mapFind (mapAdd m k d) k = some (mapGet m k + d) := by
  simp [mapAdd, mapFind_mapSet_same]

theorem mapFind_mapAdd_ne (m : FreqMap) (k w : GoString) (d : Int) (h : k ≠ w) :
    mapFind (mapAdd m k d) w = mapFind m w := by
  simp [mapAdd, mapFind_mapSet_ne _ _ _ _ h]

theorem mergeOne_find (m fr : FreqMap) (w : GoString) :
    mapFind (mergeOne fr m) w
      = if (mapFind fr w).isSome = true ∨ w ∈ mapKeys m then some (mapGet fr w + entrySum m w)
        else none := by
  induction m generalizing fr with
  | nil =>
    cases h : mapFind fr w <;> simp [mergeOne, mapKeys, entrySum, mapGet_eq_mapFind, h]
  | cons e rest ih =>
    obtain ⟨k, v⟩ := e
    have e1 : mergeOne fr ((k, v) :: rest) = mergeOne (mapAdd fr k v) rest := rfl
    rw [e1, ih]
    by_cases hk : k = w
    · subst hk
      simp only [mapFind_mapAdd_same, Option.isSome_some, true_or, if_true, mapKeys,
        List.map_cons, List.mem_cons, or_true]
      simp only [mapGet_eq_mapFind, mapFind_mapAdd_same, Option.getD_some, entrySum,
        List.filter_cons_of_pos, decide_True, List.map_cons, List.sum_cons]
      congr 1
      ring
    · have hk' : ¬ w = k := fun e => hk e.symm
      simp only [mapFind_mapAdd_ne _ _ _ _ hk, mapGet_eq_mapFind, mapKeys, List.map_cons,
        List.mem_cons, hk', false_or, entrySum, List.filter_cons, hk, decide_False]
      rfl

theorem mergeLoop_find_from (ms : List FreqMap) (fr : FreqMap) (w : GoString) :
    mapFind (ms.foldl mergeOne fr) w
      = if (mapFind fr w).isSome = true ∨ (∃ m ∈ ms, w ∈ mapKeys m) then
          some (mapGet fr w + (ms.map fun m => entrySum m w).sum)
        else none := by
  induction ms generalizing fr with
  | nil => cases h : mapFind fr w <;> simp [mapGet_eq_mapFind, h]
  | cons m rest ih =>
    simp only [List.foldl_cons]
    rw [ih, mergeOne_find]
    by_cases h1 : (mapFind fr w).isSome = true ∨ w ∈ mapKeys m
    · have h2 : (mapFind fr w).isSome = true ∨ ∃ m', m' ∈ m :: rest ∧ w ∈ mapKeys m' := by
        rcases h1 with h | h
        · exact Or.inl h
        · exact Or.inr ⟨m, List.mem_cons_self _ _, h⟩
      simp only [h1, if_true, Option.isSome_some, true_or, h2, mapGet_eq_mapFind,
        Option.getD_some, List.map_cons, List.sum_cons]
      congr 1
      simp only [mergeOne_find, h1, if_true, Option.getD_some, mapGet_eq_mapFind]
      ring
    · have hn : mapFind fr w = none := by
        cases h : mapFind fr w with
        | none => rfl
        | some v => exact absurd (Or.inl (by simp [h])) h1
      have hm : w ∉ mapKeys m := fun h => h1 (Or.inr h)
      simp only [mergeOne_find, h1, if_false, Option.isSome_none, Bool.false_eq_true, false_or,
        List.mem_cons, exists_eq_or_imp, hm, hn, mapGet_eq_mapFind, Option.getD_none,
        List.map_cons, List.sum_cons]
      have hz : entrySum m w = 0 := by
        unfold entrySum
        rw [List.filter_eq_nil_iff.2]
        · rfl
        · intro e he
          simp only [decide_eq_true_eq]
          intro hek
          exact hm (hek ▸ List.mem_map_of_mem Prod.fst he)
      simp [hz]

theorem mergeLoop_find (ms : List FreqMap) (w : GoString) :
    mapFind (mergeLoop ms) w
      = if ∃ m ∈ ms, w ∈ mapKeys m then some ((ms.map fun m => entrySum m w).sum) else none := by
  simp [mergeLoop, mergeLoop_find_from, mapFind, mapGet]

theorem mergeOne_nodup (m fr : FreqMap) (h : (mapKeys fr).Nodup) :
    (mapKeys (mergeOne fr m)).Nodup := by
  induction m generalizing fr with
  | nil => exact h
  | cons e rest ih => exact ih _ (mapKeys_mapSet_nodup _ _ _ h)

theorem mergeLoop_nodup (ms : List FreqMap) : (mapKeys (mergeLoop ms)).Nodup := by
  have key : ∀ fr : FreqMap, (mapKeys fr).Nodup → (mapKeys (ms.foldl mergeOne fr)).Nodup := by
    induction ms with
    | nil => exact fun fr h => h
    | cons m rest ih => exact fun fr h => ih _ (mergeOne_nodup m fr h)
  exact key [] (by simp [mapKeys])

theorem wordCount_nodup (tbl : Nat → Nat) (s : GoString) :
    (mapKeys (wordCount tbl s)).Nodup := by
  have key : ∀ (ws : List GoString) (m : FreqMap), (mapKeys m).Nodup →
      (mapKeys (ws.foldl (fun wordFreq word => mapAdd wordFreq (ToLower tbl word) 1) m)).Nodup
      := by
    intro ws
    induction ws with
    | nil => exact fun m h => h
    | cons t rest ih => exact fun m h => ih _ (mapKeys_mapSet_nodup _ _ _ h)
  exact key _ [] (by simp [mapKeys])

theorem specTokens_eq (s : GoString) : Fields (ReplaceAllString s) = specTokens s := by
  rw [ReplaceAllString_eq, Fields_eq]
  rfl

theorem wordCount_find (tbl : Nat → Nat) (s w : GoString) :
    mapFind (wordCount tbl s) w
      = if specCount tbl s w = 0 then none else some (specCount tbl s w : Int) := by
  unfold wordCount
  simp only []
  rw [foldl_count, specTokens_eq]
  simp only [ToLower_eq_specLower]
  rfl

theorem at_append_right (L R : List kv) : ByValue.at (L ++ R) L.length = ByValue.at R 0 := by
  simp [ByValue.at, List.getD_eq_getElem?_getD, List.getElem?_append_right]

theorem insertionInner_spec (j : Nat) : ∀ (L : List kv) (x : kv) (R : List kv),
    L.length = j → insertionInner j (L ++ x :: R) = (insertRev x L.reverse).reverse ++ R := by
  induction j with
  | zero =>
    intro L x R hL
    have : L = [] := List.length_eq_zero.1 hL
    subst this
    simp [insertionInner, insertRev]
  | succ j ih =>
    intro L x R hL
    obtain ⟨L', y, rfl⟩ : ∃ L' y, L = L' ++ [y] := by
      rcases List.eq_nil_or_concat L with h | ⟨L', y, h⟩
      · subst h; simp at hL
      · exact ⟨L', y, by simpa using h⟩
    have hL' : L'.length = j := by simpa using hL
    have hx : ByValue.at (L' ++ [y] ++ x :: R) (j + 1) = x := by
      have := at_append_right (L' ++ [y]) (x :: R)
      simp only [List.length_append, List.length_singleton, hL'] at this
      rw [this]; rfl
    have hy : ByValue.at (L' ++ [y] ++ x :: R) j = y := by
      have := at_append_right L' ([y] ++ x :: R)
      rw [hL'] at this
      simp only [List.append_assoc]
      rw [this]; rfl
    have hsw : ByValue.Swap (L' ++ [y] ++ x :: R) (j + 1) j = L' ++ x :: y :: R := by
      unfold ByValue.Swap
      rw [hx, hy]
      subst hL'
      simp [List.set_append]
    simp only [insertionInner, ByValue.Less, hx, hy, List.reverse_append, List.reverse_cons,
      List.reverse_nil, List.nil_append, List.singleton_append, insertRev]
    by_cases hlt : x.Value > y.Value
    · simp only [hlt, decide_True, if_true, hsw]
      rw [ih L' x (y :: R) hL']
      simp
    · simp [hlt]

theorem insertionSort_eq (a : ByValue) :
    insertionSort a = (a.foldl (fun rp x => insertRev x rp) []).reverse := by
  have key : ∀ (R P : List kv),
      (List.range' P.length R.length).foldl (fun acc i => insertionInner i acc) (P ++ R)
        = (R.foldl (fun rp x => insertRev x rp) P.reverse).reverse := by
    intro R
    induction R with
    | nil => intro P; simp
    | cons x R ih =>
      intro P
      simp only [List.length_cons, List.range'_succ, List.foldl_cons]
      rw [insertionInner_spec P.length P x R rfl]
      have hlen : ((insertRev x P.reverse).reverse).length = P.length + 1 := by
        have : ∀ (l : List kv), (insertRev x l).length = l.length + 1 := by
          intro l
          induction l with
          | nil => rfl
          | cons y ys ihl =>
            simp only [insertRev]
            split <;> simp [ihl]
        simp [this]
      have := ih ((insertRev x P.reverse).reverse)
      rw [hlen] at this
      rw [this]
      simp
  cases a with
  | nil => rfl
  | cons a0 R =>
    have := key R [a0]
    simpa [insertionSort, ByValue.Len, insertRev] using this

theorem insertRev_perm (x : kv) (l : List kv) : (insertRev x l).Perm (x :: l) := by
  induction l with
  | nil => exact List.Perm.refl _
  | cons y ys ih =>
    simp only [insertRev]
    split
    · exact (List.Perm.cons y ih).trans (List.Perm.swap x y ys)
    · exact List.Perm.refl _

theorem insertRev_sorted (x : kv) (l : List kv)
    (h : l.Pairwise fun p q => p.Value ≤ q.Value) :
    (insertRev x l).Pairwise fun p q => p.Value ≤ q.Value := by
  induction l with
  | nil => simp [insertRev]
  | cons y ys ih =>
    rw [List.pairwise_cons] at h
    simp only [insertRev]
    split
    · rename_i hlt
      rw [List.pairwise_cons]
      refine ⟨?_, ih h.2⟩
      intro z hz
      rcases List.mem_cons.1 ((insertRev_perm x ys).mem_iff.1 hz) with rfl | hz
      · exact le_of_lt hlt
      · exact h.1 z hz
    · rename_i hge
      have hxy : x.Value ≤ y.Value := not_lt.1 hge
      rw [List.pairwise_cons]
      refine ⟨?_, List.pairwise_cons.2 h⟩
      intro z hz
      rcases List.mem_cons.1 hz with rfl | hz
      · exact hxy
      · exact le_trans hxy (h.1 z hz)

theorem foldl_insertRev (a acc : List kv)
    (h : acc.Pairwise fun p q => p.Value ≤ q.Value) :
    (a.foldl (fun rp x => insertRev x rp) acc).Perm (a ++ acc)
    ∧ (a.foldl (fun rp x => insertRev x rp) acc).Pairwise fun p q => p.Value ≤ q.Value := by
  induction a generalizing acc with
  | nil => exact ⟨List.Perm.refl _, h⟩
  | cons x xs ih =>
    obtain ⟨h1, h2⟩ := ih (insertRev x acc) (insertRev_sorted x acc h)
    refine ⟨?_, h2⟩
    refine h1.trans ?_
    refine (List.Perm.append_left xs (insertRev_perm x acc)).trans ?_
    simp

theorem insertionSort_perm (a : ByValue) : (insertionSort a).Perm a := by
  rw [insertionSort_eq]
  have := (foldl_insertRev a [] List.Pairwise.nil).1
  simpa using (List.reverse_perm _).trans this

theorem insertionSort_sorted (a : ByValue) :
    (insertionSort a).Pairwise fun p q => p.Value ≥ q.Value := by
  rw [insertionSort_eq, List.pairwise_reverse]
  exact (foldl_insertRev a [] List.Pairwise.nil).2

theorem Swap_length (a : ByValue) (i j : Nat) : (ByValue.Swap a i j).length = a.length := by
  simp [ByValue.Swap]

theorem at_eq_getElem (a : ByValue) (i : Nat) (h : i < a.length) : ByValue.at a i = a[i] := by
  unfold ByValue.at
  exact List.getD_eq_getElem _ _ h

theorem set_head_perm (a : List kv) (j : Nat) (x : kv) (hj : j < a.length) :
    (a[j] :: a.set j x).Perm (x :: a) := by
  induction a generalizing j with
  | nil => simp at hj
  | cons y t ih =>
    cases j with
    | zero => simpa using List.Perm.swap x y t
    | succ j =>
      have hj2 : j < t.length := by simpa using hj
      simp only [List.getElem_cons_succ, List.set_cons_succ]
      exact (List.Perm.swap y t[j] (t.set j x)).trans
        (((ih j hj2).cons y).trans (List.Perm.swap x y t))

theorem Swap_perm (a : ByValue) (i j : Nat) (hi : i < a.length) (hj : j < a.length) :
    (ByValue.Swap a i j).Perm a := by
  unfold ByValue.Swap
  rw [at_eq_getElem a i hi, at_eq_getElem a j hj]
  induction a generalizing i j with
  | nil => simp at hi
  | cons y t ih =>
    cases i with
    | zero =>
      cases j with
      | zero => simp
      | succ j =>
        have hj2 : j < t.length := by simpa using hj
        simp only [List.getElem_cons_succ, List.set_cons_zero, List.set_cons_succ,
          List.getElem_cons_zero]
        exact set_head_perm t j y hj2
    | succ i =>
      have hi2 : i < t.length := by simpa using hi
      cases j with
      | zero =>
        simp only [List.getElem_cons_succ, List.set_cons_zero, List.set_cons_succ,
          List.getElem_cons_zero]
        exact set_head_perm t i y hi2
      | succ j =>
        have hj2 : j < t.length := by simpa using hj
        simp only [List.getElem_cons_succ, List.set_cons_succ]
        exact (ih i j hi2 hj2).cons y

theorem applySwaps_perm (sws : List (Nat × Nat)) (a : ByValue)
    (h : ∀ sw ∈ sws, sw.1 < a.length ∧ sw.2 < a.length) :
    (applySwaps a sws).Perm a := by
  induction sws generalizing a with
  | nil => exact List.Perm.refl _
  | cons sw rest ih =>
    have h0 := h sw (List.mem_cons_self _ _)
    have e : applySwaps a (sw :: rest) = applySwaps (ByValue.Swap a sw.1 sw.2) rest := rfl
    rw [e]
    refine (ih _ ?_).trans (Swap_perm a _ _ h0.1 h0.2)
    intro s hs
    rw [Swap_length]
    exact h s (List.mem_cons_of_mem _ hs)


theorem sortSort_short (lib : SortLib) (a : ByValue) (h : a.length ≤ 12) :
    sortSort lib a = insertionSort a := by
  simp [sortSort, ByValue.Len, h]

theorem sortSort_perm (lib : SortLib) (a : ByValue) : (sortSort lib a).Perm a := by
  unfold sortSort
  split
  · exact insertionSort_perm a
  · apply applySwaps_perm
    intro sw hsw
    obtain ⟨p, _, rfl⟩ := List.mem_map.1 hsw
    exact ⟨p.1.isLt, p.2.isLt⟩

theorem pairwise_of_less (r : ByValue)
    (h : ∀ i j, i < j → j < r.length → ByValue.Less r j i = false) :
    r.Pairwise fun p q => p.Value ≥ q.Value := by
  rw [List.pairwise_iff_getElem]
  intro i j hi hj hij
  have := h i j hij hj
  rw [ByValue.Less, at_eq_getElem r i hi, at_eq_getElem r j hj, decide_eq_false_iff_not] at this
  exact not_lt.1 this

theorem less_of_pairwise (r : ByValue) (h : r.Pairwise fun p q => p.Value ≥ q.Value)
    (i j : Nat) (hij : i < j) (hj : j < r.length) : ByValue.Less r j i = false := by
  rw [List.pairwise_iff_getElem] at h
  have hi : i < r.length := by omega
  have := h i j hi hj hij
  rw [ByValue.Less, at_eq_getElem r i hi, at_eq_getElem r j hj, decide_eq_false_iff_not]
  exact not_lt.2 this

theorem sortSort_sorted (lib : SortLib) (a : ByValue) (h : a.length ≤ 12 ∨ sortContract lib) :
    (sortSort lib a).Pairwise fun p q => p.Value ≥ q.Value := by
  by_cases hs : a.length ≤ 12
  · rw [sortSort_short lib a hs]
    exact insertionSort_sorted a
  · rcases h with h | h
    · exact absurd h hs
    · apply pairwise_of_less
      intro i j hij hj
      rw [(sortSort_perm lib a).length_eq] at hj
      exact h a (by simp only [ByValue.Len]; omega) i j hij hj

theorem insertionInner_length (j : Nat) (a : ByValue) : (insertionInner j a).length = a.length := by
  induction j generalizing a with
  | zero => rfl
  | succ j ih =>
    simp only [insertionInner]
    split
    · rw [ih, Swap_length]
    · rfl

theorem applySwaps_append (a : ByValue) (s t : List (Nat × Nat)) :
    applySwaps a (s ++ t) = applySwaps (applySwaps a s) t := by
  simp [applySwaps, List.foldl_append]

theorem applySwaps_insertionInner (j : Nat) (a : ByValue) :
    applySwaps a (insertionInnerSwaps j a) = insertionInner j a
    ∧ ∀ sw ∈ insertionInnerSwaps j a, sw.1 ≤ j ∧ sw.2 ≤ j := by
  induction j generalizing a with
  | zero => exact ⟨rfl, by simp [insertionInnerSwaps]⟩
  | succ j ih =>
    simp only [insertionInnerSwaps, insertionInner]
    split
    · obtain ⟨h1, h2⟩ := ih (ByValue.Swap a (j + 1) j)
      refine ⟨h1, ?_⟩
      intro sw hsw
      rcases List.mem_cons.1 hsw with rfl | hsw
      · exact ⟨le_refl _, Nat.le_succ _⟩
      · have := h2 sw hsw
        exact ⟨by omega, by omega⟩
    · exact ⟨rfl, by simp⟩

theorem applySwaps_insertionSwaps (is : List Nat) (a : ByValue) (h : ∀ i ∈ is, i < a.length) :
    applySwaps a (insertionSwaps is a) = is.foldl (fun acc i => insertionInner i acc) a
    ∧ ∀ sw ∈ insertionSwaps is a, sw.1 < a.length ∧ sw.2 < a.length := by
  induction is generalizing a with
  | nil => exact ⟨rfl, by simp [insertionSwaps]⟩
  | cons i rest ih =>
    have hi := h i (List.mem_cons_self _ _)
    obtain ⟨h1, h2⟩ := applySwaps_insertionInner i a
    obtain ⟨h3, h4⟩ := ih (insertionInner i a) (by
      intro k hk
      rw [insertionInner_length]
      exact h k (List.mem_cons_of_mem _ hk))
    simp only [insertionSwaps, List.foldl_cons]
    refine ⟨by rw [applySwaps_append, h1, h3], ?_⟩
    intro sw hsw
    rcases List.mem_append.1 hsw with hsw | hsw
    · have := h2 sw hsw
      exact ⟨by omega, by omega⟩
    · have := h4 sw hsw
      rwa [insertionInner_length] at this

theorem filterMap_inRange (n : Nat) (l : List (Nat × Nat)) (h : ∀ sw ∈ l, sw.1 < n ∧ sw.2 < n) :
    ((l.filterMap fun sw =>
      if h : sw.1 < n ∧ sw.2 < n then some ((⟨sw.1, h.1⟩, ⟨sw.2, h.2⟩) : Fin n × Fin n)
      else none).map fun sw => (sw.1.val, sw.2.val)) = l := by
  induction l with
  | nil => rfl
  | cons sw rest ih =>
    have h0 := h sw (List.mem_cons_self _ _)
    rw [List.filterMap_cons]
    simp only [h0, and_self, dite_true, List.map_cons]
    rw [ih fun s hs => h s (List.mem_cons_of_mem _ hs)]

theorem sortSort_insertionLib (a : ByValue) : sortSort insertionLib a = insertionSort a := by
  unfold sortSort
  split
  · rfl
  · have hr : ∀ i ∈ List.range' 1 (ByValue.Len a - 1), i < a.length := by
      intro i hi
      have := List.mem_range'_1.1 hi
      simp only [ByValue.Len] at this
      omega
    obtain ⟨h1, h2⟩ := applySwaps_insertionSwaps _ a hr
    unfold insertionLib
    rw [filterMap_inRange a.length _ h2, h1]
    rfl

/-- The contract of `sort.Sort` is met by the library that sorts by insertion. -/
theorem sortContract_insertionLib : sortContract insertionLib := by
  intro a _ i j hij hj
  rw [sortSort_insertionLib]
  apply less_of_pairwise _ (insertionSort_sorted a) i j hij
  rw [(insertionSort_perm a).length_eq]
  exact hj

theorem collect_eq (m : FreqMap) : collect m = m.map fun e => kv.mk e.1 e.2 := by
  have key : ∀ (m : FreqMap) (ss : List kv),
      m.foldl (fun ss e => ss ++ [kv.mk e.1 e.2]) ss = ss ++ m.map fun e => kv.mk e.1 e.2 := by
    intro m
    induction m with
    | nil => intro ss; simp
    | cons e rest ih => intro ss; simp [ih]
  simpa [collect] using key m []

theorem rank_perm (lib : SortLib) (m : FreqMap) :
    (rank lib m).Perm (m.map fun e => kv.mk e.1 e.2) := by
  rw [rank, ← collect_eq]
  exact sortSort_perm lib _

theorem rank_short (lib : SortLib) (m : FreqMap) (h : m.length ≤ 12) :
    rank lib m = insertionSort (collect m) := by
  rw [rank, sortSort_short]
  rw [collect_eq, List.length_map]
  exact h

theorem mapFind_of_mem (m : FreqMap) (h : (mapKeys m).Nodup) (k : GoString) (v : Int)
    (hm : (k, v) ∈ m) : mapFind m k = some v := by
  induction m with
  | nil => simp at hm
  | cons e rest ih =>
    obtain ⟨k', v'⟩ := e
    simp only [mapKeys, List.map_cons, List.nodup_cons] at h
    rcases List.mem_cons.1 hm with he | hm'
    · cases he
      simp [mapFind]
    · have hne : k' ≠ k := by
        intro e
        subst e
        exact h.1 (List.mem_map_of_mem Prod.fst hm')
      simp [mapFind, hne, ih h.2 hm']

theorem buildTrie_eq (ss : ByValue) :
    buildTrie ss = insertAll NewTrieNode (ss.map fun e => (e.Key, e.Value)) := by
  simp [buildTrie, insertAll, List.foldl_map]

theorem insertedTotal_perm (a b : List (GoString × Int)) (h : a.Perm b) (w : List Nat) :
    insertedTotal a w = insertedTotal b w :=
  ((h.filter _).map _).sum_eq

theorem getFrequency_buildTrie (m : FreqMap) (ss : ByValue)
    (hss : ss.Perm (m.map fun e => kv.mk e.1 e.2)) (w : GoString) :
    GetFrequency (buildTrie ss) w = wrap64 (runeSum m w) := by
  have hp : (ss.map fun e => (e.Key, e.Value)).Perm m := by
    have h1 := hss.map fun e => (e.Key, e.Value)
    have h2 : (m.map fun e => kv.mk e.1 e.2).map (fun e => (e.Key, e.Value)) = m := by
      rw [List.map_map]
      exact (List.map_congr_left fun e _ => rfl).trans (List.map_id m)
    rwa [h2] at h1
  rw [buildTrie_eq, GetFrequency, getRunes_insertAll_new, insertedTotal_perm _ _ hp]
  rfl

theorem runeSum_eq_mapGet (m : FreqMap) (hm : (mapKeys m).Nodup) (w : GoString)
    (hw : validUTF8 w = true) (hk : ∀ k ∈ mapKeys m, validUTF8 k = true) :
    runeSum m w = mapGet m w := by
  rw [← entrySum_eq_mapGet m w hm]
  unfold runeSum entrySum
  congr 2
  apply List.filter_congr
  intro e he
  have hv := hk e.1 (List.mem_map_of_mem Prod.fst he)
  by_cases h : e.1 = w
  · simp [h]
  · have h2 : runes e.1 ≠ runes w := fun e' => h (runes_injective _ _ hv hw e')
    simp [h, h2]

theorem mapGet_of_not_mem (m : FreqMap) (w : GoString) (h : w ∉ mapKeys m) : mapGet m w = 0 := by
  induction m with
  | nil => rfl
  | cons e rest ih =>
    obtain ⟨k, v⟩ := e
    simp only [mapKeys, List.map_cons, List.mem_cons, not_or] at h
    have hne : ¬ k = w := fun e => h.1 e.symm
    simp only [mapGet, hne, if_false]
    exact ih h.2

theorem decodeRune_eq_core (s0 : Nat) (t : GoString) :
    decodeRune (s0 :: t) = decodeCore (leadInfo s0).1 (leadInfo s0).2.1 (leadInfo s0).2.2 s0
      t.length (t.getD 0 0) (t.getD 1 0) (t.getD 2 0) := rfl

theorem decodeCore_stable (sz lo hi s0 n s1 s2 s3 m y1 y2 y3 : Nat) (hsz : sz ≤ 4)
    (hlo : 0x80 ≤ lo) (hhi : hi ≤ 0xBF) (hn : n ≤ m)
    (h1 : 0 < n → y1 = s1) (h2 : 1 < n → y2 = s2) (h3 : 2 < n → y3 = s3)
    (h : decodeCore sz lo hi s0 n s1 s2 s3 ≠ (RuneError, 1)
      ∨ ((n = 0 → y1 < 0x80 ∨ 0xBF < y1) ∧ (n = 1 → y2 < 0x80 ∨ 0xBF < y2)
          ∧ (n = 2 → y3 < 0x80 ∨ 0xBF < y3) ∧ n < m)) :
    decodeCore sz lo hi s0 m y1 y2 y3 = decodeCore sz lo hi s0 n s1 s2 s3 := by
  by_cases hA : n + 1 < sz
  · -- the shorter string is truncated: both steps report an ill-formed byte
    have hr : decodeCore sz lo hi s0 n s1 s2 s3 = (RuneError, 1) := by
      have c1 : ¬ sz = 1 := by omega
      simp [decodeCore, hA, c1]
    rw [hr]
    rcases h with h | ⟨f0, f1, f2, hm⟩
    · exact absurd hr h
    have c1 : ¬ sz = 1 := by omega
    have c0 : ¬ sz = 0 := by omega
    have hn3 : n = 0 ∨ n = 1 ∨ n = 2 := by omega
    rcases hn3 with rfl | rfl | rfl
    · have hc : y1 < lo ∨ hi < y1 := by have := f0 rfl; omega
      simp [decodeCore, c1, c0, hc]
    · have hc : y2 < 0x80 ∨ 0xBF < y2 := f1 rfl
      have c2 : ¬ sz ≤ 2 := by omega
      simp [decodeCore, c1, c0, c2, hc]
    · have hc : y3 < 0x80 ∨ 0xBF < y3 := f2 rfl
      have c2 : ¬ sz ≤ 2 := by omega
      have c3 : ¬ sz ≤ 3 := by omega
      simp [decodeCore, c1, c0, c2, c3, hc]
  · -- every byte that is read is a byte of the shorter string
    have hB : ¬ (m + 1 < sz) := by omega
    have hcases : sz = 0 ∨ sz = 1 ∨ sz = 2 ∨ sz = 3 ∨ sz = 4 := by omega
    rcases hcases with rfl | rfl | rfl | rfl | rfl
    · simp [decodeCore]
    · simp [decodeCore]
    · have e1 := h1 (by omega)
      subst e1
      simp [decodeCore, hA, hB]
    · have e1 := h1 (by omega)
      have e2 := h2 (by omega)
      subst e1 e2
      simp [decodeCore, hA, hB]
    · have e1 := h1 (by omega)
      have e2 := h2 (by omega)
      have e3 := h3 (by omega)
      subst e1 e2 e3
      simp [decodeCore, hA, hB]

theorem leadInfo_bounds (b : Nat) :
    (leadInfo b).1 ≤ 4 ∧ ((leadInfo b).1 = 0 ∨ (leadInfo b).1 = 1 ∨
      (0x80 ≤ (leadInfo b).2.1 ∧ (leadInfo b).2.2 ≤ 0xBF)) := by
  rcases leadInfo_cases b with h | h | h | h | h <;> omega

/-- A decoding step reads the same rune when bytes are appended to the string,
provided the step succeeded or the appended bytes start with a byte that is no
continuation byte. -/
theorem decodeRune_append (b : Nat) (t y : GoString)
    (h : decodeRune (b :: t) ≠ (RuneError, 1)
      ∨ ∃ y0 y', y = y0 :: y' ∧ (y0 < 0x80 ∨ 0xBF < y0)) :
    decodeRune (b :: (t ++ y)) = decodeRune (b :: t) := by
  rw [decodeRune_eq_core, decodeRune_eq_core] at *
  obtain ⟨hsz, hb⟩ := leadInfo_bounds b
  rcases hb with h0 | h1 | ⟨hlo, hhi⟩
  · simp [decodeCore, h0]
  · simp [decodeCore, h1]
  apply decodeCore_stable _ _ _ _ _ _ _ _ _ _ _ _ hsz hlo hhi (by simp)
  · intro hn
    rw [List.getD_eq_getElem?_getD, List.getD_eq_getElem?_getD, List.getElem?_append_left hn]
  · intro hn
    rw [List.getD_eq_getElem?_getD, List.getD_eq_getElem?_getD, List.getElem?_append_left hn]
  · intro hn
    rw [List.getD_eq_getElem?_getD, List.getD_eq_getElem?_getD, List.getElem?_append_left hn]
  · rcases h with h | ⟨y0, y', rfl, hy⟩
    · exact Or.inl h
    · right
      refine ⟨?_, ?_, ?_, by simp⟩
      · intro hn
        have : t = [] := List.length_eq_zero.1 hn
        subst this
        simpa using hy
      · intro hn
        rw [List.getD_eq_getElem?_getD, List.getElem?_append_right (by omega), hn]
        simpa using hy
      · intro hn
        rw [List.getD_eq_getElem?_getD, List.getElem?_append_right (by omega), hn]
        simpa using hy

theorem IsSpace_iff (r : Nat) : IsSpace r = true ↔ r ∈ spaceRunes := by
  simp only [IsSpace, spaceRunes, List.mem_cons, List.mem_singleton, List.not_mem_nil, or_false]
  split <;> simp <;> omega

/-- What is used of the encoding of a white-space character: it decodes to the
character, starts with a byte that is no continuation byte, and has none of
the drop characters. -/
theorem spaceRunes_facts : ∀ r ∈ spaceRunes,
    (∃ e0 e', encodeRune r = e0 :: e' ∧ (e0 < 0x80 ∨ 0xBF < e0))
    ∧ decodeRune (encodeRune r) = (r, (encodeRune r).length)
    ∧ (encodeRune r).filter (fun x => !punctClass x) = encodeRune r
    ∧ IsSpace r = true := by
  intro r hr
  simp only [spaceRunes, List.mem_cons, List.mem_singleton, List.not_mem_nil, or_false] at hr
  rcases hr with h | h | h | h | h | h | h | h | h | h | h | h | h | h | h | h | h | h | h | h
    | h | h | h | h | h <;> subst h <;> refine ⟨⟨_, _, rfl, by decide⟩, by decide, by decide, by decide⟩

/-- Decoding resynchronises: when `y` starts with a byte that is no continuation
byte, the runes of `x ++ y` are those of `x` followed by those of `y`. -/
theorem segments_append_fresh (x y : GoString)
    (hy : y = [] ∨ ∃ y0 y', y = y0 :: y' ∧ (y0 < 0x80 ∨ 0xBF < y0)) :
    segments (x ++ y) = segments x ++ segments y := by
  rcases hy with rfl | hy
  · simp
  induction x using decode_induction with
  | hnil => simp
  | hstep b t ih =>
    have hd : decodeRune (b :: (t ++ y)) = decodeRune (b :: t) :=
      decodeRune_append b t y (Or.inr hy)
    have hw := decodeRune_width_le (b :: t)
    rw [List.cons_append, segments_cons, hd, segments_cons, List.cons_append]
    rw [← List.cons_append, List.take_append_of_le_length hw, List.drop_append_of_le_length hw,
      ih]

/-- A string that starts with the encoding of a white-space character decodes
to that character first. -/
theorem segments_space_cons (r : Nat) (hr : r ∈ spaceRunes) (y : GoString) :
    segments (encodeRune r ++ y) = (r, encodeRune r) :: segments y := by
  obtain ⟨⟨e0, e', he, _⟩, hdec, _, _⟩ := spaceRunes_facts r hr
  have hd : decodeRune (e0 :: (e' ++ y)) = decodeRune (e0 :: e') := by
    apply decodeRune_append
    left
    rw [← he, hdec]
    intro h
    have h1 := congrArg Prod.fst h
    have h2 := spaceRunes_facts r hr
    simp only at h1
    rw [h1] at h2
    exact absurd h2.2.2.2 (by decide)
  rw [he, List.cons_append, segments_cons, hd, ← he, hdec]
  have e1 : e0 :: (e' ++ y) = encodeRune r ++ y := by rw [he]; rfl
  simp only [e1, List.take_left', List.drop_left']

theorem splitOnP_append_sep {α : Type} (p : α → Bool) (l1 l2 : List α) (sep : α)
    (hsep : p sep = true) :
    (l1 ++ sep :: l2).splitOnP p = l1.splitOnP p ++ l2.splitOnP p := by
  induction l1 with
  | nil => simp [hsep]
  | cons x xs ih =>
    rw [List.cons_append, List.splitOnP_cons, List.splitOnP_cons, ih]
    split
    · rfl
    · cases h : xs.splitOnP p with
      | nil => exact absurd h (List.splitOnP_ne_nil _ _)
      | cons a b => simp

theorem specTokens_eq_tokensOf (s : GoString) :
    specTokens s = tokensOf (segments (specStrip s)) := rfl

theorem tokensOf_append_sep (l1 l2 : List (Nat × GoString)) (sep : Nat × GoString)
    (hsep : IsSpace sep.1 = true) :
    tokensOf (l1 ++ sep :: l2) = tokensOf l1 ++ tokensOf l2 := by
  unfold tokensOf
  rw [splitOnP_append_sep _ l1 l2 sep hsep, List.filter_append, List.map_append]

theorem tokensOf_sep_cons (l : List (Nat × GoString)) (sep : Nat × GoString)
    (hsep : IsSpace sep.1 = true) : tokensOf (sep :: l) = tokensOf l := by
  have := tokensOf_append_sep [] l sep hsep
  simpa [tokensOf] using this

theorem tokensOf_append_sep_end (l : List (Nat × GoString)) (sep : Nat × GoString)
    (hsep : IsSpace sep.1 = true) : tokensOf (l ++ [sep]) = tokensOf l := by
  have := tokensOf_append_sep l [] sep hsep
  simpa [tokensOf] using this

theorem specStrip_append (a b : GoString) :
    specStrip (a ++ b) = specStrip a ++ specStrip b := by
  simp [specStrip]

/-- Counting distributes over a boundary next to a white-space character: the
tokens of `a ++ b` are those of `a` followed by those of `b`. -/
theorem specTokens_append (a b : GoString)
    (h : endsWithSpace a = true ∨ beginsWithSpace b = true) :
    specTokens (a ++ b) = specTokens a ++ specTokens b := by
  rcases h with h | h
  · simp only [endsWithSpace, List.any_eq_true, List.isSuffixOf_iff_suffix] at h
    obtain ⟨r, hr, a', ha⟩ := h
    obtain ⟨hfresh, _, hkeep, hsp⟩ := spaceRunes_facts r hr
    subst ha
    have hs : specStrip (encodeRune r) = encodeRune r := hkeep
    simp only [specTokens_eq_tokensOf, specStrip_append, hs, List.append_assoc]
    rw [segments_append_fresh (specStrip a') (encodeRune r ++ specStrip b)
        (Or.inr (by
          obtain ⟨e0, e', he, hlt⟩ := hfresh
          exact ⟨e0, e' ++ specStrip b, by rw [he]; rfl, hlt⟩)),
      segments_append_fresh (specStrip a') (encodeRune r)
        (Or.inr (by
          obtain ⟨e0, e', he, hlt⟩ := hfresh
          exact ⟨e0, e', he, hlt⟩)),
      segments_space_cons r hr]
    have e1 := segments_space_cons r hr []
    simp only [List.append_nil, segments_nil] at e1
    rw [e1, tokensOf_append_sep _ _ _ (by exact hsp), tokensOf_append_sep_end _ _ (by exact hsp)]
  · simp only [beginsWithSpace, List.any_eq_true, List.isPrefixOf_iff_prefix] at h
    obtain ⟨r, hr, b', hb⟩ := h
    obtain ⟨hfresh, _, hkeep, hsp⟩ := spaceRunes_facts r hr
    subst hb
    have hs : specStrip (encodeRune r) = encodeRune r := hkeep
    simp only [specTokens_eq_tokensOf, specStrip_append, hs]
    rw [segments_append_fresh (specStrip a) (encodeRune r ++ specStrip b')
        (Or.inr (by
          obtain ⟨e0, e', he, hlt⟩ := hfresh
          exact ⟨e0, e' ++ specStrip b', by rw [he]; rfl, hlt⟩)),
      segments_space_cons r hr,
      tokensOf_append_sep _ _ _ (by exact hsp), tokensOf_sep_cons _ _ (by exact hsp)]

theorem beginsWithSpace_append (b c : GoString) (h : beginsWithSpace b = true) :
    beginsWithSpace (b ++ c) = true := by
  simp only [beginsWithSpace, List.any_eq_true, List.isPrefixOf_iff_prefix] at h ⊢
  obtain ⟨r, hr, hp⟩ := h
  exact ⟨r, hr, hp.trans (List.prefix_append b c)⟩

theorem specTokens_nil : specTokens [] = [] := by decide

/-- Over chunks none of whose boundaries splits a word, the tokens of the
concatenation are the tokens of the chunks, in order. -/
theorem specTokens_flatten (cs : List GoString) (h : noWordSplit cs = true) :
    specTokens cs.flatten = (cs.map specTokens).flatten := by
  induction cs with
  | nil => simp [specTokens_nil]
  | cons a rest ih =>
    cases rest with
    | nil => simp
    | cons b rest' =>
      simp only [noWordSplit, Bool.and_eq_true, Bool.or_eq_true] at h
      have hb : endsWithSpace a = true ∨ beginsWithSpace (b :: rest').flatten = true := by
        rcases h.1 with h1 | h1
        · exact Or.inl h1
        · exact Or.inr (by simpa using beginsWithSpace_append b rest'.flatten h1)
      rw [List.flatten_cons, specTokens_append a _ hb, ih h.2]
      simp

theorem mergeLoop_perm (ps qs : List FreqMap) (h : ps.Perm qs) (w : GoString) :
    mapFind (mergeLoop ps) w = mapFind (mergeLoop qs) w := by
  rw [mergeLoop_find, mergeLoop_find]
  have e1 : (∃ m ∈ ps, w ∈ mapKeys m) ↔ (∃ m ∈ qs, w ∈ mapKeys m) := by
    constructor
    · rintro ⟨m, hm, hw⟩; exact ⟨m, h.mem_iff.1 hm, hw⟩
    · rintro ⟨m, hm, hw⟩; exact ⟨m, h.mem_iff.2 hm, hw⟩
  have e2 : (ps.map fun m => entrySum m w).sum = (qs.map fun m => entrySum m w).sum :=
    (h.map _).sum_eq
  simp only [e1, e2]

theorem wordCount_entrySum (tbl : Nat → Nat) (c w : GoString) :
    entrySum (wordCount tbl c) w = (specCount tbl c w : Int) := by
  rw [entrySum_eq_mapGet _ _ (wordCount_nodup tbl c), mapGet_eq_mapFind, wordCount_find]
  split
  · rename_i h; simp [h]
  · rfl

theorem wordCount_mem_keys (tbl : Nat → Nat) (c w : GoString) :
    w ∈ mapKeys (wordCount tbl c) ↔ specCount tbl c w ≠ 0 := by
  rw [← mapFind_isSome_iff, wordCount_find]
  split <;> simp [*]

theorem specCount_flatten (tbl : Nat → Nat) (cs : List GoString) (w : GoString)
    (h : noWordSplit cs = true) :
    specCount tbl cs.flatten w = (cs.map fun c => specCount tbl c w).sum := by
  unfold specCount
  rw [specTokens_flatten cs h, List.countP_flatten, List.map_map]
  rfl

/-- Merging the counts of chunks none of whose boundaries splits a word gives
the counts of the concatenated text. -/
theorem merge_wordCount_flatten (tbl : Nat → Nat) (cs : List GoString)
    (h : noWordSplit cs = true) (w : GoString) :
    mapFind (mergeLoop (cs.map (wordCount tbl))) w = mapFind (wordCount tbl cs.flatten) w := by
  rw [mergeLoop_find, wordCount_find, specCount_flatten tbl cs w h]
  have e1 : ((cs.map (wordCount tbl)).map fun m => entrySum m w)
      = (cs.map fun c => specCount tbl c w).map Nat.cast := by
    rw [List.map_map, List.map_map]
    exact List.map_congr_left fun c _ => wordCount_entrySum tbl c w
  have e2 : (∃ m ∈ cs.map (wordCount tbl), w ∈ mapKeys m)
      ↔ ¬ (cs.map fun c => specCount tbl c w).sum = 0 := by
    rw [List.sum_eq_zero_iff]
    constructor
    · rintro ⟨m, hm, hw⟩ hall
      obtain ⟨c, hc, rfl⟩ := List.mem_map.1 hm
      exact (wordCount_mem_keys tbl c w).1 hw (hall _ (List.mem_map.2 ⟨c, hc, rfl⟩))
    · intro hnot
      by_contra hne
      apply hnot
      intro x hx
      obtain ⟨c, hc, rfl⟩ := List.mem_map.1 hx
      by_contra h0
      exact hne ⟨wordCount tbl c, List.mem_map.2 ⟨c, hc, rfl⟩,
        (wordCount_mem_keys tbl c w).2 h0⟩
  rw [e1]
  by_cases hz : (cs.map fun c => specCount tbl c w).sum = 0
  · have : ¬ ∃ m ∈ cs.map (wordCount tbl), w ∈ mapKeys m := fun hex => (e2.1 hex) hz
    rw [if_neg this, if_pos hz]
  · have : ∃ m ∈ cs.map (wordCount tbl), w ∈ mapKeys m := e2.2 hz
    rw [if_pos this, if_neg hz]
    congr 1
    push_cast
    rfl

theorem entrySum_perm (m m' : FreqMap) (h : m.Perm m') (w : GoString) :
    entrySum m w = entrySum m' w :=
  ((h.filter _).map _).sum_eq

theorem mapKeys_perm (m m' : FreqMap) (h : m.Perm m') (w : GoString) :
    w ∈ mapKeys m ↔ w ∈ mapKeys m' :=
  (h.map Prod.fst).mem_iff

theorem exists_key_iteration_order (ps qs : List FreqMap)
    (h : List.Forall₂ List.Perm ps qs) (w : GoString) :
    (∃ m ∈ ps, w ∈ mapKeys m) ↔ (∃ m ∈ qs, w ∈ mapKeys m) := by
  induction h with
  | nil => simp
  | cons hab _ ih =>
    simp only [List.mem_cons, exists_eq_or_imp]
    rw [ih, mapKeys_perm _ _ hab]

theorem entrySums_iteration_order (ps qs : List FreqMap)
    (h : List.Forall₂ List.Perm ps qs) (w : GoString) :
    (ps.map fun m => entrySum m w).sum = (qs.map fun m => entrySum m w).sum := by
  induction h with
  | nil => rfl
  | cons hab _ ih =>
    simp only [List.map_cons, List.sum_cons]
    rw [ih, entrySum_perm _ _ hab]

/-- The merge does not depend on the iteration order inside the partial
mappings. -/
theorem mergeLoop_iteration_order (ps qs : List FreqMap) (h : List.Forall₂ List.Perm ps qs)
    (w : GoString) : mapFind (mergeLoop ps) w = mapFind (mergeLoop qs) w := by
  rw [mergeLoop_find, mergeLoop_find]
  simp only [exists_key_iteration_order ps qs h w, entrySums_iteration_order ps qs h w]

theorem leadInfo_two (b : Nat) (h1 : 0xC2 ≤ b) (h2 : b ≤ 0xDF) :
    leadInfo b = (2, 0x80, 0xBF) := by
  unfold leadInfo
  rw [if_neg (by omega), if_neg (by omega), if_pos (by omega)]

theorem leadInfo_three (b : Nat) (h1 : 0xE0 ≤ b) (h2 : b ≤ 0xEF) :
    leadInfo b = (3, if b = 0xE0 then 0xA0 else 0x80, if b = 0xED then 0x9F else 0xBF) := by
  unfold leadInfo
  rw [if_neg (by omega), if_neg (by omega), if_neg (by omega)]
  by_cases e0 : b = 0xE0
  · simp [e0]
  · rw [if_neg e0]
    by_cases e1 : b < 0xED
    · have : ¬ b = 0xED := by omega
      simp [e1, e0, this]
    · rw [if_neg e1]
      by_cases e2 : b = 0xED
      · simp [e2]
      · rw [if_neg e2, if_pos (by omega)]
        simp [e0, e2]

theorem leadInfo_four (b : Nat) (h1 : 0xF0 ≤ b) (h2 : b ≤ 0xF4) :
    leadInfo b = (4, if b = 0xF0 then 0x90 else 0x80, if b = 0xF4 then 0x8F else 0xBF) := by
  unfold leadInfo
  rw [if_neg (by omega), if_neg (by omega), if_neg (by omega), if_neg (by omega),
    if_neg (by omega), if_neg (by omega), if_neg (by omega)]
  by_cases e0 : b = 0xF0
  · simp [e0]
  · rw [if_neg e0]
    by_cases e1 : b < 0xF4
    · have : ¬ b = 0xF4 := by omega
      simp [e1, e0, this]
    · rw [if_neg e1]
      have : b = 0xF4 := by omega
      simp [this]

/-- Decoding the encoding of a rune gives the rune back, over its whole width. -/
theorem decodeRune_encodeRune (r : Nat) :
    decodeRune (encodeRune r) = (encodedRune r, (encodeRune r).length) := by
  unfold encodeRune encodedRune
  by_cases c1 : r ≤ 0x7F
  · rw [if_pos c1, if_neg (by omega)]
    exact decodeRune_ascii r [] (by omega)
  rw [if_neg c1]
  by_cases c2 : r ≤ 0x7FF
  · rw [if_pos c2, if_neg (by omega), decodeRune_eq_core,
      leadInfo_two _ (by omega) (by omega)]
    have a1 : ¬ (0x80 + r % 64 < 0x80 ∨ 0xBF < 0x80 + r % 64) := by omega
    have a2 : (0xC0 + r / 64) % 32 * 64 + (0x80 + r % 64) % 64 = r := by omega
    simp only [decodeCore, List.length_cons, List.length_nil, List.getD_cons_zero]
    rw [if_neg (by omega), if_neg (by omega), if_neg (by omega), if_neg a1, if_pos (by omega),
      a2]
  rw [if_neg c2]
  by_cases c3 : 0x10FFFF < r ∨ (0xD800 ≤ r ∧ r ≤ 0xDFFF)
  · rw [if_pos c3, if_pos c3]
    decide
  rw [if_neg c3, if_neg c3]
  by_cases c4 : r ≤ 0xFFFF
  · rw [if_pos c4, decodeRune_eq_core, leadInfo_three _ (by omega) (by omega)]
    have a1 : ¬ (0x80 + r / 64 % 64 < (if 0xE0 + r / 4096 = 0xE0 then 0xA0 else 0x80)
        ∨ (if 0xE0 + r / 4096 = 0xED then 0x9F else 0xBF) < 0x80 + r / 64 % 64) := by
      split_ifs <;> omega
    have a2 : ¬ (0x80 + r % 64 < 0x80 ∨ 0xBF < 0x80 + r % 64) := by omega
    have a3 : (0xE0 + r / 4096) % 16 * 4096 + (0x80 + r / 64 % 64) % 64 * 64
        + (0x80 + r % 64) % 64 = r := by omega
    simp only [decodeCore, List.length_cons, List.length_nil, List.getD_cons_zero,
      List.getD_cons_succ, List.getD_nil]
    rw [if_neg (by omega), if_neg (by omega), if_neg (by omega), if_neg a1, if_neg (by omega),
      if_neg a2, if_pos (by omega), a3]
  · rw [if_neg c4, decodeRune_eq_core, leadInfo_four _ (by omega) (by omega)]
    have a1 : ¬ (0x80 + r / 4096 % 64 < (if 0xF0 + r / 262144 = 0xF0 then 0x90 else 0x80)
        ∨ (if 0xF0 + r / 262144 = 0xF4 then 0x8F else 0xBF) < 0x80 + r / 4096 % 64) := by
      split_ifs <;> omega
    have a2 : ¬ (0x80 + r / 64 % 64 < 0x80 ∨ 0xBF < 0x80 + r / 64 % 64) := by omega
    have a3 : ¬ (0x80 + r % 64 < 0x80 ∨ 0xBF < 0x80 + r % 64) := by omega
    have a4 : (0xF0 + r / 262144) % 8 * 262144 + (0x80 + r / 4096 % 64) % 64 * 4096
        + (0x80 + r / 64 % 64) % 64 * 64 + (0x80 + r % 64) % 64 = r := by omega
    simp only [decodeCore, List.length_cons, List.length_nil, List.getD_cons_zero,
      List.getD_cons_succ, List.getD_nil]
    rw [if_neg (by omega), if_neg (by omega), if_neg (by omega), if_neg a1, if_neg (by omega),
      if_neg a2, if_neg (by omega), if_neg a3, a4]

theorem encodeRune_ne_nil (r : Nat) : encodeRune r ≠ [] := by
  unfold encodeRune
  split_ifs <;> simp

/-- A string that starts with the encoding of a rune is well-formed exactly
when the rest is. -/
theorem validUTF8_encodeRune_append (r : Nat) (rest : GoString) :
    validUTF8 (encodeRune r ++ rest) = validUTF8 rest := by
  obtain ⟨e0, e', he⟩ : ∃ e0 e', encodeRune r = e0 :: e' := by
    cases h : encodeRune r with
    | nil => exact absurd h (encodeRune_ne_nil r)
    | cons a b => exact ⟨a, b, rfl⟩
  have hdec := decodeRune_encodeRune r
  have hne : decodeRune (e0 :: e') ≠ (RuneError, 1) := by
    rw [← he, hdec]
    intro h
    have h1 : encodedRune r = RuneError := congrArg Prod.fst h
    have h2 : (encodeRune r).length = 1 := congrArg Prod.snd h
    unfold encodeRune encodedRune at *
    unfold RuneError at h1
    split_ifs at h1 h2 <;> simp at h2 <;> omega
  have hd : decodeRune (e0 :: (e' ++ rest)) = decodeRune (e0 :: e') :=
    decodeRune_append e0 e' rest (Or.inl hne)
  have hbad : (encodedRune r == RuneError && (encodeRune r).length == 1) = false := by
    rw [Bool.and_eq_false_iff]
    by_cases h1 : encodedRune r = RuneError
    · right
      rw [beq_eq_false_iff_ne]
      intro h2
      exact hne (by rw [← he, hdec, h1, h2])
    · left
      rw [beq_eq_false_iff_ne]
      exact h1
  have e1 : e0 :: (e' ++ rest) = encodeRune r ++ rest := by rw [he]; rfl
  rw [he, List.cons_append, validUTF8_cons, hd, ← he, hdec]
  simp only [hbad, Bool.not_false, Bool.true_and]
  rw [e1, List.drop_left' rfl]

theorem validUTF8_nil : validUTF8 [] = true := rfl

/-- The result of `strings.Map` is well-formed UTF-8. -/
theorem validUTF8_Map (mapping : Nat → Nat) (s : GoString) : validUTF8 (Map mapping s) = true := by
  unfold Map
  induction runes s with
  | nil => rfl
  | cons r rs ih =>
    simp only [List.map_cons, List.flatten_cons]
    rw [validUTF8_encodeRune_append]
    exact ih

/-- An ASCII string is well-formed UTF-8. -/
theorem validUTF8_ascii (s : GoString) (h : ∀ c ∈ s, c < 0x80) : validUTF8 s = true := by
  induction s with
  | nil => rfl
  | cons c t ih =>
    have hc : c < 0x80 := h c (List.mem_cons_self _ _)
    rw [validUTF8_cons, decodeRune_ascii c t hc]
    have hne : ¬ c = RuneError := by unfold RuneError; omega
    simp only [List.drop_succ_cons, List.drop_zero]
    rw [ih fun x hx => h x (List.mem_cons_of_mem _ hx)]
    simp [hne]

/-- The result of `strings.ToLower` is well-formed UTF-8. -/
theorem validUTF8_ToLower (tbl : Nat → Nat) (s : GoString) :
    validUTF8 (ToLower tbl s) = true := by
  unfold ToLower
  split
  · rename_i h
    apply validUTF8_ascii
    intro c hc
    obtain ⟨x, hx, rfl⟩ := List.mem_map.1 hc
    have hx2 : x < 0x80 := by
      have := List.all_eq_true.1 h x hx
      simpa using this
    split <;> omega
  · exact validUTF8_Map _ _

theorem mapKeys_mapSet_subset (m : FreqMap) (k : GoString) (v : Int) (x : GoString)
    (hx : x ∈ mapKeys (mapSet m k v)) : x = k ∨ x ∈ mapKeys m := by
  induction m with
  | nil => simpa [mapSet, mapKeys] using hx
  | cons e rest ih =>
    obtain ⟨k2, v2⟩ := e
    by_cases h3 : k2 = k
    · subst h3
      simpa [mapSet, mapKeys] using hx
    · simp only [mapSet, h3, if_false, mapKeys, List.map_cons, List.mem_cons] at hx ⊢
      rcases hx with hx | hx
      · exact Or.inr (Or.inl hx)
      · rcases ih hx with h4 | h4
        · exact Or.inl h4
        · exact Or.inr (Or.inr h4)

/-- The keys of the mapping produced by `wordCount` are well-formed UTF-8. -/
theorem wordCount_keys_valid (tbl : Nat → Nat) (s : GoString) :
    ∀ k ∈ mapKeys (wordCount tbl s), validUTF8 k = true := by
  have key : ∀ (ws : List GoString) (m : FreqMap), (∀ k ∈ mapKeys m, validUTF8 k = true) →
      ∀ k ∈ mapKeys (ws.foldl (fun wordFreq word => mapAdd wordFreq (ToLower tbl word) 1) m),
        validUTF8 k = true := by
    intro ws
    induction ws with
    | nil => exact fun m h => h
    | cons t rest ih =>
      intro m hm
      apply ih
      intro k hk
      rcases mapKeys_mapSet_subset _ _ _ _ hk with rfl | h
      · exact validUTF8_ToLower tbl t
      · exact hm k h
  exact key _ [] (by simp [mapKeys])

/-- The keys of the global mapping come from the partial mappings. -/
theorem mergeLoop_keys (ms : List FreqMap) (k : GoString) (hk : k ∈ mapKeys (mergeLoop ms)) :
    ∃ m ∈ ms, k ∈ mapKeys m := by
  have h1 := (mapFind_isSome_iff (mergeLoop ms) k).2 hk
  rw [mergeLoop_find] at h1
  by_contra hne
  rw [if_neg hne] at h1
  simp at h1

/-- The keys of a global mapping merged from `wordCount` results are
well-formed UTF-8. -/
theorem pipeline_keys_valid (tbl : Nat → Nat) (chunks : List GoString) (results : List FreqMap)
    (h : results.Perm (chunks.map (wordCount tbl))) :
    ∀ k ∈ mapKeys (mergeLoop results), validUTF8 k = true := by
  intro k hk
  obtain ⟨m, hm, hkm⟩ := mergeLoop_keys results k hk
  obtain ⟨c, _, rfl⟩ := List.mem_map.1 (h.mem_iff.1 hm)
  exact wordCount_keys_valid tbl c k hkm

theorem wordCount_mapGet (tbl : Nat → Nat) (c w : GoString) :
    mapGet (wordCount tbl c) w = (specCount tbl c w : Int) := by
  rw [← entrySum_eq_mapGet _ _ (wordCount_nodup tbl c), wordCount_entrySum]

/-- The tokens of `a ++ b` are those of `a` followed by those of `b` when one
of the two is empty or the boundary touches a white-space character. -/
theorem specTokens_append_boundary (a b : GoString)
    (h : a = [] ∨ b = [] ∨ endsWithSpace a = true ∨ beginsWithSpace b = true) :
    specTokens (a ++ b) = specTokens a ++ specTokens b := by
  rcases h with rfl | rfl | h | h
  · simp [specTokens_nil]
  · simp [specTokens_nil]
  · exact specTokens_append a b (Or.inl h)
  · exact specTokens_append a b (Or.inr h)

theorem specCount_append (tbl : Nat → Nat) (a b w : GoString)
    (h : a = [] ∨ b = [] ∨ endsWithSpace a = true ∨ beginsWithSpace b = true) :
    specCount tbl (a ++ b) w = specCount tbl a w + specCount tbl b w := by
  unfold specCount
  rw [specTokens_append_boundary a b h, List.countP_append]

theorem runes_eq_nil_iff (s : GoString) : runes s = [] ↔ s = [] := by
  cases s with
  | nil => simp [runes]
  | cons b t => simp [runes, segments_cons]

theorem splitLoop_zero_running (s : GoString) (n : Int) (hn : n ≤ (s.length : Int)) :
    ∀ (fuel : Nat) (i : Int) (parts : List GoString), 0 ≤ i → i < n →
      splitLoop s n 0 fuel i parts = .running := by
  intro fuel
  induction fuel with
  | zero => intro i parts _ hi; simp [splitLoop, hi]
  | succ f ih =>
    intro i parts h0 hi
    have hs : slice s i i = some [] := by
      have : 0 ≤ i ∧ i ≤ i ∧ i ≤ (s.length : Int) := ⟨h0, le_refl _, by omega⟩
      simp [slice, this]
    have hgt : ¬ (i > n) := by omega
    simp only [splitLoop, hi, if_true, add_zero, hgt, if_false, hs]
    exact ih i _ h0 hi

/-- What `splitString` does with a chunk size that is not positive. -/
theorem splitString_nonpos (s : GoString) (chunkSize : Int) (h : chunkSize ≤ 0) :
    (s = [] → ∀ fuel, splitString fuel s chunkSize = .ret [])
    ∧ (s ≠ [] → chunkSize = 0 → ∀ fuel, splitString fuel s chunkSize = .running)
    ∧ (s ≠ [] → chunkSize < 0 → ∀ fuel, splitString (fuel + 1) s chunkSize = .panic) := by
  refine ⟨?_, ?_, ?_⟩
  · rintro rfl fuel
    cases fuel <;> simp [splitString, splitLoop, runes]
  · rintro hs rfl fuel
    have hpos : 0 < (runes s).length :=
      List.length_pos.2 (fun e => hs ((runes_eq_nil_iff s).1 e))
    exact splitLoop_zero_running s _ (by exact_mod_cast runes_length_le s) fuel 0 [] (le_refl _)
      (by exact_mod_cast hpos)
  · intro hs hneg fuel
    have hpos : 0 < (runes s).length :=
      List.length_pos.2 (fun e => hs ((runes_eq_nil_iff s).1 e))
    have hi : (0 : Int) < ((runes s).length : Int) := by exact_mod_cast hpos
    have hgt : ¬ (chunkSize > ((runes s).length : Int)) := by omega
    have hsl : slice s 0 chunkSize = none := by
      have : ¬ ((0 : Int) ≤ 0 ∧ 0 ≤ chunkSize ∧ chunkSize ≤ (s.length : Int)) := by omega
      unfold slice
      rw [if_neg this]
    simp only [splitString, splitLoop, hi, if_true, zero_add, hgt, if_false, hsl]

theorem lt_chunkCount_iff (n k j : Nat) (hk : 0 < k) : j < chunkCount n k ↔ j * k < n := by
  unfold chunkCount
  rw [Nat.lt_iff_add_one_le, Nat.le_div_iff_mul_le hk, Nat.add_mul]
  omega

theorem splitLoop_chunks (s : GoString) (n k : Nat) (hk : 0 < k) (hn : n ≤ s.length) :
    ∀ (fuel j : Nat) (parts : List GoString), n - j * k ≤ fuel →
      splitLoop s (n : Int) (k : Int) fuel ((j * k : Nat) : Int) parts
        = .ret (parts ++ (List.range' j (chunkCount n k - j)).map (byteChunk s n k)) := by
  intro fuel
  induction fuel with
  | zero =>
    intro j parts hf
    have hnot : ¬ j * k < n := by omega
    have hc : chunkCount n k - j = 0 := by
      have := (lt_chunkCount_iff n k j hk).not.2 hnot
      omega
    have : ¬ (((j * k : Nat) : Int) < (n : Int)) := by omega
    simp only [splitLoop, if_neg this, hc, List.range', List.map_nil, List.append_nil]
  | succ f ih =>
    intro j parts hf
    by_cases hi : j * k < n
    · have hi2 : ((j * k : Nat) : Int) < (n : Int) := by omega
      have hlt := (lt_chunkCount_iff n k j hk).2 hi
      have hjk : (j + 1) * k = j * k + k := by rw [Nat.add_mul]; simp
      have hend : (if ((j * k : Nat) : Int) + (k : Int) > (n : Int) then (n : Int)
          else ((j * k : Nat) : Int) + (k : Int)) = ((min ((j + 1) * k) n : Nat) : Int) := by
        rw [hjk]
        split <;> omega
      have hnext : ((j * k : Nat) : Int) + (k : Int) = (((j + 1) * k : Nat) : Int) := by
        rw [hjk]; push_cast; rfl
      have hr : List.range' j (chunkCount n k - j)
          = j :: List.range' (j + 1) (chunkCount n k - (j + 1)) := by
        obtain ⟨d, hd⟩ : ∃ d, chunkCount n k - j = d + 1 := ⟨chunkCount n k - j - 1, by omega⟩
        rw [hd, List.range'_succ]
        congr 2
        omega
      simp only [splitLoop, hi2, if_true, hend]
      rw [slice_eq s (j * k) (min ((j + 1) * k) n) (by rw [hjk]; omega) (by omega)]
      simp only []
      rw [hnext, ih (j + 1) _ (by rw [hjk]; omega), hr]
      simp [byteChunk]
    · have hc : chunkCount n k - j = 0 := by
        have := (lt_chunkCount_iff n k j hk).not.2 hi
        omega
      have : ¬ (((j * k : Nat) : Int) < (n : Int)) := by omega
      simp only [splitLoop, if_neg this, hc, List.range', List.map_nil, List.append_nil]

/-- The chunks that `splitString` returns for a positive chunk size `k`:
`ceil(n / k)` chunks, the chunk `j` being the bytes `j*k` up to
`min((j+1)*k, n)`, where `n` is the number of runes. -/
theorem splitString_chunks (s : GoString) (k : Nat) (hk : 0 < k) (fuel : Nat)
    (hf : (runes s).length ≤ fuel) :
    splitString fuel s (k : Int)
      = .ret ((List.range (chunkCount (runes s).length k)).map
          (byteChunk s (runes s).length k)) := by
  have := splitLoop_chunks s (runes s).length k hk (runes_length_le s) fuel 0 [] (by omega)
  simpa [splitString, List.range_eq_range'] using this

theorem runes_length_ascii (s : GoString) (h : ∀ c ∈ s, c < 0x80) :
    (runes s).length = s.length := by
  simp [runes, segments_ascii s h]

theorem rank_sorted (lib : SortLib) (m : FreqMap) (h : m.length ≤ 12 ∨ sortContract lib) :
    (rank lib m).Pairwise fun p q => p.Value ≥ q.Value := by
  apply sortSort_sorted
  rw [collect_eq, List.length_map]
  exact h

/-- The counts along the ranked sequence depend on the mapping only, not on the
order in which its entries are iterated. -/
theorem rank_values_eq (lib : SortLib) (m m' : FreqMap) (h : m.Perm m')
    (hs : m.length ≤ 12 ∨ sortContract lib) :
    (rank lib m).map kv.Value = (rank lib m').map kv.Value := by
  have hp : (rank lib m).Perm (rank lib m') :=
    (rank_perm lib m).trans ((h.map _).trans (rank_perm lib m').symm)
  have s1 : ((rank lib m).map kv.Value).Sorted (· ≥ ·) := by
    rw [List.Sorted, List.pairwise_map]
    exact rank_sorted lib m hs
  have s2 : ((rank lib m').map kv.Value).Sorted (· ≥ ·) := by
    rw [List.Sorted, List.pairwise_map]
    exact rank_sorted lib m' (by rw [← h.length_eq]; exact hs)
  exact List.eq_of_perm_of_sorted (hp.map _) s1 s2

theorem getFrequency_after_insert (ops : List (GoString × Int)) (W : GoString) (c : Int) :
    GetFrequency (Insert (insertAll NewTrieNode ops) W c) W
      = wrap64 (insertedTotal ops (runes W) + c) := by
  rw [GetFrequency, Insert, getRunes_insert_same, getRunes_insertAll_new, wrap64_add_left]

theorem insertedTotal_nonneg (ops : List (GoString × Int)) (w : List Nat)
    (h : ∀ op ∈ ops, runes op.1 = w → 0 ≤ op.2) : 0 ≤ insertedTotal ops w := by
  unfold insertedTotal
  apply List.sum_nonneg
  intro x hx
  obtain ⟨op, hop, rfl⟩ := List.mem_map.1 hx
  have hm := List.mem_filter.1 hop
  exact h op hm.1 (by simpa using hm.2)

theorem insertedTotal_zero (ops : List (GoString × Int)) (w : List Nat)
    (h : ∀ op ∈ ops, runes op.1 ≠ w) : insertedTotal ops w = 0 := by
  unfold insertedTotal
  rw [List.filter_eq_nil_iff.2]
  · rfl
  · intro op hop
    simpa using h op hop

theorem insertAll_count (ops : List (GoString × Int)) :
    (insertAll NewTrieNode ops).count = wrap64 (insertedTotal ops []) :=
  getRunes_insertAll_new ops []

theorem spaceRunes_tokens : ∀ r ∈ spaceRunes,
    specTokens (encodeRune r) = [] ∧ endsWithSpace (encodeRune r) = true := by
  intro r hr
  simp only [spaceRunes, List.mem_cons, List.mem_singleton, List.not_mem_nil, or_false] at hr
  rcases hr with h | h | h | h | h | h | h | h | h | h | h | h | h | h | h | h | h | h | h | h
    | h | h | h | h | h <;> subst h <;> exact ⟨by decide, by decide⟩

theorem runes_cons (b : Nat) (t : GoString) :
    runes (b :: t) = (decodeRune (b :: t)).1 :: runes ((b :: t).drop (decodeRune (b :: t)).2) := by
  simp [runes, segments_cons]

/-- A chunk of white space and drop characters has no token. -/
theorem specTokens_of_onlySpaceOrPunct (s : GoString) (h : onlySpaceOrPunct s = true) :
    specTokens s = [] := by
  induction s using decode_induction with
  | hnil => exact specTokens_nil
  | hstep b t ih =>
    unfold onlySpaceOrPunct at h
    rw [runes_cons, List.all_cons, Bool.and_eq_true] at h
    have ih2 := ih h.2
    have hsplit : b :: t = (b :: t).take (decodeRune (b :: t)).2
        ++ (b :: t).drop (decodeRune (b :: t)).2 := (List.take_append_drop _ _).symm
    by_cases hp : punctClass (decodeRune (b :: t)).1 = true
    · have hs : specStrip (b :: t) = specStrip ((b :: t).drop (decodeRune (b :: t)).2) := by
        conv_lhs => rw [hsplit]
        rw [specStrip_append]
        have := strip_step b t
        rw [if_pos hp] at this
        unfold specStrip
        rw [this, List.nil_append]
      rw [specTokens_eq_tokensOf, hs, ← specTokens_eq_tokensOf]
      exact ih2
    · have hsp : IsSpace (decodeRune (b :: t)).1 = true := by
        rcases Bool.or_eq_true _ _ ▸ h.1 with h1 | h1
        · exact h1
        · exact absurd h1 hp
      have hr := (IsSpace_iff _).1 hsp
      have hv : ¬ ((decodeRune (b :: t)).1 = RuneError ∧ (decodeRune (b :: t)).2 = 1) := by
        rintro ⟨h1, _⟩
        rw [h1] at hsp
        exact absurd hsp (by decide)
      have he := encode_decode (b :: t) (by simp) hv
      obtain ⟨ht, hends⟩ := spaceRunes_tokens _ hr
      rw [hsplit, ← he, specTokens_append _ _ (Or.inl hends), ht, ih2]
      rfl

theorem wordCount_of_no_tokens (tbl : Nat → Nat) (s : GoString) (h : specTokens s = []) :
    wordCount tbl s = [] := by
  unfold wordCount
  simp only []
  rw [specTokens_eq, h]
  rfl

theorem chunkCount_le_one (n k : Nat) (hk : 0 < k) (h : n ≤ k) : chunkCount n k ≤ 1 := by
  unfold chunkCount
  have : (n + k - 1) / k < 2 := by
    rw [Nat.div_lt_iff_lt_mul hk]
    omega
  omega

theorem noWordSplit_of_length_le_one (cs : List GoString) (h : cs.length ≤ 1) :
    noWordSplit cs = true := by
  rcases cs with _ | ⟨a, _ | ⟨b, rest⟩⟩
  · rfl
  · rfl
  · simp at h

/-- A decoding step on a longer string that stays within a shorter prefix is
the decoding step on the prefix. -/
theorem decodeCore_trunc (sz lo hi s0 n s1 s2 s3 m y1 y2 y3 : Nat) (hsz : sz ≤ 4)
    (hn : n ≤ m) (h1 : 0 < n → y1 = s1) (h2 : 1 < n → y2 = s2) (h3 : 2 < n → y3 = s3)
    (hw : (decodeCore sz lo hi s0 m y1 y2 y3).2 ≤ n + 1) :
    decodeCore sz lo hi s0 n s1 s2 s3 = decodeCore sz lo hi s0 m y1 y2 y3 := by
  by_cases hA : n + 1 < sz
  · have c1 : ¬ sz = 1 := by omega
    have c0 : ¬ sz = 0 := by omega
    have hr : decodeCore sz lo hi s0 n s1 s2 s3 = (RuneError, 1) := by
      simp [decodeCore, hA, c1]
    rw [hr]
    have hcases : sz = 2 ∨ sz = 3 ∨ sz = 4 := by omega
    revert hw
    rcases hcases with rfl | rfl | rfl
    · simp only [decodeCore]
      norm_num
      split_ifs <;> first | (intro; rfl) | (intro hw; simp at hw; omega)
    · simp only [decodeCore]
      norm_num
      split_ifs <;> first | (intro; rfl) | (intro hw; simp at hw; omega)
    · simp only [decodeCore]
      norm_num
      split_ifs <;> first | (intro; rfl) | (intro hw; simp at hw; omega)
  · have hB : ¬ (m + 1 < sz) := by omega
    have hcases : sz = 0 ∨ sz = 1 ∨ sz = 2 ∨ sz = 3 ∨ sz = 4 := by omega
    rcases hcases with rfl | rfl | rfl | rfl | rfl
    · simp [decodeCore]
    · simp [decodeCore]
    · have e1 := h1 (by omega)
      subst e1
      simp [decodeCore, hA, hB]
    · have e1 := h1 (by omega)
      have e2 := h2 (by omega)
      subst e1 e2
      simp [decodeCore, hA, hB]
    · have e1 := h1 (by omega)
      have e2 := h2 (by omega)
      have e3 := h3 (by omega)
      subst e1 e2 e3
      simp [decodeCore, hA, hB]

theorem decodeRune_trunc (b : Nat) (t y : GoString)
    (hw : (decodeRune (b :: (t ++ y))).2 ≤ (b :: t).length) :
    decodeRune (b :: t) = decodeRune (b :: (t ++ y)) := by
  rw [decodeRune_eq_core] at hw ⊢
  rw [decodeRune_eq_core]
  apply decodeCore_trunc _ _ _ _ _ _ _ _ _ _ _ _ (leadInfo_bounds b).1 (by simp)
  · intro hn
    rw [List.getD_eq_getElem?_getD, List.getD_eq_getElem?_getD, List.getElem?_append_left hn]
  · intro hn
    rw [List.getD_eq_getElem?_getD, List.getD_eq_getElem?_getD, List.getElem?_append_left hn]
  · intro hn
    rw [List.getD_eq_getElem?_getD, List.getD_eq_getElem?_getD, List.getElem?_append_left hn]
  · simpa using hw

theorem runBytes_cons (a : Nat × GoString) (A : List (Nat × GoString)) :
    runBytes (a :: A) = a.2 ++ runBytes A := by
  simp [runBytes]

theorem runBytes_append (A B : List (Nat × GoString)) :
    runBytes (A ++ B) = runBytes A ++ runBytes B := by
  simp [runBytes]

theorem runBytes_segments (x : GoString) : runBytes (segments x) = x := segments_flatten x

/-- Decoding restarts at the end of every rune: the runes after the first ones
are the runes of the rest of the string. -/
theorem segments_drop (A : List (Nat × GoString)) :
    ∀ (x : GoString) (B : List (Nat × GoString)), segments x = A ++ B →
      segments (x.drop (runBytes A).length) = B := by
  induction A with
  | nil => intro x B h; simpa [runBytes] using h
  | cons a A ih =>
    intro x B h
    rcases x with _ | ⟨b, t⟩
    · simp at h
    · rw [segments_cons, List.cons_append, List.cons.injEq] at h
      obtain ⟨ha, hrest⟩ := h
      have hw := decodeRune_width_le (b :: t)
      have hlen : a.2.length = (decodeRune (b :: t)).2 := by
        rw [← ha]
        simp only [List.length_take]
        exact Nat.min_eq_left hw
      rw [runBytes_cons, List.length_append, hlen, ← List.drop_drop]
      exact ih _ B hrest

/-- The first runes of a string are the runes of the bytes they were read
from. -/
theorem segments_prefix (A : List (Nat × GoString)) :
    ∀ (x : GoString) (B : List (Nat × GoString)), segments x = A ++ B →
      segments (runBytes A) = A := by
  induction A with
  | nil => intro x B _; rfl
  | cons a A ih =>
    intro x B h
    rcases x with _ | ⟨b, t⟩
    · simp at h
    · have hx := h
      rw [segments_cons, List.cons_append, List.cons.injEq] at h
      obtain ⟨ha, hrest⟩ := h
      have ihA := ih _ B hrest
      have hw := decodeRune_width_le (b :: t)
      have hpos := decodeRune_width_pos b t
      obtain ⟨k, hk⟩ : ∃ k, (decodeRune (b :: t)).2 = k + 1 :=
        ⟨(decodeRune (b :: t)).2 - 1, by omega⟩
      have hk2 : k ≤ t.length := by simp only [List.length_cons] at hw; omega
      have hrestb : (b :: t).drop (decodeRune (b :: t)).2 = runBytes A ++ runBytes B := by
        rw [← runBytes_append, ← hrest, runBytes_segments]
      have ha2 : a.2 = b :: t.take k := by
        rw [← ha, hk]
        rfl
      have htd : t = t.take k ++ (runBytes A ++ runBytes B) := by
        rw [hk] at hrestb
        simp only [List.drop_succ_cons] at hrestb
        rw [← hrestb, List.take_append_drop]
      have hdec : decodeRune (b :: (t.take k ++ runBytes A)) = decodeRune (b :: t) := by
        have e : b :: t = b :: ((t.take k ++ runBytes A) ++ runBytes B) := by
          rw [List.append_assoc, ← htd]
        have := decodeRune_trunc b (t.take k ++ runBytes A) (runBytes B) (by
          rw [← e, hk]
          simp only [List.length_cons, List.length_append, List.length_take]
          omega)
        rw [this, ← e]
      rw [runBytes_cons, ha2, List.cons_append, segments_cons, hdec, hk]
      simp only [List.take_succ_cons, List.drop_succ_cons]
      have hlk : (t.take k).length = k := by simp [hk2]
      rw [List.take_left' hlk, List.drop_left' hlk, ihA, ← ha, hk]
      rfl

/-- A run of consecutive runes of a string is the decoding of its own bytes. -/
theorem segments_infix (x : GoString) (P A B : List (Nat × GoString))
    (h : segments x = P ++ A ++ B) : segments (runBytes A) = A := by
  rw [List.append_assoc] at h
  exact segments_prefix A _ B (segments_drop P x (A ++ B) h)

/-- The pieces of a split hold no separator and are runs of consecutive
elements of the list; the first piece is a prefix. -/
theorem splitOnP_pieces {α : Type} (p : α → Bool) (l : List α) :
    (∃ B, l = (l.splitOnP p).headD [] ++ B)
    ∧ ∀ run ∈ l.splitOnP p, (∀ x ∈ run, p x = false) ∧ ∃ P B, l = P ++ run ++ B := by
  induction l with
  | nil =>
    refine ⟨⟨[], by simp⟩, ?_⟩
    intro run hrun
    simp only [List.splitOnP_nil, List.mem_singleton] at hrun
    subst hrun
    exact ⟨by simp, [], [], by simp⟩
  | cons x xs ih =>
    obtain ⟨⟨B0, hB0⟩, ihp⟩ := ih
    obtain ⟨first, others, hsp⟩ : ∃ first others, xs.splitOnP p = first :: others := by
      cases h : xs.splitOnP p with
      | nil => exact absurd h (List.splitOnP_ne_nil _ _)
      | cons a b => exact ⟨a, b, rfl⟩
    rw [hsp] at hB0 ihp
    simp only [List.headD_cons] at hB0
    rw [List.splitOnP_cons, hsp]
    by_cases hx : p x = true
    · rw [if_pos hx]
      refine ⟨⟨x :: xs, by simp⟩, ?_⟩
      intro run hrun
      rcases List.mem_cons.1 hrun with rfl | hrun
      · exact ⟨by simp, [], x :: xs, by simp⟩
      · obtain ⟨h1, P, B, h2⟩ := ihp run hrun
        exact ⟨h1, x :: P, B, by rw [h2]; simp⟩
    · rw [if_neg hx]
      simp only [List.modifyHead_cons, List.headD_cons]
      refine ⟨⟨B0, by rw [hB0]; simp⟩, ?_⟩
      intro run hrun
      rcases List.mem_cons.1 hrun with rfl | hrun
      · refine ⟨?_, [], B0, by rw [hB0]; simp⟩
        intro y hy
        rcases List.mem_cons.1 hy with rfl | hy
        · simpa using hx
        · exact (ihp first (List.mem_cons_self _ _)).1 y hy
      · obtain ⟨h1, P, B, h2⟩ := ihp run (List.mem_cons_of_mem _ hrun)
        exact ⟨h1, x :: P, B, by rw [h2]; simp⟩

/-- In a string without drop characters no decoded rune is a drop character. -/
theorem segments_no_punct (x : GoString) (h : ∀ b ∈ x, punctClass b = false) :
    ∀ seg ∈ segments x, punctClass seg.1 = false := by
  induction x using decode_induction with
  | hnil => simp
  | hstep b t ih =>
    intro seg hseg
    rw [segments_cons] at hseg
    rcases List.mem_cons.1 hseg with rfl | hseg
    · by_contra hp
      simp only [Bool.not_eq_false] at hp
      have hs := strip_step b t
      rw [if_pos hp] at hs
      have hall : ((b :: t).take (decodeRune (b :: t)).2).filter (fun x => !punctClass x)
          = (b :: t).take (decodeRune (b :: t)).2 := by
        rw [List.filter_eq_self]
        intro y hy
        simp [h y (List.mem_of_mem_take hy)]
      rw [hall] at hs
      have hpos := decodeRune_width_pos b t
      have hl := congrArg List.length hs
      simp only [List.length_take, List.length_cons, List.length_nil] at hl
      omega
    · exact ih (fun y hy => h y (List.mem_of_mem_drop hy)) seg hseg

/-- What is known of a token of a chunk: it is not empty, none of its
characters is a white-space character or a drop character. -/
theorem specTokens_props (s t : GoString) (ht : t ∈ specTokens s) :
    t ≠ [] ∧ ∀ r ∈ runes t, IsSpace r = false ∧ punctClass r = false := by
  unfold specTokens at ht
  obtain ⟨run, hrun, rfl⟩ := List.mem_map.1 ht
  obtain ⟨hmem, hne⟩ := List.mem_filter.1 hrun
  obtain ⟨hnosp, P, B, hPB⟩ := (splitOnP_pieces _ _).2 run hmem
  have hseg : segments (runBytes run) = run := segments_infix _ P run B hPB
  have hstrip : ∀ b ∈ specStrip s, punctClass b = false := by
    intro b hb
    have := (List.mem_filter.1 hb).2
    simpa using this
  have hnp := segments_no_punct _ hstrip
  have hrunes : runes (runBytes run) = run.map Prod.fst := by rw [runes, hseg]
  constructor
  · intro h0
    have : runes (runBytes run) = [] := by rw [h0]; rfl
    rw [hrunes] at this
    have : run = [] := by simpa using this
    rw [this] at hne
    simp at hne
  · intro r hr
    rw [hrunes] at hr
    obtain ⟨seg, hsegm, rfl⟩ := List.mem_map.1 hr
    refine ⟨hnosp seg hsegm, hnp seg ?_⟩
    rw [hPB]
    simp [hsegm]

theorem segments_encodeRune_append (r : Nat) (rest : GoString) :
    segments (encodeRune r ++ rest) = (encodedRune r, encodeRune r) :: segments rest := by
  obtain ⟨e0, e', he⟩ : ∃ e0 e', encodeRune r = e0 :: e' := by
    cases h : encodeRune r with
    | nil => exact absurd h (encodeRune_ne_nil r)
    | cons a b => exact ⟨a, b, rfl⟩
  have hdec := decodeRune_encodeRune r
  have hne : decodeRune (e0 :: e') ≠ (RuneError, 1) := by
    rw [← he, hdec]
    intro h
    have h1 : encodedRune r = RuneError := congrArg Prod.fst h
    have h2 : (encodeRune r).length = 1 := congrArg Prod.snd h
    unfold encodeRune encodedRune at *
    unfold RuneError at h1
    split_ifs at h1 h2 <;> simp at h2 <;> omega
  have hd : decodeRune (e0 :: (e' ++ rest)) = decodeRune (e0 :: e') :=
    decodeRune_append e0 e' rest (Or.inl hne)
  have e1 : e0 :: (e' ++ rest) = encodeRune r ++ rest := by rw [he]; rfl
  rw [he, List.cons_append, segments_cons, hd, ← he, hdec]
  simp only [e1, List.take_left' rfl, List.drop_left' rfl]

theorem runes_Map (mapping : Nat → Nat) (s : GoString) :
    runes (Map mapping s) = (runes s).map fun r => encodedRune (mapping r) := by
  unfold Map
  induction runes s with
  | nil => rfl
  | cons r rs ih =>
    simp only [List.map_cons, List.flatten_cons]
    rw [runes, segments_encodeRune_append, List.map_cons, ← runes, ih]

theorem runes_ascii (s : GoString) (h : ∀ c ∈ s, c < 0x80) : runes s = s := by
  rw [runes, segments_ascii s h, List.map_map]
  exact (List.map_congr_left fun _ _ => rfl).trans (List.map_id s)

theorem normalRune_lower_ascii (c : Nat) (hc : c ≤ 0x7F) (h1 : IsSpace c = false)
    (h2 : punctClass c = false) :
    normalRune (if 0x41 ≤ c ∧ c ≤ 0x5A then c + 0x20 else c) = true := by
  simp only [IsSpace, punctClass, Bool.or_eq_false_iff, decide_eq_false_iff_not] at h1 h2
  rw [if_pos (by omega)] at h1
  simp only [Bool.or_eq_false_iff, decide_eq_false_iff_not] at h1
  simp only [normalRune, IsSpace, punctClass, Bool.and_eq_true, Bool.not_eq_true',
    Bool.or_eq_false_iff, decide_eq_false_iff_not, Bool.and_eq_false_iff]
  split_ifs <;> simp <;> omega

theorem normalRune_encodedRune (r : Nat) (h : normalRune r = true) :
    normalRune (encodedRune r) = true := by
  unfold encodedRune
  split
  · decide
  · exact h

/-- The lower-case form of a token is not empty. -/
theorem ToLower_ne_nil (tbl : Nat → Nat) (t : GoString) (ht : t ≠ []) : ToLower tbl t ≠ [] := by
  unfold ToLower
  split
  · simpa using ht
  · intro h0
    have h1 : runes (Map (unicodeToLower tbl) t) = [] := by rw [h0]; rfl
    rw [runes_Map] at h1
    have : runes t = [] := by simpa using h1
    exact ht ((runes_eq_nil_iff t).1 this)

/-- The characters of the lower-case form of a token are those of a normalised
word. -/
theorem ToLower_normal (tbl : Nat → Nat) (htbl : lowerTableOK tbl) (t : GoString)
    (ht : ∀ r ∈ runes t, IsSpace r = false ∧ punctClass r = false) :
    ∀ r ∈ runes (ToLower tbl t), normalRune r = true := by
  unfold ToLower
  split
  · rename_i hascii
    have hlt : ∀ c ∈ t, c < 0x80 := by
      intro c hc
      simpa using List.all_eq_true.1 hascii c hc
    have hout : ∀ c ∈ t.map (fun c => if 0x41 ≤ c ∧ c ≤ 0x5A then c + 0x20 else c), c < 0x80 := by
      intro c hc
      obtain ⟨x, hx, rfl⟩ := List.mem_map.1 hc
      have := hlt x hx
      split <;> omega
    rw [runes_ascii _ hout]
    intro r hr
    obtain ⟨x, hx, rfl⟩ := List.mem_map.1 hr
    have hx2 : x ∈ runes t := by rw [runes_ascii t hlt]; exact hx
    exact normalRune_lower_ascii x (by have := hlt x hx; omega) (ht x hx2).1 (ht x hx2).2
  · rw [runes_Map]
    intro r hr
    obtain ⟨x, hx, rfl⟩ := List.mem_map.1 hr
    apply normalRune_encodedRune
    unfold unicodeToLower
    by_cases hxa : x ≤ 0x7F
    · rw [if_pos hxa]
      exact normalRune_lower_ascii x hxa (ht x hx).1 (ht x hx).2
    · rw [if_neg hxa]
      exact htbl x (by omega) (ht x hx).1

theorem wordCount_key_token (tbl : Nat → Nat) (s k : GoString)
    (hk : k ∈ mapKeys (wordCount tbl s)) : ∃ t ∈ specTokens s, ToLower tbl t = k := by
  have h := (wordCount_mem_keys tbl s k).1 hk
  unfold specCount at h
  have hpos : 0 < (specTokens s).countP fun t => specLower tbl t = k := Nat.pos_of_ne_zero h
  obtain ⟨t, ht, hp⟩ := List.countP_pos_iff.1 hpos
  exact ⟨t, ht, by rw [ToLower_eq_specLower]; simpa using hp⟩

theorem wordCount_key_ne_nil (tbl : Nat → Nat) (s k : GoString)
    (hk : k ∈ mapKeys (wordCount tbl s)) : k ≠ [] := by
  obtain ⟨t, ht, rfl⟩ := wordCount_key_token tbl s k hk
  exact ToLower_ne_nil tbl t (specTokens_props s t ht).1

/-- No entry of the ranked sequence of the pipeline has the empty word. -/
theorem pipeline_keys_ne_nil (tbl : Nat → Nat) (chunks : List GoString) (results : List FreqMap)
    (h : results.Perm (chunks.map (wordCount tbl))) (lib : SortLib) (ss : ByValue)
    (hss : ss.Perm (rank lib (mergeLoop results))) : ∀ e ∈ ss, e.Key ≠ [] := by
  intro e he
  have h1 := (hss.trans (rank_perm lib _)).mem_iff.1 he
  obtain ⟨⟨k, v⟩, hkv, rfl⟩ := List.mem_map.1 h1
  have hk : k ∈ mapKeys (mergeLoop results) := List.mem_map_of_mem Prod.fst hkv
  obtain ⟨m, hm, hkm⟩ := mergeLoop_keys results k hk
  obtain ⟨c, _, rfl⟩ := List.mem_map.1 (h.mem_iff.1 hm)
  exact wordCount_key_ne_nil tbl c k hkm

theorem lowerTableOK_id : lowerTableOK id := by
  intro r hr hsp
  have hp : punctClass r = false := by
    cases h : punctClass r with
    | false => rfl
    | true => have := punctClass_lt r h; omega
  have hu : (decide (0x41 ≤ r) && decide (r ≤ 0x5A)) = false := by
    simp only [Bool.and_eq_false_iff, decide_eq_false_iff_not]
    omega
  simp only [id, normalRune, hsp, hp, hu, Bool.not_false, Bool.and_self]

theorem insertAll_root_count (ops : List (GoString × Int)) :
    (insertAll NewTrieNode ops).count = wrap64 (insertedFor ops []) := by
  have e : insertedTotal ops [] = insertedFor ops [] := by
    unfold insertedTotal insertedFor
    congr 2
    apply List.filter_congr
    intro op _
    simp [runes_eq_nil_iff]
  rw [insertAll_count, e]

theorem insertAll_root_count_zero (ops : List (GoString × Int)) (h : ∀ op ∈ ops, op.1 ≠ []) :
    (insertAll NewTrieNode ops).count = 0
    ∧ GetFrequency (insertAll NewTrieNode ops) [] = 0 := by
  have h3 : insertedFor ops [] = 0 := by
    unfold insertedFor
    rw [List.filter_eq_nil_iff.2]
    · rfl
    · intro op hop
      simpa using h op hop
  have h1 := insertAll_root_count ops
  have h2 : GetFrequency (insertAll NewTrieNode ops) [] = (insertAll NewTrieNode ops).count :=
    rfl
  exact ⟨by rw [h1, h3, wrap64_zero], by rw [h2, h1, h3, wrap64_zero]⟩

theorem splitOnP_nonempty_le {α : Type} (p : α → Bool) (l : List α) :
    ((l.splitOnP p).filter fun r => !r.isEmpty).length ≤ l.length := by
  induction l with
  | nil => simp
  | cons x xs ih =>
    rw [List.splitOnP_cons]
    split
    · simp only [List.filter_cons, List.isEmpty_nil, Bool.not_true, List.length_cons]
      simp only [Bool.false_eq_true, if_false]
      omega
    · have hne := List.splitOnP_ne_nil p xs
      cases h : xs.splitOnP p with
      | nil => exact absurd h hne
      | cons r rs =>
        rw [h] at ih
        simp only [List.modifyHead_cons, List.filter_cons, List.isEmpty_cons, Bool.not_false,
          if_true, List.length_cons] at ih ⊢
        split at ih
        · simp only [List.length_cons] at ih
          omega
        · omega

/-- A chunk has at most as many tokens as bytes. -/
theorem specTokens_length_le (s : GoString) : (specTokens s).length ≤ s.length := by
  unfold specTokens
  rw [List.length_map]
  refine (splitOnP_nonempty_le _ _).trans ?_
  have h1 : (segments (specStrip s)).length ≤ (specStrip s).length := by
    have := runes_length_le (specStrip s)
    simpa [runes] using this
  have h2 : (specStrip s).length ≤ s.length := List.length_filter_le _ _
  omega

theorem specCount_le (tbl : Nat → Nat) (s w : GoString) : specCount tbl s w ≤ s.length :=
  (List.countP_le_length _).trans (specTokens_length_le s)

/-- The counts of the global mapping of the pipeline are bounded by the number
of bytes of the chunks. -/
theorem pipeline_count_bound (tbl : Nat → Nat) (chunks : List GoString) (results : List FreqMap)
    (h : results.Perm (chunks.map (wordCount tbl))) (w : GoString) :
    0 ≤ mapGet (mergeLoop results) w
    ∧ mapGet (mergeLoop results) w ≤ ((chunks.map List.length).sum : Nat) := by
  have hs : ((results.map fun m => entrySum m w).sum : Int)
      = (((chunks.map fun c => specCount tbl c w).sum : Nat) : Int) := by
    rw [((h.map fun m => entrySum m w)).sum_eq, List.map_map]
    have : ((fun m => entrySum m w) ∘ wordCount tbl)
        = fun c => ((specCount tbl c w : Nat) : Int) := by
      funext c
      simp [wordCount_entrySum]
    rw [this]
    clear h
    induction chunks with
    | nil => rfl
    | cons c cs ih => simp only [List.map_cons, List.sum_cons, ih]; push_cast; rfl
  have hb : (chunks.map fun c => specCount tbl c w).sum ≤ (chunks.map List.length).sum := by
    clear h hs
    induction chunks with
    | nil => simp
    | cons c cs ih =>
      simp only [List.map_cons, List.sum_cons]
      have := specCount_le tbl c w
      omega
  rw [mapGet_eq_mapFind, mergeLoop_find]
  split
  · simp only [Option.getD_some]
    rw [hs]
    exact ⟨by positivity, by exact_mod_cast hb⟩
  · simp only [Option.getD_none]
    exact ⟨le_refl _, by positivity⟩

theorem mem_of_mapFind (m : FreqMap) (w : GoString) (v : Int) (h : mapFind m w = some v) :
    (w, v) ∈ m := by
  induction m with
  | nil => simp [mapFind] at h
  | cons e rest ih =>
    obtain ⟨k, x⟩ := e
    by_cases hk : k = w
    · subst hk
      simp only [mapFind, if_true, Option.some.injEq] at h
      subst h
      exact List.mem_cons_self _ _
    · simp only [mapFind, hk, if_false] at h
      exact List.mem_cons_of_mem _ (ih h)

/-! ## The claims -/

/-- C1 (the code breaks it). Partition round-trip: concatenating the chunks of
`splitString(T, s)` should give back `T`. For the well-formed text "é" (bytes
C3 A9, one rune) and chunk size 1 the code returns the single chunk `s[0:1]`,
the byte C3: the loop counts runes but slices bytes, so the concatenation of
the chunks is not the text. -/
theorem splitString_roundtrip_fails_on_multibyte :
    validUTF8 [0xC3, 0xA9] = true
    ∧ (∀ fuel, splitString (fuel + 1) [0xC3, 0xA9] 1 = .ret [[0xC3]])
    ∧ ([[0xC3]] : List GoString).flatten ≠ [0xC3, 0xA9] := by
  refine ⟨by decide, ?_, by decide⟩
  intro fuel
  exact splitString_fuel_mono _ _ 1 _ _ (by decide) (by omega)

/-- C2 (as stated, refuted). After `Insert("\xff", 1)` on a fresh root,
`GetFrequency("\xfe")` is 1 although no insert had the word "\xfe": both
strings are a single ill-formed byte, which `range` decodes to U+FFFD. And
after `Insert("a", 2^63 - 1)` and `Insert("a", 1)` on a fresh root,
`GetFrequency("a")` is `-2^63`, not the sum `2^63` of the two counts: the
addition `node.count += count1` wraps around. -/
theorem illformed_words_share_count :
    GetFrequency (insertAll NewTrieNode [([0xFF], 1)]) [0xFE] = 1
    ∧ insertedFor [([0xFF], 1)] [0xFE] = 0
    ∧ GetFrequency (insertAll NewTrieNode [(ascii "a", 2 ^ 63 - 1), (ascii "a", 1)]) (ascii "a")
      = -(2 ^ 63)
    ∧ insertedFor [(ascii "a", 2 ^ 63 - 1), (ascii "a", 1)] (ascii "a") = 2 ^ 63 := by
  decide

/-- C2 (amended). For every sequence of `Insert` calls on a fresh root and every
word `w`, `GetFrequency(w)` is the sum of the counts of exactly those inserts
whose word decodes to the same rune sequence as `w`, in the 64-bit arithmetic
of Go's `int`: the sum reduced to the range `-2^63 .. 2^63 - 1` by wrap-around,
so the sum itself whenever it is in that range. When `w` and the inserted
words are well-formed UTF-8 these inserts are exactly the inserts of `w`
itself. An insert of a word with another rune sequence (a word sharing a
prefix with `w` or extending it included) leaves `GetFrequency(w)` unchanged. -/
theorem trie_stores_cumulative_counts (ops : List (GoString × Int)) (w : GoString) :
    GetFrequency (insertAll NewTrieNode ops) w = wrap64 (insertedTotal ops (runes w))
    ∧ (isInt64 (insertedTotal ops (runes w)) = true →
        GetFrequency (insertAll NewTrieNode ops) w = insertedTotal ops (runes w))
    ∧ (validUTF8 w = true → (∀ op ∈ ops, validUTF8 op.1 = true) →
        GetFrequency (insertAll NewTrieNode ops) w = wrap64 (insertedFor ops w)
        ∧ (isInt64 (insertedFor ops w) = true →
            GetFrequency (insertAll NewTrieNode ops) w = insertedFor ops w))
    ∧ (∀ (t : TrieNode) (v : GoString) (c : Int), runes v ≠ runes w →
        GetFrequency (Insert t v c) w = GetFrequency t w) := by
  have h1 : GetFrequency (insertAll NewTrieNode ops) w = wrap64 (insertedTotal ops (runes w)) :=
    getRunes_insertAll_new ops (runes w)
  refine ⟨h1, ?_, ?_, ?_⟩
  · intro hr
    rw [h1, wrap64_of_isInt64 _ hr]
  · intro hw hops
    rw [h1, insertedTotal_eq_insertedFor ops w hw hops]
    exact ⟨rfl, fun hr => wrap64_of_isInt64 _ hr⟩
  · intro t v c hne
    exact getRunes_insert_ne _ _ (fun e => hne e.symm) t c

/-- C7 (as stated, refuted). After `Insert("\xc3", 3)` on a fresh root the word
"\x80" was never inserted, yet `GetFrequency("\x80")` is 3: each of the two
strings is one ill-formed byte and walks the path of U+FFFD. -/
theorem illformed_word_found_uninserted :
    ([0x80] : GoString) ≠ [0xC3]
    ∧ GetFrequency (insertAll NewTrieNode [([0xC3], 3)]) [0x80] = 3 := by
  decide

/-- C7 (amended). In a trie built from a fresh root by `Insert` calls,
`GetFrequency(w)` is 0 for every word `w` whose rune sequence differs from that
of every inserted word; for well-formed UTF-8 words that is every `w` that was
never inserted, a proper prefix of an inserted word included. -/
theorem trie_lookup_miss (ops : List (GoString × Int)) (w : GoString)
    (h : ∀ op ∈ ops, runes op.1 ≠ runes w
      ∨ (validUTF8 op.1 = true ∧ validUTF8 w = true ∧ op.1 ≠ w)) :
    GetFrequency (insertAll NewTrieNode ops) w = 0 :=
  getFrequency_absent ops w h

/-- Witness of `trie_lookup_miss`: after inserting "cat" and "car", the proper prefix
"ca" and the word "dog" have frequency 0. -/
theorem trie_lookup_miss_witness :
    GetFrequency (insertAll NewTrieNode [([0x63, 0x61, 0x74], 2), ([0x63, 0x61, 0x72], 1)])
        [0x63, 0x61] = 0
    ∧ GetFrequency (insertAll NewTrieNode [([0x63, 0x61, 0x74], 2), ([0x63, 0x61, 0x72], 1)])
        [0x64, 0x6F, 0x67] = 0 :=
  ⟨trie_lookup_miss _ _ (by decide), by decide⟩

/-- C8 (as stated, refuted). The word "\x80" is never inserted into the trie
made by `Insert("\xc3", 3)` on a fresh root, yet after `Insert("\x80", 1)` and
`Insert("\x80", 2)` the value of `GetFrequency("\x80")` is 6, not 1 + 2: each
of the two words is one ill-formed byte and walks the path of U+FFFD. And on
a fresh root, after `Insert("a", 2^63 - 1)` and `Insert("a", 1)` the value of
`GetFrequency("a")` is `-2^63`, not the sum of the two counts. -/
theorem illformed_word_accumulates_on_shared_path :
    ([0xC3] : GoString) ≠ [0x80]
    ∧ GetFrequency (insertAll NewTrieNode [([0xC3], 3)]) [0x80] = 3
    ∧ GetFrequency
        (Insert (Insert (insertAll NewTrieNode [([0xC3], 3)]) [0x80] 1) [0x80] 2) [0x80] = 6
    ∧ GetFrequency (Insert (Insert NewTrieNode (ascii "a") (2 ^ 63 - 1)) (ascii "a") 1) (ascii "a")
      = -(2 ^ 63) := by
  decide

/-- C8 (amended). Trie accumulation: for every trie, word `W` and counts `c1`,
`c2`, after `Insert(W, c1)` and `Insert(W, c2)` the value `GetFrequency(W)` is
its value before plus `c1 + c2`, in the 64-bit arithmetic of Go's `int` (the
sum reduced to the range `-2^63 .. 2^63 - 1` by wrap-around, so the sum itself
whenever it is in that range). On a fresh root, and on a trie built from a
fresh root by inserts of words none of which has the rune sequence of `W`
(for well-formed UTF-8 words: in which `W` was never inserted), it is
`c1 + c2` in that arithmetic: the second insert accumulates, it does not
overwrite. -/
theorem trie_accumulation (t : TrieNode) (W : GoString) (c1 c2 : Int) :
    GetFrequency (Insert (Insert t W c1) W c2) W = wrap64 (GetFrequency t W + (c1 + c2))
    ∧ (isInt64 (GetFrequency t W + (c1 + c2)) = true →
        GetFrequency (Insert (Insert t W c1) W c2) W = GetFrequency t W + (c1 + c2))
    ∧ GetFrequency (Insert (Insert NewTrieNode W c1) W c2) W = wrap64 (c1 + c2)
    ∧ (∀ ops : List (GoString × Int),
        (∀ op ∈ ops, runes op.1 ≠ runes W
          ∨ (validUTF8 op.1 = true ∧ validUTF8 W = true ∧ op.1 ≠ W)) →
        GetFrequency (Insert (Insert (insertAll NewTrieNode ops) W c1) W c2) W
          = wrap64 (c1 + c2)
        ∧ (isInt64 (c1 + c2) = true →
            GetFrequency (Insert (Insert (insertAll NewTrieNode ops) W c1) W c2) W = c1 + c2))
    := by
  have key : ∀ t : TrieNode,
      GetFrequency (Insert (Insert t W c1) W c2) W = wrap64 (GetFrequency t W + (c1 + c2)) := by
    intro t
    simp only [GetFrequency, Insert, getRunes_insert_same]
    rw [wrap64_add_left, add_assoc]
  refine ⟨key t, ?_, ?_, ?_⟩
  · intro hr
    rw [key, wrap64_of_isInt64 _ hr]
  · rw [key]
    simp [GetFrequency, getRunes_new]
  · intro ops hops
    have h0 : GetFrequency (Insert (Insert (insertAll NewTrieNode ops) W c1) W c2) W
        = wrap64 (c1 + c2) := by
      rw [key, getFrequency_absent ops W hops, zero_add]
    exact ⟨h0, fun hr => by rw [h0, wrap64_of_isInt64 _ hr]⟩

/-- C3. Chunk counter against its reference definition: for every chunk the
mapping produced by `wordCount` maps each word `w` to the number of tokens `t`
with lower-case(`t`) = `w`, the tokens being the maximal runs of characters
that are not white space, after every occurrence of `, . ? ! # $ % ^ & * ( ~`
is deleted; a word with no such token is absent. The lower-case form of a
token is defined character by character (`A`..`Z` become `a`..`z`, other ASCII
characters stay, characters above ASCII follow the Unicode case table), and
the characters deleted are exactly the twelve listed, the white-space
characters exactly those of `unicode.IsSpace`. The keys of the mapping are
pairwise distinct, and "the cat sat. the dog sat!" gives
`{the:2, cat:1, sat:2, dog:1}`; "The CAT sat. tHe (dog) Sat!~ #a $b %c ^d &e
*f ?" gives `{the:2, cat:1, sat:2, dog):1, a:1, b:1, c:1, d:1, e:1, f:1}`, and
"ÉTA" gives the lower-case form of "É" followed by "ta", once. -/
theorem wordCount_refines_reference (tbl : Nat → Nat) (chunk w : GoString) :
    mapFind (wordCount tbl chunk) w
      = (if specCount tbl chunk w = 0 then none else some (specCount tbl chunk w : Int))
    ∧ (mapKeys (wordCount tbl chunk)).Nodup
    ∧ wordCount tbl (ascii "the cat sat. the dog sat!")
      = [(ascii "the", 2), (ascii "cat", 1), (ascii "sat", 2), (ascii "dog", 1)]
    ∧ wordCount tbl (ascii "The CAT sat. tHe (dog) Sat!~ #a $b %c ^d &e *f ?")
      = [(ascii "the", 2), (ascii "cat", 1), (ascii "sat", 2), (ascii "dog)", 1),
          (ascii "a", 1), (ascii "b", 1), (ascii "c", 1), (ascii "d", 1), (ascii "e", 1),
          (ascii "f", 1)]
    ∧ wordCount tbl [0xC3, 0x89, 0x54, 0x41] = [(encodeRune (tbl 0xC9) ++ ascii "ta", 1)]
    ∧ specLower tbl (ascii "The") = ascii "the"
    ∧ specLower tbl (ascii "tHE-2") = ascii "the-2"
    ∧ (∀ r, punctClass r = true ↔ r ∈ ascii ",.?!#$%^&*(~")
    ∧ (∀ r, IsSpace r = true ↔ r ∈ spaceRunes)
    ∧ (∀ r, r < 0x80 → (specLowerRune tbl r
        = if r ∈ ascii "ABCDEFGHIJKLMNOPQRSTUVWXYZ" then r + 0x20 else r)) := by
  refine ⟨wordCount_find tbl chunk w, wordCount_nodup tbl chunk, rfl, rfl, rfl, rfl, rfl,
    punctClass_iff, IsSpace_iff, ?_⟩
  intro r hr
  have e : ascii "ABCDEFGHIJKLMNOPQRSTUVWXYZ"
      = [0x41, 0x42, 0x43, 0x44, 0x45, 0x46, 0x47, 0x48, 0x49, 0x4A, 0x4B, 0x4C, 0x4D, 0x4E,
          0x4F, 0x50, 0x51, 0x52, 0x53, 0x54, 0x55, 0x56, 0x57, 0x58, 0x59, 0x5A] := by decide
  rw [e]
  unfold specLowerRune
  by_cases h1 : 0x41 ≤ r ∧ r ≤ 0x5A
  · have h2 : r ∈ [0x41, 0x42, 0x43, 0x44, 0x45, 0x46, 0x47, 0x48, 0x49, 0x4A, 0x4B, 0x4C, 0x4D,
        0x4E, 0x4F, 0x50, 0x51, 0x52, 0x53, 0x54, 0x55, 0x56, 0x57, 0x58, 0x59, 0x5A] := by
      simp only [List.mem_cons, List.mem_singleton, List.not_mem_nil, or_false]
      omega
    rw [if_pos h1, if_pos h2]
  · have h2 : r ∉ [0x41, 0x42, 0x43, 0x44, 0x45, 0x46, 0x47, 0x48, 0x49, 0x4A, 0x4B, 0x4C, 0x4D,
        0x4E, 0x4F, 0x50, 0x51, 0x52, 0x53, 0x54, 0x55, 0x56, 0x57, 0x58, 0x59, 0x5A] := by
      simp only [List.mem_cons, List.mem_singleton, List.not_mem_nil, or_false]
      omega
    rw [if_neg h1, if_pos hr, if_neg h2]

/-- C4. Merge: for every list of partial mappings (Go maps, so with pairwise
distinct keys) consumed by the merge loop, the global mapping gives each word
the sum of its counts over all partial mappings of the list, each counted
once, and a word in none of them is absent. -/
theorem merge_adds_every_partial_once (parts : List FreqMap)
    (hwf : ∀ p ∈ parts, (mapKeys p).Nodup) (w : GoString) :
    mapFind (mergeLoop parts) w
      = (if ∃ p ∈ parts, w ∈ mapKeys p then some ((parts.map fun p => mapGet p w).sum)
          else none)
    ∧ (mapKeys (mergeLoop parts)).Nodup := by
  refine ⟨?_, mergeLoop_nodup parts⟩
  rw [mergeLoop_find]
  have e : (parts.map fun m => entrySum m w) = parts.map fun p => mapGet p w :=
    List.map_congr_left fun p hp => entrySum_eq_mapGet p w (hwf p hp)
  rw [e]

/-- Witness of `merge_adds_every_partial_once`: merging `{a:1, b:2}`, `{b:3}`
and `{a:4, c:5}` gives `b` the count 5. -/
theorem merge_adds_every_partial_once_witness :
    mapFind (mergeLoop [[(ascii "a", 1), (ascii "b", 2)], [(ascii "b", 3)],
        [(ascii "a", 4), (ascii "c", 5)]]) (ascii "b") = some 5 := by
  have h := (merge_adds_every_partial_once
    [[(ascii "a", 1), (ascii "b", 2)], [(ascii "b", 3)], [(ascii "a", 4), (ascii "c", 5)]]
    (by decide) (ascii "b")).1
  rw [h]
  decide

/-- C6. Aggregation is order-independent: for every list of partial mappings and
every permutation of it the merge loop produces the same global mapping (the
same words with the same counts), also when the entries of the partial
mappings are iterated in another order; so the global mapping of a list of
chunks does not depend on the order in which their counts arrive. -/
theorem merge_order_independent (ps qs : List FreqMap) (h : ps.Perm qs) :
    (∀ w, mapFind (mergeLoop ps) w = mapFind (mergeLoop qs) w)
    ∧ (∀ qs' : List FreqMap, List.Forall₂ List.Perm qs qs' →
        ∀ w, mapFind (mergeLoop ps) w = mapFind (mergeLoop qs') w)
    ∧ (∀ (tbl : Nat → Nat) (chunks : List GoString), ps.Perm (chunks.map (wordCount tbl)) →
        ∀ w, mapFind (mergeLoop qs) w = mapFind (mergeLoop (chunks.map (wordCount tbl))) w)
    := by
  refine ⟨mergeLoop_perm ps qs h, ?_, ?_⟩
  · intro qs' hq w
    rw [mergeLoop_perm ps qs h w, mergeLoop_iteration_order qs qs' hq w]
  · intro tbl chunks hc w
    exact mergeLoop_perm qs _ (h.symm.trans hc) w

/-- Witness of `merge_order_independent`: the two arrival orders of `{a:1, b:2}`
and `{b:3}` give `b` the same count, 5. -/
theorem merge_order_independent_witness :
    mapFind (mergeLoop [[(ascii "a", 1), (ascii "b", 2)], [(ascii "b", 3)]]) (ascii "b")
      = mapFind (mergeLoop [[(ascii "b", 3)], [(ascii "a", 1), (ascii "b", 2)]]) (ascii "b")
    ∧ mapFind (mergeLoop [[(ascii "b", 3)], [(ascii "a", 1), (ascii "b", 2)]]) (ascii "b")
      = some 5 :=
  ⟨(merge_order_independent _ _ (List.Perm.swap _ _ [])).1 (ascii "b"), by decide⟩

/-- C5. Ranking totality: for every global mapping (a Go map, so with pairwise
distinct keys) the sequence obtained by collecting its entries into a `kv`
slice and sorting it with `ByValue` is a permutation of the entries of the
mapping: it has exactly the words of the mapping, each once, each with its
count, whatever `Swap` calls `sort.Sort` makes; and the counts are
non-increasing along the sequence. A mapping of at most 12 words is sorted by
the insertion sort of package `sort`; for a longer one the order follows from
the contract of `sort.Sort`, that no element of the result is `Less` than an
element before it, `Less` being `a[i].Value > a[j].Value`. -/
theorem ranking_totality (lib : SortLib) (m : FreqMap) (hm : (mapKeys m).Nodup) :
    (rank lib m).Perm (m.map fun e => kv.mk e.1 e.2)
    ∧ ((rank lib m).map kv.Key).Nodup
    ∧ (∀ w, w ∈ (rank lib m).map kv.Key ↔ w ∈ mapKeys m)
    ∧ (∀ e ∈ rank lib m, mapFind m e.Key = some e.Value)
    ∧ (m.length ≤ 12 ∨ sortContract lib →
        (rank lib m).Pairwise fun p q => p.Value ≥ q.Value) := by
  have hp := rank_perm lib m
  have hk : ((rank lib m).map kv.Key).Perm (mapKeys m) := by
    have := hp.map kv.Key
    simpa [mapKeys, Function.comp] using this
  refine ⟨hp, hk.nodup_iff.2 hm, fun w => hk.mem_iff, ?_, rank_sorted lib m⟩
  intro e he
  have he2 := hp.mem_iff.1 he
  obtain ⟨⟨k, v⟩, hkv, rfl⟩ := List.mem_map.1 he2
  exact mapFind_of_mem m hm k v hkv

/-- Witness of `ranking_totality`: the mapping `{the:2, cat:1, sat:2, dog:1}`,
sorted by insertion, and a mapping of 13 words with a library that meets the
contract of `sort.Sort`. -/
theorem ranking_totality_witness :
    ((rank insertionLib
        [(ascii "the", 2), (ascii "cat", 1), (ascii "sat", 2), (ascii "dog", 1)]).Pairwise
      fun p q => p.Value ≥ q.Value)
    ∧ rank insertionLib [(ascii "the", 2), (ascii "cat", 1), (ascii "sat", 2), (ascii "dog", 1)]
      = [⟨ascii "the", 2⟩, ⟨ascii "sat", 2⟩, ⟨ascii "cat", 1⟩, ⟨ascii "dog", 1⟩]
    ∧ sortContract insertionLib
    ∧ ((rank insertionLib [(ascii "a", 3), (ascii "b", 1), (ascii "c", 4), (ascii "d", 1),
      (ascii "e", 5), (ascii "f", 9), (ascii "g", 2), (ascii "h", 6), (ascii "i", 5),
      (ascii "j", 3), (ascii "k", 5), (ascii "l", 8), (ascii "m", 9)]).Pairwise
        fun p q => p.Value ≥ q.Value)
    ∧ ((rank insertionLib [(ascii "a", 3), (ascii "b", 1), (ascii "c", 4), (ascii "d", 1),
      (ascii "e", 5), (ascii "f", 9), (ascii "g", 2), (ascii "h", 6), (ascii "i", 5),
      (ascii "j", 3), (ascii "k", 5), (ascii "l", 8), (ascii "m", 9)]).map kv.Key).Nodup :=
  ⟨(ranking_totality insertionLib
      [(ascii "the", 2), (ascii "cat", 1), (ascii "sat", 2), (ascii "dog", 1)]
      (by decide)).2.2.2.2 (Or.inl (by decide)),
    by decide,
    sortContract_insertionLib,
    (ranking_totality insertionLib [(ascii "a", 3), (ascii "b", 1), (ascii "c", 4), (ascii "d", 1),
      (ascii "e", 5), (ascii "f", 9), (ascii "g", 2), (ascii "h", 6), (ascii "i", 5),
      (ascii "j", 3), (ascii "k", 5), (ascii "l", 8), (ascii "m", 9)] (by decide)).2.2.2.2
      (Or.inr sortContract_insertionLib),
    (ranking_totality insertionLib [(ascii "a", 3), (ascii "b", 1), (ascii "c", 4), (ascii "d", 1),
      (ascii "e", 5), (ascii "f", 9), (ascii "g", 2), (ascii "h", 6), (ascii "i", 5),
      (ascii "j", 3), (ascii "k", 5), (ascii "l", 8), (ascii "m", 9)] (by decide)).2.1⟩

/-- C9 (as stated, refuted). The global mapping `{"\uFFFD": 1}` (the key is the
well-formed encoding EF BF BD of U+FFFD) does not contain the word "\xff", yet
after the trie is built from its ranked sequence `GetFrequency("\xff")` is 1:
`range` decodes the ill-formed byte FF to U+FFFD. -/
theorem illformed_query_hits_mapping_key :
    ([0xFF] : GoString) ∉ mapKeys [([0xEF, 0xBF, 0xBD], 1)]
    ∧ (∀ lib : SortLib,
        GetFrequency (buildTrie (rank lib [([0xEF, 0xBF, 0xBD], 1)])) [0xFF] = 1) := by
  refine ⟨by decide, fun lib => ?_⟩
  rw [rank_short lib _ (by decide)]
  decide

/-- C9 (amended). For every global mapping `M`, whatever the order `ss` of its
ranked sequence, the trie built from `ss` gives `GetFrequency(w)` = the sum of
`M[k]` over the keys `k` of `M` that decode to the same rune sequence as `w`
(in the 64-bit arithmetic of `int`). When `w` and the keys of `M` are
well-formed UTF-8 this is `M[w]` for `w` in `M` and 0 for `w` not in `M`, the
values of `M` being values of `int`. The keys of a mapping merged from
`wordCount` results always are well-formed, and its values are values of
`int` when the chunks have fewer than `2^63` bytes in all. -/
theorem trie_lookup_agrees_with_mapping (lib : SortLib) (m : FreqMap) (hm : (mapKeys m).Nodup)
    (ss : ByValue) (hss : ss.Perm (rank lib m)) (w : GoString) :
    GetFrequency (buildTrie ss) w = wrap64 (runeSum m w)
    ∧ (isInt64 (runeSum m w) = true → GetFrequency (buildTrie ss) w = runeSum m w)
    ∧ (validUTF8 w = true → (∀ k ∈ mapKeys m, validUTF8 k = true) →
        (∀ e ∈ m, isInt64 e.2 = true) →
        GetFrequency (buildTrie ss) w = mapGet m w
        ∧ (∀ v, mapFind m w = some v → GetFrequency (buildTrie ss) w = v)
        ∧ (w ∉ mapKeys m → GetFrequency (buildTrie ss) w = 0))
    ∧ (∀ (tbl : Nat → Nat) (chunks : List GoString) (results : List FreqMap),
        results.Perm (chunks.map (wordCount tbl)) → m = mergeLoop results →
        (chunks.map List.length).sum < 2 ^ 63 →
        validUTF8 w = true → GetFrequency (buildTrie ss) w = mapGet m w) := by
  have h1 := getFrequency_buildTrie m ss (hss.trans (rank_perm lib m)) w
  have h2 : validUTF8 w = true → (∀ k ∈ mapKeys m, validUTF8 k = true) →
      isInt64 (mapGet m w) = true → GetFrequency (buildTrie ss) w = mapGet m w := by
    intro hw hk hr
    rw [h1, runeSum_eq_mapGet m hm w hw hk, wrap64_of_isInt64 _ hr]
  have h3 : (∀ e ∈ m, isInt64 e.2 = true) → isInt64 (mapGet m w) = true := by
    intro hv
    rw [mapGet_eq_mapFind]
    cases hf : mapFind m w with
    | none => rfl
    | some v => exact hv (w, v) (mem_of_mapFind m w v hf)
  refine ⟨h1, fun hr => by rw [h1, wrap64_of_isInt64 _ hr], ?_, ?_⟩
  · intro hw hk hv
    refine ⟨h2 hw hk (h3 hv), ?_, ?_⟩
    · intro v hf
      rw [h2 hw hk (h3 hv), mapGet_eq_mapFind, hf]
      rfl
    · intro hnot
      rw [h2 hw hk (h3 hv), mapGet_of_not_mem m w hnot]
  · intro tbl chunks results hr hmr hlen hw
    subst hmr
    refine h2 hw (pipeline_keys_valid tbl chunks results hr) ?_
    have hb := pipeline_count_bound tbl chunks results hr w
    have hl : (((chunks.map List.length).sum : Nat) : Int) < 2 ^ 63 := by exact_mod_cast hlen
    simp only [isInt64, decide_eq_true_eq]
    omega

/-- Witness of `trie_lookup_agrees_with_mapping`: for `{the:2, cat:1, sat:2,
dog:1}` the trie built from the ranked sequence has `GetFrequency("sat") = 2`
and `GetFrequency("sa") = 0`. -/
theorem trie_lookup_agrees_with_mapping_witness :
    GetFrequency (buildTrie (rank insertionLib [(ascii "the", 2), (ascii "cat", 1),
        (ascii "sat", 2), (ascii "dog", 1)])) (ascii "sat") = 2
    ∧ GetFrequency (buildTrie (rank insertionLib [(ascii "the", 2), (ascii "cat", 1),
        (ascii "sat", 2), (ascii "dog", 1)])) (ascii "sa") = 0 :=
  ⟨((trie_lookup_agrees_with_mapping insertionLib
      [(ascii "the", 2), (ascii "cat", 1), (ascii "sat", 2), (ascii "dog", 1)] (by decide)
      _ (List.Perm.refl _) (ascii "sat")).2.2.1 (by decide) (by decide) (by decide)).2.1 2
        (by decide),
   ((trie_lookup_agrees_with_mapping insertionLib
      [(ascii "the", 2), (ascii "cat", 1), (ascii "sat", 2), (ascii "dog", 1)] (by decide)
      _ (List.Perm.refl _) (ascii "sa")).2.2.1 (by decide) (by decide) (by decide)).2.2
        (by decide)⟩

/-- C10. Additivity across chunk sizes: for every text `T` and all chunk sizes
`s1, s2 > 0`, `splitString` returns chunk lists `cs1` and `cs2`, and when no
chunk boundary of either falls inside a word (each boundary has a white-space
character right before or right after it), merging the `wordCount` results
over `cs1`, in any order of arrival, gives the same global mapping as merging
them over `cs2`. -/
theorem additivity_across_chunk_sizes (tbl : Nat → Nat) (T : GoString) (s1 s2 : Int)
    (h1 : 0 < s1) (h2 : 0 < s2) (fuel : Nat) (hf : (runes T).length ≤ fuel) :
    ∃ cs1 cs2, splitString fuel T s1 = .ret cs1 ∧ splitString fuel T s2 = .ret cs2
      ∧ (noWordSplit cs1 = true → noWordSplit cs2 = true →
          ∀ r1 r2 : List FreqMap, r1.Perm (cs1.map (wordCount tbl)) →
            r2.Perm (cs2.map (wordCount tbl)) →
            ∀ w, mapFind (mergeLoop r1) w = mapFind (mergeLoop r2) w) := by
  obtain ⟨cs1, e1, j1, _⟩ := splitString_pos T s1 h1 fuel hf
  obtain ⟨cs2, e2, j2, _⟩ := splitString_pos T s2 h2 fuel hf
  refine ⟨cs1, cs2, e1, e2, ?_⟩
  intro n1 n2 r1 r2 p1 p2 w
  rw [mergeLoop_perm r1 _ p1, mergeLoop_perm r2 _ p2, merge_wordCount_flatten tbl cs1 n1,
    merge_wordCount_flatten tbl cs2 n2, j1, j2]

/-- Witness of `additivity_across_chunk_sizes`: "ab cd ef" split with chunk
sizes 3 and 6; both merges give the word "cd" the count 1. -/
theorem additivity_across_chunk_sizes_witness :
    mapFind (mergeLoop ([ascii "ab ", ascii "cd ", ascii "ef"].map (wordCount id))) (ascii "cd")
      = mapFind (mergeLoop ([ascii "ab cd ", ascii "ef"].map (wordCount id))) (ascii "cd")
    ∧ mapFind (mergeLoop ([ascii "ab cd ", ascii "ef"].map (wordCount id))) (ascii "cd")
      = some 1 := by
  obtain ⟨cs1, cs2, e1, e2, h⟩ :=
    additivity_across_chunk_sizes id (ascii "ab cd ef") 3 6 (by decide) (by decide) 8
      (by decide)
  have d1 : splitString 8 (ascii "ab cd ef") 3 = .ret [ascii "ab ", ascii "cd ", ascii "ef"] := by
    decide
  have d2 : splitString 8 (ascii "ab cd ef") 6 = .ret [ascii "ab cd ", ascii "ef"] := by
    decide
  rw [d1] at e1
  rw [d2] at e2
  cases e1
  cases e2
  exact ⟨h (by decide) (by decide) _ _ (List.Perm.refl _) (List.Perm.refl _) (ascii "cd"),
    by decide⟩

/-- C11. Counting distributes over concatenation at word boundaries: for all
chunks `a` and `b` such that `a` is empty, `b` is empty, `a` ends with a
white-space character or `b` begins with one, `wordCount(a ++ b)` is the
word-wise sum of `wordCount(a)` and `wordCount(b)`: every word has the sum of
its two counts and is present exactly when it is present in one of them. So
the partial counts merged over chunks none of whose boundaries splits a word
are the counts of the concatenated text. -/
theorem wordCount_distributes_at_word_boundary (tbl : Nat → Nat) (a b : GoString)
    (h : a = [] ∨ b = [] ∨ endsWithSpace a = true ∨ beginsWithSpace b = true) :
    (∀ w, mapGet (wordCount tbl (a ++ b)) w
        = mapGet (wordCount tbl a) w + mapGet (wordCount tbl b) w)
    ∧ (∀ w, w ∈ mapKeys (wordCount tbl (a ++ b))
        ↔ w ∈ mapKeys (wordCount tbl a) ∨ w ∈ mapKeys (wordCount tbl b))
    ∧ (∀ w, mapFind (wordCount tbl (a ++ b)) w
        = mapFind (mergeLoop [wordCount tbl a, wordCount tbl b]) w)
    ∧ (∀ cs : List GoString, noWordSplit cs = true →
        ∀ w, mapFind (mergeLoop (cs.map (wordCount tbl))) w
          = mapFind (wordCount tbl cs.flatten) w) := by
  have hk : ∀ w, w ∈ mapKeys (wordCount tbl (a ++ b))
      ↔ w ∈ mapKeys (wordCount tbl a) ∨ w ∈ mapKeys (wordCount tbl b) := by
    intro w
    rw [wordCount_mem_keys, wordCount_mem_keys, wordCount_mem_keys, specCount_append tbl a b w h]
    omega
  have hg : ∀ w, mapGet (wordCount tbl (a ++ b)) w
      = mapGet (wordCount tbl a) w + mapGet (wordCount tbl b) w := by
    intro w
    rw [wordCount_mapGet, wordCount_mapGet, wordCount_mapGet, specCount_append tbl a b w h]
    push_cast
    rfl
  refine ⟨hg, hk, ?_, fun cs hcs w => merge_wordCount_flatten tbl cs hcs w⟩
  intro w
  rw [mergeLoop_find]
  have e : (∃ m ∈ [wordCount tbl a, wordCount tbl b], w ∈ mapKeys m)
      ↔ w ∈ mapKeys (wordCount tbl (a ++ b)) := by
    rw [hk]
    simp
  by_cases hw : w ∈ mapKeys (wordCount tbl (a ++ b))
  · rw [if_pos (e.2 hw)]
    have h1 := (mapFind_isSome_iff _ _).2 hw
    have h2 := mapGet_eq_mapFind (wordCount tbl (a ++ b)) w
    cases hf : mapFind (wordCount tbl (a ++ b)) w with
    | none => rw [hf] at h1; simp at h1
    | some v =>
      rw [hf] at h2
      simp only [Option.getD_some] at h2
      rw [← h2, hg]
      simp [entrySum_eq_mapGet _ _ (wordCount_nodup tbl a),
        entrySum_eq_mapGet _ _ (wordCount_nodup tbl b)]
  · rw [if_neg (fun hex => hw (e.1 hex))]
    cases hf : mapFind (wordCount tbl (a ++ b)) w with
    | none => rfl
    | some v =>
      exact absurd ((mapFind_isSome_iff _ _).1 (by simp [hf])) hw

/-- Witness of `wordCount_distributes_at_word_boundary`: "the cat " and
"the dog". -/
theorem wordCount_distributes_at_word_boundary_witness :
    mapGet (wordCount id (ascii "the cat " ++ ascii "the dog")) (ascii "the")
      = mapGet (wordCount id (ascii "the cat ")) (ascii "the")
        + mapGet (wordCount id (ascii "the dog")) (ascii "the")
    ∧ mapGet (wordCount id (ascii "the cat " ++ ascii "the dog")) (ascii "the") = 2 :=
  ⟨(wordCount_distributes_at_word_boundary id (ascii "the cat ") (ascii "the dog")
      (Or.inr (Or.inr (Or.inl (by decide))))).1 (ascii "the"), by decide⟩

/-- C12 (as stated, refuted). With a chunk size that is not positive
`splitString` reports no error: on the empty text it returns the empty chunk
sequence, on the text "a" it does not terminate for chunk size 0 and panics
for chunk size -1. -/
theorem splitString_nonpositive_not_rejected :
    splitString 5 [] 0 = .ret [] ∧ splitString 5 [] (-1) = .ret []
    ∧ splitString 5 [0x61] 0 = .running ∧ splitString 5 [0x61] (-1) = .panic := by
  decide

/-- C12 (amended). `splitString` has no error result and does not check its
chunk size. For every chunk size that is not positive it returns the empty
chunk sequence on the empty text; on a non-empty text it returns no chunk
sequence: with chunk size 0 the loop never terminates (it is still running
after any number of iterations), with a negative chunk size the first slice
expression panics. -/
theorem splitString_nonpositive_chunk_size (s : GoString) (chunkSize : Int)
    (h : chunkSize ≤ 0) :
    (s = [] → ∀ fuel, splitString fuel s chunkSize = .ret [])
    ∧ (s ≠ [] → chunkSize = 0 → ∀ fuel, splitString fuel s chunkSize = .running)
    ∧ (s ≠ [] → chunkSize < 0 → ∀ fuel, splitString (fuel + 1) s chunkSize = .panic) :=
  splitString_nonpos s chunkSize h

/-- Witness of `splitString_nonpositive_chunk_size`: the text "ab" with chunk
sizes 0 and -3. -/
theorem splitString_nonpositive_chunk_size_witness :
    splitString 1000 (ascii "ab") 0 = .running ∧ splitString 1000 (ascii "ab") (-3) = .panic :=
  ⟨(splitString_nonpositive_chunk_size (ascii "ab") 0 (by decide)).2.1 (by decide) rfl 1000,
    (splitString_nonpositive_chunk_size (ascii "ab") (-3) (by decide)).2.2 (by decide)
      (by decide) 999⟩

/-- C13 (the code breaks it). Chunks should be consecutive runs of whole
characters. For the well-formed text "éa" (bytes C3 A9 61, two runes) and
chunk size 1 the chunks of whole characters are "é" and "a"; the code returns
the two chunks "\xC3" and "\xA9": the character "é" is split across them and
"a" is in no chunk, because the loop counts runes and slices bytes. -/
theorem splitString_splits_multibyte_character :
    validUTF8 [0xC3, 0xA9, 0x61] = true
    ∧ (List.range (chunkCount (runes [0xC3, 0xA9, 0x61]).length 1)).map
        (runeChunk [0xC3, 0xA9, 0x61] 1) = [[0xC3, 0xA9], [0x61]]
    ∧ (∀ fuel, splitString (fuel + 2) [0xC3, 0xA9, 0x61] 1 = .ret [[0xC3], [0xA9]]) := by
  refine ⟨by decide, by decide, ?_⟩
  intro fuel
  exact splitString_fuel_mono _ _ 2 _ _ (by decide) (by omega)

/-- C14 (as stated, refuted). The mapping `{the:2, cat:1, sat:2, dog:1}`,
iterated in the order the, cat, sat, dog, ranks as
`[(the,2),(sat,2),(cat,1),(dog,1)]`: the tied words "the" and "sat" are not in
ascending lexicographic order. Iterated in the order sat, cat, the, dog the
same mapping ranks as `[(sat,2),(the,2),(cat,1),(dog,1)]`, so the ranked
sequence is not determined by the mapping. (Four entries: `sort.Sort` runs its
insertion sort, whatever the library does on longer slices.) -/
theorem ranking_ties_follow_iteration_order :
    (ascii "sat" : List Nat) < ascii "the"
    ∧ (∀ lib : SortLib,
        rank lib [(ascii "the", 2), (ascii "cat", 1), (ascii "sat", 2), (ascii "dog", 1)]
          = [⟨ascii "the", 2⟩, ⟨ascii "sat", 2⟩, ⟨ascii "cat", 1⟩, ⟨ascii "dog", 1⟩])
    ∧ (∀ lib : SortLib,
        rank lib [(ascii "sat", 2), (ascii "cat", 1), (ascii "the", 2), (ascii "dog", 1)]
          = [⟨ascii "sat", 2⟩, ⟨ascii "the", 2⟩, ⟨ascii "cat", 1⟩, ⟨ascii "dog", 1⟩]) := by
  refine ⟨by decide, fun lib => ?_, fun lib => ?_⟩
  · rw [rank_short lib _ (by decide)]
    decide
  · rw [rank_short lib _ (by decide)]
    decide

/-- C14 (amended). `ByValue.Less` compares counts only. For every global mapping
the ranked sequence has non-increasing counts, and the sequence of its counts
is the same for every iteration order of the mapping; which of several words
with equal counts comes first is not fixed by the words. (A mapping of at most
12 words is sorted by the insertion sort of package `sort`; for a longer one
the contract of `sort.Sort` is used.) -/
theorem ranking_counts_determined (lib : SortLib) (m m' : FreqMap) (h : m.Perm m') :
    (m.length ≤ 12 ∨ sortContract lib →
        (rank lib m).map kv.Value = (rank lib m').map kv.Value
        ∧ (rank lib m).Pairwise fun p q => p.Value ≥ q.Value)
    ∧ (rank lib m).Perm (rank lib m')
    ∧ (∀ (a b : ByValue) (i j : Nat), (ByValue.at a i).Value = (ByValue.at b i).Value →
        (ByValue.at a j).Value = (ByValue.at b j).Value →
        ByValue.Less a i j = ByValue.Less b i j) := by
  refine ⟨fun hsort => ⟨rank_values_eq lib m m' h hsort, rank_sorted lib m hsort⟩,
    (rank_perm lib m).trans ((h.map _).trans (rank_perm lib m').symm), ?_⟩
  intro a b i j h1 h2
  simp [ByValue.Less, h1, h2]

/-- Witness of `ranking_counts_determined`: the two iteration orders of
`{the:2, sat:2, cat:1}` give the counts 2, 2, 1; and a mapping of 13 words
with a library that meets the contract of `sort.Sort` has non-increasing
counts. -/
theorem ranking_counts_determined_witness :
    (rank insertionLib [(ascii "the", 2), (ascii "sat", 2), (ascii "cat", 1)]).map kv.Value
      = (rank insertionLib [(ascii "cat", 1), (ascii "sat", 2), (ascii "the", 2)]).map kv.Value
    ∧ (rank insertionLib [(ascii "cat", 1), (ascii "sat", 2), (ascii "the", 2)]).map kv.Value
      = [2, 2, 1]
    ∧ ((rank insertionLib [(ascii "a", 3), (ascii "b", 1), (ascii "c", 4), (ascii "d", 1),
      (ascii "e", 5), (ascii "f", 9), (ascii "g", 2), (ascii "h", 6), (ascii "i", 5),
      (ascii "j", 3), (ascii "k", 5), (ascii "l", 8), (ascii "m", 9)]).Pairwise
        fun p q => p.Value ≥ q.Value) :=
  ⟨((ranking_counts_determined insertionLib
      [(ascii "the", 2), (ascii "sat", 2), (ascii "cat", 1)]
      [(ascii "cat", 1), (ascii "sat", 2), (ascii "the", 2)] (by decide)).1
        (Or.inl (by decide))).1,
    by decide,
    ((ranking_counts_determined insertionLib
      [(ascii "a", 3), (ascii "b", 1), (ascii "c", 4), (ascii "d", 1),
        (ascii "e", 5), (ascii "f", 9), (ascii "g", 2), (ascii "h", 6), (ascii "i", 5),
        (ascii "j", 3), (ascii "k", 5), (ascii "l", 8), (ascii "m", 9)] _
      (List.Perm.refl _)).1 (Or.inr sortContract_insertionLib)).2⟩

/-- C15 (as stated, refuted). After `Insert("a", -5)` on a fresh root,
`GetFrequency("a")` right after `Insert("a", 3)` is -2, which is below 3. After
`Insert("\xff", 5)` the call `Insert("\xfe", 1)` is the only insert of
"\xfe", yet `GetFrequency("\xfe")` is 6. And after `Insert("a", 2^63 - 1)`,
`GetFrequency("a")` right after `Insert("a", 1)` is `-2^63`, which is below 1:
the addition wraps around. -/
theorem insert_then_lookup_below_count :
    GetFrequency (Insert (insertAll NewTrieNode [(ascii "a", -5)]) (ascii "a") 3) (ascii "a")
      = -2
    ∧ GetFrequency (Insert (insertAll NewTrieNode [([0xFF], 5)]) [0xFE] 1) [0xFE] = 6
    ∧ GetFrequency (Insert (insertAll NewTrieNode [(ascii "a", 2 ^ 63 - 1)]) (ascii "a") 1)
        (ascii "a") = -(2 ^ 63) := by
  decide

/-- C15 (amended). For every trie built from a fresh root by `Insert` calls,
every word `W` and count `c`, `GetFrequency(W)` right after `Insert(W, c)` is
`c` plus the counts inserted before for words with the rune sequence of `W`,
in the 64-bit arithmetic of Go's `int` (the sum reduced to the range
`-2^63 .. 2^63 - 1` by wrap-around). It is that sum itself, and at least `c`,
when none of those earlier counts is negative and the sum is below `2^63`; and
it equals `c` when no earlier insert has the rune sequence of `W` (for
well-formed UTF-8 words: when `W` was not inserted before). -/
theorem insert_then_lookup (ops : List (GoString × Int)) (W : GoString) (c : Int) :
    GetFrequency (Insert (insertAll NewTrieNode ops) W c) W
      = wrap64 (insertedTotal ops (runes W) + c)
    ∧ ((∀ op ∈ ops, runes op.1 = runes W → 0 ≤ op.2) → isInt64 c = true →
        insertedTotal ops (runes W) + c < 2 ^ 63 →
        GetFrequency (Insert (insertAll NewTrieNode ops) W c) W
          = insertedTotal ops (runes W) + c
        ∧ c ≤ GetFrequency (Insert (insertAll NewTrieNode ops) W c) W)
    ∧ ((∀ op ∈ ops, runes op.1 ≠ runes W) → isInt64 c = true →
        GetFrequency (Insert (insertAll NewTrieNode ops) W c) W = c)
    ∧ (validUTF8 W = true → (∀ op ∈ ops, validUTF8 op.1 = true ∧ op.1 ≠ W) →
        isInt64 c = true →
        GetFrequency (Insert (insertAll NewTrieNode ops) W c) W = c) := by
  have h0 := getFrequency_after_insert ops W c
  refine ⟨h0, ?_, ?_, ?_⟩
  · intro h hc hlt
    have hn := insertedTotal_nonneg ops (runes W) h
    have hr : isInt64 (insertedTotal ops (runes W) + c) = true := by
      simp only [isInt64, decide_eq_true_eq] at hc ⊢
      omega
    rw [h0, wrap64_of_isInt64 _ hr]
    exact ⟨rfl, by omega⟩
  · intro h hc
    rw [h0, insertedTotal_zero ops (runes W) h, zero_add, wrap64_of_isInt64 _ hc]
  · intro hW h hc
    rw [h0, insertedTotal_zero ops (runes W)
      (fun op hop e => (h op hop).2 (runes_injective _ _ (h op hop).1 hW e)), zero_add,
      wrap64_of_isInt64 _ hc]

/-- C19 (as stated, refuted). After `Insert("", 5)` on a fresh root the count of
the root is 5 and `GetFrequency("")` returns 5. -/
theorem root_counts_empty_word :
    (insertAll NewTrieNode [([], 5)]).count = 5
    ∧ GetFrequency (insertAll NewTrieNode [([], 5)]) [] = 5 := by
  decide

/-- C19 (amended). In every trie built from a fresh root by `Insert` calls the
count of the root, which is what `GetFrequency` of the empty word returns, is
the sum of the counts inserted for the empty word, in the 64-bit arithmetic
of Go's `int` (the sum reduced to the range `-2^63 .. 2^63 - 1` by wrap-around,
so the sum itself whenever it is in that range); it is 0 when every inserted
word is non-empty, as in the trie that `main` builds from the ranked sequence
of the pipeline. -/
theorem root_count (ops : List (GoString × Int)) :
    (insertAll NewTrieNode ops).count = wrap64 (insertedFor ops [])
    ∧ (isInt64 (insertedFor ops []) = true →
        (insertAll NewTrieNode ops).count = insertedFor ops [])
    ∧ GetFrequency (insertAll NewTrieNode ops) [] = (insertAll NewTrieNode ops).count
    ∧ ((∀ op ∈ ops, op.1 ≠ []) →
        (insertAll NewTrieNode ops).count = 0
        ∧ GetFrequency (insertAll NewTrieNode ops) [] = 0)
    ∧ (∀ (tbl : Nat → Nat) (chunks : List GoString) (results : List FreqMap) (lib : SortLib)
        (ss : ByValue),
        results.Perm (chunks.map (wordCount tbl)) → ss.Perm (rank lib (mergeLoop results)) →
        (buildTrie ss).count = 0 ∧ GetFrequency (buildTrie ss) [] = 0) := by
  refine ⟨insertAll_root_count ops,
    fun hr => by rw [insertAll_root_count, wrap64_of_isInt64 _ hr], rfl,
    insertAll_root_count_zero ops, ?_⟩
  intro tbl chunks results lib ss h1 h2
  rw [buildTrie_eq]
  apply insertAll_root_count_zero
  intro op hop
  obtain ⟨e, he, rfl⟩ := List.mem_map.1 hop
  exact pipeline_keys_ne_nil tbl chunks results h1 lib ss h2 e he

/-- C16. Empty results of the chunk counter: for every chunk that consists only
of white-space characters and characters of the drop set
`, . ? ! # $ % ^ & * ( ~`, the empty chunk included, `wordCount` produces the
empty mapping. -/
theorem wordCount_empty_on_space_and_punctuation (tbl : Nat → Nat) (chunk : GoString)
    (h : onlySpaceOrPunct chunk = true) :
    wordCount tbl chunk = [] ∧ wordCount tbl [] = [] :=
  ⟨wordCount_of_no_tokens tbl chunk (specTokens_of_onlySpaceOrPunct chunk h), rfl⟩

/-- Witness of `wordCount_empty_on_space_and_punctuation`: the chunk
" .,! ?" followed by a tab and the ideographic space U+3000. -/
theorem wordCount_empty_on_space_and_punctuation_witness :
    wordCount id (ascii " .,! ?" ++ [0x09, 0xE3, 0x80, 0x80]) = [] :=
  (wordCount_empty_on_space_and_punctuation id (ascii " .,! ?" ++ [0x09, 0xE3, 0x80, 0x80])
    (by decide)).1

/-- C18 (as stated, refuted). The longest word of "a bcd" has 3 characters and
the chunk size 4 is larger; `splitString` cuts the text into "a bc" and "d",
and the merged counts have no entry for "bcd", which `wordCount` of the whole
text counts once. -/
theorem chunk_size_above_longest_word_not_exact :
    (specTokens (ascii "a bcd")).map List.length = [1, 3]
    ∧ splitString 5 (ascii "a bcd") 4 = .ret [ascii "a bc", ascii "d"]
    ∧ mapFind (mergeLoop ([ascii "a bc", ascii "d"].map (wordCount id))) (ascii "bcd") = none
    ∧ mapFind (wordCount id (ascii "a bcd")) (ascii "bcd") = some 1 := by
  decide

/-- C18 (amended). For every text `T` without multi-byte characters and every
chunk size `k > 0`, `splitString` returns, and when no chunk boundary falls
inside a word, merging the `wordCount` results over the chunks, in any order
of arrival, gives the same mapping as `wordCount` applied to the whole text.
That is the case for every chunk size that is at least the length of the
text (a single chunk); a chunk size larger than the longest word is not
enough. -/
theorem exact_counts_without_word_split (tbl : Nat → Nat) (T : GoString) (k : Nat)
    (hT : ∀ c ∈ T, c < 0x80) (hk : 0 < k) (fuel : Nat) (hf : T.length ≤ fuel) :
    ∃ cs, splitString fuel T (k : Int) = .ret cs
      ∧ (noWordSplit cs = true →
          ∀ r : List FreqMap, r.Perm (cs.map (wordCount tbl)) →
            ∀ w, mapFind (mergeLoop r) w = mapFind (wordCount tbl T) w)
      ∧ (T.length ≤ k → noWordSplit cs = true) := by
  have hn := runes_length_ascii T hT
  have hf2 : (runes T).length ≤ fuel := by omega
  obtain ⟨cs, e1, j1, _⟩ := splitString_pos T (k : Int) (by exact_mod_cast hk) fuel hf2
  refine ⟨cs, e1, ?_, ?_⟩
  · intro hns r hr w
    rw [mergeLoop_perm r _ hr, merge_wordCount_flatten tbl cs hns, j1, hn, List.take_length]
  · intro hle
    have e2 := splitString_chunks T k hk fuel hf2
    rw [e1] at e2
    injection e2 with e3
    apply noWordSplit_of_length_le_one
    rw [e3, List.length_map, List.length_range]
    exact chunkCount_le_one _ _ hk (by omega)

/-- Witness of `exact_counts_without_word_split`: "a bcd" with chunk size 5. -/
theorem exact_counts_without_word_split_witness :
    splitString 5 (ascii "a bcd") 5 = .ret [ascii "a bcd"]
    ∧ mapFind (mergeLoop ([ascii "a bcd"].map (wordCount id))) (ascii "bcd")
      = mapFind (wordCount id (ascii "a bcd")) (ascii "bcd") := by
  obtain ⟨cs, e1, h1, h2⟩ :=
    exact_counts_without_word_split id (ascii "a bcd") 5 (by decide) (by decide) 5 (by decide)
  have d1 : splitString 5 (ascii "a bcd") 5 = .ret [ascii "a bcd"] := by decide
  have e2 : splitString 5 (ascii "a bcd") 5 = .ret cs := e1
  rw [d1] at e2
  cases e2
  exact ⟨d1, h1 (h2 (by decide)) _ (List.Perm.refl _) (ascii "bcd")⟩

/-- C20. Keys of a partial mapping are normalised words: for every chunk, every
key of the mapping produced by `wordCount` is non-empty, is well-formed UTF-8,
contains no white-space character, none of the drop characters
`, . ? ! # $ % ^ & * ( ~` and no upper-case ASCII letter, and has a count of
at least 1 (the Unicode case table is taken to map a character above ASCII
that is no white space to a character of a normalised word). So the empty
word is never inserted into the trie by the pipeline: no entry of the ranked
sequence has it. -/
theorem wordCount_keys_normalised (tbl : Nat → Nat) (htbl : lowerTableOK tbl)
    (chunk k : GoString) (hk : k ∈ mapKeys (wordCount tbl chunk)) :
    k ≠ []
    ∧ validUTF8 k = true
    ∧ (∀ r ∈ runes k, IsSpace r = false ∧ punctClass r = false ∧ ¬ (0x41 ≤ r ∧ r ≤ 0x5A))
    ∧ 1 ≤ mapGet (wordCount tbl chunk) k
    ∧ (∀ (chunks : List GoString) (results : List FreqMap) (lib : SortLib) (ss : ByValue),
        results.Perm (chunks.map (wordCount tbl)) → ss.Perm (rank lib (mergeLoop results)) →
        ∀ e ∈ ss, e.Key ≠ []) := by
  obtain ⟨t, ht, hkt⟩ := wordCount_key_token tbl chunk k hk
  have hprops := specTokens_props chunk t ht
  refine ⟨wordCount_key_ne_nil tbl chunk k hk, wordCount_keys_valid tbl chunk k hk, ?_, ?_, ?_⟩
  · intro r hr
    rw [← hkt] at hr
    have hn := ToLower_normal tbl htbl t hprops.2 r hr
    simp only [normalRune, Bool.and_eq_true, Bool.not_eq_true', Bool.and_eq_false_iff,
      decide_eq_false_iff_not] at hn
    exact ⟨hn.1.1, hn.1.2, by omega⟩
  · rw [wordCount_mapGet]
    have := (wordCount_mem_keys tbl chunk k).1 hk
    omega
  · intro chunks results lib ss h1 h2
    exact pipeline_keys_ne_nil tbl chunks results h1 lib ss h2

/-- Witness of `wordCount_keys_normalised`: the key "the" of the counts of
"The Cat, the dog!". -/
theorem wordCount_keys_normalised_witness :
    ascii "the" ∈ mapKeys (wordCount id (ascii "The Cat, the dog!"))
    ∧ ascii "the" ≠ []
    ∧ 1 ≤ mapGet (wordCount id (ascii "The Cat, the dog!")) (ascii "the") :=
  ⟨by decide,
    (wordCount_keys_normalised id lowerTableOK_id (ascii "The Cat, the dog!") (ascii "the")
      (by decide)).1,
    (wordCount_keys_normalised id lowerTableOK_id (ascii "The Cat, the dog!") (ascii "the")
      (by decide)).2.2.2.1⟩

end WordFreq
